import Mathlib

/-!
# shush-stack: a byte-level embedding of `SafeStack<T>` and `SafeStackStatic<T, N>`

The buffer `buf_` is modelled as a map from byte offsets (relative to `buf_`)
to byte values; every field is read and written through the offsets of
`shush-stack.hpp`.  `size_t` and `uint64_t` are 64-bit (LP64, little endian);
their arithmetic is taken modulo `WORD = 2^64`, reduced once at the end of an
expression.

* The map is total: it also gives the bytes that follow the allocation, which
  `CalculateHash` reads (its second view is one byte longer than the buffer),
  and the bytes before `buf_`, at the offsets just below `2^64`, which
  `GetSecondCanary` reads when the stored capacity makes the size wrap around.
* One call is run on the memory it finds.  Between two calls the rest of the
  program may write to the memory that is not the stack's: `runWith` runs a
  sequence of calls in such a program, `run` in one that writes nothing.
* A byte is a natural number.  Words are decoded modulo 256 per byte and the
  stack writes bytes below 256 only; nothing else depends on the bound.
* An element of type `T` is identified with its object representation, a list
  of `sizeof(T)` bytes: `T` is trivially copyable, as in the tests.
* The macros `MASSERT` and `VERIFIED` come from `shush-dump.hpp`, which is not
  part of the sources; they are modelled as built with assertions enabled.
* The logger is not modelled; what it allocates and frees is part of what the
  rest of the program does to the memory.
-/

namespace shush
namespace stack

/-! ## Machine words and memory -/

/-- Modulus of `size_t` and `uint64_t` arithmetic: `2^64`. -/
def WORD : Nat := 18446744073709551616

/-- Memory seen through the pointer `buf_`: byte offset to byte value.  Addresses
are 64-bit words, so an address that the code forms below `buf_` is an offset
taken modulo `2^64`: the byte `k` places before `buf_` is the one at offset
`2^64 - k`. -/
abbrev Mem := Nat → Nat

/-- The `n` bytes starting at offset `p`: what `std::string_view(buf_ + p, n)`
views and what `*reinterpret_cast<T*>(buf_ + p)` reads. -/
def load (m : Mem) (p n : Nat) : List Nat :=
  (List.range n).map (fun k => m (p + k))

/-- The bytes `bs` written from offset `p` on: `memcpy(buf_ + p, bs, |bs|)`, and
placement-new of a trivially copyable object. -/
def store (m : Mem) (p : Nat) (bs : List Nat) : Mem :=
  fun a => if p ≤ a ∧ a < p + bs.length then bs.getD (a - p) 0 else m a

/-- Object representation of a 64-bit word, least significant byte first. -/
def bytes64 (v : Nat) : List Nat :=
  [v % 256, v / 256 % 256, v / 65536 % 256, v / 16777216 % 256,
   v / 4294967296 % 256, v / 1099511627776 % 256,
   v / 281474976710656 % 256, v / 72057594037927936 % 256]

/-- The 64-bit word stored at `p`: `*reinterpret_cast<uint64_t*>(buf_ + p)`. -/
def load64 (m : Mem) (p : Nat) : Nat :=
  m p % 256 + 256 * (m (p + 1) % 256) + 65536 * (m (p + 2) % 256)
    + 16777216 * (m (p + 3) % 256) + 4294967296 * (m (p + 4) % 256)
    + 1099511627776 * (m (p + 5) % 256) + 281474976710656 * (m (p + 6) % 256)
    + 72057594037927936 * (m (p + 7) % 256)

/-! ## Constants of `shush-stack.hpp` -/

/-- Width of `size_t` in bytes on the modelled target. -/
def SIZEOF_SIZE_T : Nat := 8

def DEFAULT_RESERVED_SIZE : Nat := 2048
def DEFAULT_INITIAL_SIZE : Nat := 10

def CANARY_SIZE : Nat := 8
def CANARY_VALUE : Nat := 0xDEDDA1C0FFEE

def HASH_SIZE : Nat := 8
def HASH_POS : Nat := CANARY_SIZE

def CUR_SIZE_SIZE : Nat := SIZEOF_SIZE_T
def CUR_SIZE_POS : Nat := HASH_POS + HASH_SIZE

def BUF_SIZE_SIZE : Nat := SIZEOF_SIZE_T
def BUF_SIZE_POS : Nat := CUR_SIZE_POS + CUR_SIZE_SIZE

def BUF_POS : Nat := BUF_SIZE_POS + BUF_SIZE_SIZE

/-- The character `'#'`. -/
def POISON_VALUE : Nat := 35

/-- The error codes `enum Errc`. -/
inductive Errc where
  | ASSERT_FAILED
  | THIS_PTR_IS_NULLPTR
  | CORRUPTED_FIRST_CANARY
  | CORRUPTED_SECOND_CANARY
  | HASH_NOT_THE_SAME
  | CUR_SIZE_IS_BIGGER_THAN_BUF
  | UNINITIALIZED_CELL_IS_NOT_POISON
  | POP_ON_0_SIZE
  | REALLOCATION_IN_STATIC_STACK
  deriving DecidableEq, Repr

/-- Numeric value of an error code, as declared in the enum. -/
def Errc.code : Errc → Int
  | .ASSERT_FAILED => -1
  | .THIS_PTR_IS_NULLPTR => 0
  | .CORRUPTED_FIRST_CANARY => 1
  | .CORRUPTED_SECOND_CANARY => 2
  | .HASH_NOT_THE_SAME => 3
  | .CUR_SIZE_IS_BIGGER_THAN_BUF => 4
  | .UNINITIALIZED_CELL_IS_NOT_POISON => 5
  | .POP_ON_0_SIZE => 6
  | .REALLOCATION_IN_STATIC_STACK => 7

/-! ## The element type and the standard-library hashes -/

/-- What the template is instantiated with: `sizeof(T)` and the two
implementation-defined hash functions of the standard library. -/
structure Cfg where
  /-- The size `sizeof(T)` of an element, in bytes. -/
  sizeofT : Nat
  /-- An object occupies at least one byte. -/
  sizeofT_pos : 0 < sizeofT
  /-- The hash `std::hash<size_t>`. -/
  hashSizeT : Nat → Nat
  /-- The hash `std::hash<std::string_view>`, on the bytes of the view. -/
  hashStr : List Nat → Nat

/-- A value of the element type `T`, identified with its object
representation: exactly `sizeof(T)` bytes. -/
abbrev Elem (P : Cfg) := { l : List Nat // l.length = P.sizeofT }

/-- The instance: its own address (`this`, `0` for `nullptr`) and the memory
its `buf_` points into. -/
structure SafeStack where
  this_ptr : Nat
  buf_ : Mem

/-- Writes the bytes `bs` through `buf_` at offset `p`. -/
def SafeStack.write (s : SafeStack) (p : Nat) (bs : List Nat) : SafeStack :=
  { s with buf_ := store s.buf_ p bs }

/-! ## Accessors -/

def GetFirstCanary (s : SafeStack) : Nat := load64 s.buf_ 0

def GetCurSize (s : SafeStack) : Nat := load64 s.buf_ CUR_SIZE_POS

def GetBufSize (s : SafeStack) : Nat := load64 s.buf_ BUF_SIZE_POS

def GetHashValue (s : SafeStack) : Nat := load64 s.buf_ HASH_POS

def GetAllBufferSize (P : Cfg) (s : SafeStack) : Nat :=
  (GetBufSize s * P.sizeofT + CANARY_SIZE * 2 +
    HASH_SIZE + CUR_SIZE_SIZE + BUF_SIZE_SIZE) % WORD

/-- The trailing sentinel, `*reinterpret_cast<uint64_t*>(buf_ + GetAllBufferSize()
- CANARY_SIZE)`.  The address is computed in 64-bit arithmetic: when the size
that the stored capacity describes has wrapped below `CANARY_SIZE`, the word is
read before `buf_`, at the offsets just below `2^64`, and not inside the
buffer. -/
def GetSecondCanary (P : Cfg) (s : SafeStack) : Nat :=
  load64 (fun a => s.buf_ (a % WORD)) ((GetAllBufferSize P s + WORD - CANARY_SIZE) % WORD)

/-- The element slot starting at byte offset `pos`:
`*reinterpret_cast<T*>(buf_ + pos)`. -/
def slotAt (P : Cfg) (s : SafeStack) (pos : Nat) : Elem P :=
  ⟨load s.buf_ pos P.sizeofT, by simp [load]⟩

def GetElement (P : Cfg) (s : SafeStack) (ind : Nat) : Elem P :=
  slotAt P s ((BUF_POS + ind * P.sizeofT) % WORD)

def GetPoisonValue (P : Cfg) : Elem P :=
  ⟨List.replicate P.sizeofT POISON_VALUE, by simp⟩

/-- The byte loop of `IsPoison`: false at the first byte that differs from
`POISON_VALUE`, true when all `sizeof(T)` bytes were compared. -/
def IsPoison (P : Cfg) (val : Elem P) : Bool :=
  val.val.all (fun b => b == POISON_VALUE)

/-! ## Checksum -/

def CalculateHash (P : Cfg) (all_buffer_size : Nat) (s : SafeStack) : Nat :=
  (P.hashSizeT s.this_ptr
    + P.hashStr (load s.buf_ 0 HASH_POS)
    + P.hashStr (load s.buf_ (HASH_POS + HASH_SIZE)
        ((all_buffer_size + WORD - HASH_SIZE - HASH_POS + 1) % WORD))) % WORD

/-- The overload `CalculateHash()`. -/
def CalculateHash_0 (P : Cfg) (s : SafeStack) : Nat :=
  CalculateHash P (GetAllBufferSize P s) s

def CalculateAndPlaceHash (P : Cfg) (all_buffer_size : Nat) (s : SafeStack) : SafeStack :=
  s.write HASH_POS (bytes64 (CalculateHash P all_buffer_size s))

/-- The overload `CalculateAndPlaceHash()`. -/
def CalculateAndPlaceHash_0 (P : Cfg) (s : SafeStack) : SafeStack :=
  CalculateAndPlaceHash P (GetAllBufferSize P s) s

/-! ## Mutators -/

def FillCanaries (P : Cfg) (all_buffer_size : Nat) (s : SafeStack) : SafeStack :=
  let s1 := s.write 0 (bytes64 CANARY_VALUE)
  let s2 := s1.write (all_buffer_size - CANARY_SIZE) (bytes64 CANARY_VALUE)
  CalculateAndPlaceHash_0 P s2

def SetCurSizeVal (P : Cfg) (cur_size : Nat) (s : SafeStack) : SafeStack :=
  CalculateAndPlaceHash_0 P (s.write CUR_SIZE_POS (bytes64 cur_size))

def SetBufferSizeVal (P : Cfg) (buffer_size : Nat) (s : SafeStack) : SafeStack :=
  CalculateAndPlaceHash_0 P (s.write BUF_SIZE_POS (bytes64 buffer_size))

/-- The loop `for (i = from; i != to; ++i) *i = POISON_VALUE`, with both
pointers given as offsets from `buf_`; every caller passes `from_ ≤ to_`. -/
def FillWithPoison (P : Cfg) (from_ to_ : Nat) (s : SafeStack) : SafeStack :=
  CalculateAndPlaceHash_0 P (s.write from_ (List.replicate (to_ - from_) POISON_VALUE))

/-! ## Verification -/

/-- Result of running `Ok()`: every check passed, a check raised its error
code, or the slot scan never leaves its loop. -/
inductive Verdict where
  | pass
  | fail (e : Errc)
  | diverge
  deriving DecidableEq, Repr

/-- Modelled from the spec: the macro `MASSERT(cond, errc)` of `shush-dump.hpp`,
which is not among the sources.  A violated check aborts the operation with its
error code, and `Ok()` writes every check as `MASSERT(<what must hold>, <code>)`:
the macro raises `errc` exactly when `cond` is false. -/
def MASSERT (cond : Bool) (errc : Errc) : Option Errc :=
  if cond then none else some errc

/-- The payload scan of `Ok()`:
`for (i = BUF_POS; i < all_size; i += sizeof(T))`.  A live slot equal to poison
only logs a warning; a slot at or after `cur_size_bytes` must be poison.  The
index `i` takes at most `2^64` values, so a scan that is still running when the
fuel `WORD` is used up runs forever. -/
def OkLoop (P : Cfg) (s : SafeStack) (cur_size_bytes all_size : Nat) : Nat → Nat → Verdict
  | 0, _ => Verdict.diverge
  | fuel + 1, i =>
    if i < all_size then
      if i < cur_size_bytes then
        OkLoop P s cur_size_bytes all_size fuel ((i + P.sizeofT) % WORD)
      else
        match MASSERT (IsPoison P (slotAt P s i)) Errc.UNINITIALIZED_CELL_IS_NOT_POISON with
        | some e => Verdict.fail e
        | none => OkLoop P s cur_size_bytes all_size fuel ((i + P.sizeofT) % WORD)
    else Verdict.pass

def Ok (P : Cfg) (s : SafeStack) : Verdict :=
  match MASSERT (s.this_ptr != 0) Errc.THIS_PTR_IS_NULLPTR with
  | some e => Verdict.fail e
  | none =>
  match MASSERT (GetFirstCanary s == CANARY_VALUE) Errc.CORRUPTED_FIRST_CANARY with
  | some e => Verdict.fail e
  | none =>
  match MASSERT (GetSecondCanary P s == CANARY_VALUE) Errc.CORRUPTED_SECOND_CANARY with
  | some e => Verdict.fail e
  | none =>
  match MASSERT (GetHashValue s == CalculateHash_0 P s) Errc.HASH_NOT_THE_SAME with
  | some e => Verdict.fail e
  | none =>
  match MASSERT (decide (GetCurSize s ≤ GetBufSize s)) Errc.CUR_SIZE_IS_BIGGER_THAN_BUF with
  | some e => Verdict.fail e
  | none =>
    let cur_size_bytes := (BUF_POS + GetCurSize s * P.sizeofT) % WORD
    let all_size := (GetAllBufferSize P s + WORD - CANARY_SIZE) % WORD
    OkLoop P s cur_size_bytes all_size WORD BUF_POS

/-! ## Operations -/

/-- Outcome of an operation: it returns `val`, or a `Dump` carrying an error
code is thrown, in both cases leaving the instance in state `st`; or it never
returns. -/
inductive Res (α : Type) where
  | ok (val : α) (st : SafeStack)
  | thrown (e : Errc) (st : SafeStack)
  | diverged

/-- Modelled from the spec: the macro `VERIFIED` of `shush-dump.hpp`, which is
not among the sources.  The operation is wrapped by a full `Verify()` both on
entry and on exit; a violation aborts it with the error of the violated
check. -/
def VERIFIED {α : Type} (P : Cfg) (body : SafeStack → Res α) (s : SafeStack) : Res α :=
  match Ok P s with
  | Verdict.fail e => Res.thrown e s
  | Verdict.diverge => Res.diverged
  | Verdict.pass =>
    match body s with
    | Res.ok val st =>
      match Ok P st with
      | Verdict.pass => Res.ok val st
      | Verdict.fail e => Res.thrown e st
      | Verdict.diverge => Res.diverged
    | r => r

/-- The relocation loop of `ReallocateDoubleSize`: slot `i` of the old buffer
is move-constructed at the same offset of the new one, for `i < buf_t_size`. -/
def moveSlots (P : Cfg) (old : Mem) (buf_t_size : Nat) (new_buf : Mem) : Mem :=
  (List.range buf_t_size).foldl
    (fun nb i =>
      let pos := (BUF_POS + i * P.sizeofT) % WORD
      store nb pos (load old pos P.sizeofT))
    new_buf

/-- The body of `SafeStack<T>::ReallocateDoubleSize`.  `new_mem` is the memory at
the address returned by `new char[new_all_size]`, whose content is
indeterminate; `delete[] buf_` leaves no trace in the new buffer. -/
def ReallocateDoubleSize.body (P : Cfg) (new_mem : Mem) (s : SafeStack) : SafeStack :=
  let all_size := GetAllBufferSize P s
  let buf_t_size := GetBufSize s
  let new_all_size := (all_size + buf_t_size * P.sizeofT) % WORD
  let new_buf := moveSlots P s.buf_ buf_t_size new_mem
  let s1 : SafeStack := { s with buf_ := new_buf }
  let s2 := SetBufferSizeVal P ((buf_t_size * 2) % WORD) s1
  let s3 := SetCurSizeVal P buf_t_size s2
  let s4 := FillCanaries P new_all_size s3
  let s5 := FillWithPoison P (all_size - CANARY_SIZE) (new_all_size - CANARY_SIZE) s4
  CalculateAndPlaceHash P new_all_size s5

/-- The growth step `SafeStack<T>::ReallocateDoubleSize`, which is `VERIFIED`
like the public operations. -/
def ReallocateDoubleSize (P : Cfg) (new_mem : Mem) : SafeStack → Res Unit :=
  VERIFIED P fun s => Res.ok () (ReallocateDoubleSize.body P new_mem s)

/-- The straight-line part of `Push` that follows the capacity check: the
element is constructed in slot `GetCurSize()`, the live-count is incremented
and the checksum is recomputed. -/
def Push.place (P : Cfg) (item : Elem P) (s1 : SafeStack) : SafeStack :=
  let pos := (BUF_POS + GetCurSize s1 * P.sizeofT) % WORD
  let s2 := s1.write pos item.val
  let cur_size := (GetCurSize s2 + 1) % WORD
  let s3 := SetCurSizeVal P cur_size s2
  CalculateAndPlaceHash_0 P s3

/-- The operation `SafeStack<T>::Push`, for both overloads (`const T&` and `T&&`): they
differ only in how the element is constructed in its slot.  The growth function
is not virtual, so the call binds to `SafeStack<T>::ReallocateDoubleSize` for
the fixed-capacity variant as well. -/
def Push (P : Cfg) (new_mem : Mem) (item : Elem P) : SafeStack → Res Unit :=
  VERIFIED P fun s =>
    match (if GetCurSize s = GetBufSize s then ReallocateDoubleSize P new_mem s
           else Res.ok () s) with
    | Res.ok _ s1 => Res.ok () (Push.place P item s1)
    | r => r

/-- The operation `SafeStack<T>::Pop`. -/
def Pop (P : Cfg) : SafeStack → Res (Elem P) :=
  VERIFIED P fun s =>
    let size := GetCurSize s
    match (if size = 0 then MASSERT true Errc.POP_ON_0_SIZE else none) with
    | some e => Res.thrown e s
    | none =>
      let pos := (BUF_POS + (size + WORD - 1) * P.sizeofT) % WORD
      let res := slotAt P s pos
      let s1 := FillWithPoison P pos (pos + P.sizeofT) s
      let s2 := SetCurSizeVal P ((size + WORD - 1) % WORD) s1
      Res.ok res (CalculateAndPlaceHash_0 P s2)

/-- The local `all_size` of the constructor `SafeStack<T>::SafeStack()`: the
size passed to `new char[...]`, `FillCanaries` and `CalculateAndPlaceHash`. -/
def SafeStack.construct.all_size (P : Cfg) : Nat :=
  (CANARY_SIZE + HASH_SIZE + CUR_SIZE_SIZE + BUF_SIZE_SIZE +
    DEFAULT_INITIAL_SIZE * P.sizeofT + CANARY_SIZE) % WORD

/-- The state in which `SafeStack<T>::SafeStack()` calls `FillCanaries`: the
capacity and the live-count have been stored in the new buffer. -/
def SafeStack.construct.sized (P : Cfg) (this_ptr : Nat) (new_mem : Mem) : SafeStack :=
  SetCurSizeVal P 0
    (SetBufferSizeVal P DEFAULT_INITIAL_SIZE { this_ptr := this_ptr, buf_ := new_mem })

/-- The local `all_size` of the constructor of `SafeStackStatic<T, ReservedSize>`,
which is also the length of the member array `buf_static_`. -/
def SafeStackStatic.construct.all_size (P : Cfg) (ReservedSize : Nat) : Nat :=
  (CANARY_SIZE + HASH_SIZE + CUR_SIZE_SIZE + BUF_SIZE_SIZE +
    ReservedSize * P.sizeofT + CANARY_SIZE) % WORD

/-- The state in which the constructor of `SafeStackStatic<T, ReservedSize>` calls
`FillCanaries`: `buf_` is bound to the zero-initialised `buf_static_`, and the
capacity and the live-count have been stored. -/
def SafeStackStatic.construct.sized (P : Cfg) (ReservedSize : Nat) (this_ptr : Nat)
    (after : Mem) : SafeStack :=
  SetCurSizeVal P 0
    (SetBufferSizeVal P (ReservedSize % WORD)
      { this_ptr := this_ptr,
        buf_ := fun a =>
          if a < SafeStackStatic.construct.all_size P ReservedSize then 0 else after a })

/-- The local `new_all_size` of `ReallocateDoubleSize`:
`all_size + buf_t_size * sizeof(T)`, the size passed to `new char[...]`,
`FillCanaries` and `CalculateAndPlaceHash`. -/
def ReallocateDoubleSize.new_all_size (P : Cfg) (s : SafeStack) : Nat :=
  (GetAllBufferSize P s + GetBufSize s * P.sizeofT) % WORD

/-- The state in which `ReallocateDoubleSize` calls `FillCanaries`: the elements
are in the new buffer, and the doubled capacity and the live-count have been
stored there. -/
def ReallocateDoubleSize.sized (P : Cfg) (new_mem : Mem) (s : SafeStack) : SafeStack :=
  SetCurSizeVal P (GetBufSize s)
    (SetBufferSizeVal P ((GetBufSize s * 2) % WORD)
      { s with buf_ := moveSlots P s.buf_ (GetBufSize s) new_mem })

/-- The offset `pos` that `Push` computes for the slot it writes,
`BUF_POS + GetCurSize() * sizeof(T)`, on the state `s1` that the capacity check
and the growth step, if any, leave: `Push.place` writes the element there. -/
def Push.pos (P : Cfg) (s1 : SafeStack) : Nat :=
  (BUF_POS + GetCurSize s1 * P.sizeofT) % WORD

/-- The offset `pos` that `Pop` computes for the slot it reads and poisons,
`BUF_POS + (size - 1) * sizeof(T)` with `size = GetCurSize()`. -/
def Pop.pos (P : Cfg) (s : SafeStack) : Nat :=
  (BUF_POS + (GetCurSize s + WORD - 1) * P.sizeofT) % WORD

/-- The constructor `SafeStack<T>::SafeStack()` of the growable variant, for
an instance at address `this_ptr`; `new_mem` is the memory returned by
`new char[all_size]`. -/
def SafeStack.construct (P : Cfg) (this_ptr : Nat) (new_mem : Mem) : SafeStack :=
  let all_size := (CANARY_SIZE + HASH_SIZE + CUR_SIZE_SIZE + BUF_SIZE_SIZE +
                    DEFAULT_INITIAL_SIZE * P.sizeofT + CANARY_SIZE) % WORD
  let s0 : SafeStack := { this_ptr := this_ptr, buf_ := new_mem }
  let s1 := SetBufferSizeVal P DEFAULT_INITIAL_SIZE s0
  let s2 := SetCurSizeVal P 0 s1
  let s3 := FillCanaries P all_size s2
  let s4 := FillWithPoison P BUF_POS (all_size - CANARY_SIZE) s3
  CalculateAndPlaceHash P all_size s4

/-- The constructor `SafeStackStatic<T, ReservedSize>::SafeStackStatic()`.  The base
constructor has run before (its heap buffer is dropped when `buf_` is rebound);
`buf_static_` is zero-initialised and `after` is the memory that follows it. -/
def SafeStackStatic.construct (P : Cfg) (ReservedSize : Nat) (this_ptr : Nat)
    (after : Mem) : SafeStack :=
  let all_size := (CANARY_SIZE + HASH_SIZE + CUR_SIZE_SIZE + BUF_SIZE_SIZE +
                    ReservedSize * P.sizeofT + CANARY_SIZE) % WORD
  let buf_static_ : Mem := fun a => if a < all_size then 0 else after a
  let s0 : SafeStack := { this_ptr := this_ptr, buf_ := buf_static_ }
  let s1 := SetBufferSizeVal P (ReservedSize % WORD) s0
  let s2 := SetCurSizeVal P 0 s1
  let s3 := FillCanaries P all_size s2
  let s4 := FillWithPoison P BUF_POS (all_size - CANARY_SIZE) s3
  CalculateAndPlaceHash P all_size s4

/-- The member `SafeStackStatic<T, ReservedSize>::ReallocateDoubleSize`: private,
it hides the base one; no member of `SafeStack<T>` calls it. -/
def SafeStackStatic.ReallocateDoubleSize (s : SafeStack) : Res Unit :=
  match MASSERT true Errc.REALLOCATION_IN_STATIC_STACK with
  | some e => Res.thrown e s
  | none => Res.ok () s

/-! ## Specification vocabulary -/

/-- The invariants of the data model, for live-count `n` and capacity `c`: the
instance is not null, both sentinels hold `CANARY_VALUE` (the trailing one right
after the `c` payload slots), the stored checksum is the recomputed one,
`n ≤ c`, the buffer fits in the address space, and every slot from `n` on is
poison. -/
structure Inv (P : Cfg) (s : SafeStack) (n c : Nat) : Prop where
  this_ne : s.this_ptr ≠ 0
  cur : GetCurSize s = n
  cap : GetBufSize s = c
  le : n ≤ c
  fits : BUF_POS + c * P.sizeofT + CANARY_SIZE < WORD
  first : GetFirstCanary s = CANARY_VALUE
  second : load64 s.buf_ (BUF_POS + c * P.sizeofT) = CANARY_VALUE
  hash : GetHashValue s = CalculateHash_0 P s
  tail : ∀ k, n ≤ k → k < c → IsPoison P (slotAt P s (BUF_POS + k * P.sizeofT)) = true

/-- A consistent stack: `Ok()` passes, and the buffer that the stored capacity
describes fits in the address space (as any buffer that was allocated does). -/
def Consistent (P : Cfg) (s : SafeStack) : Prop :=
  Ok P s = Verdict.pass ∧ BUF_POS + GetBufSize s * P.sizeofT + CANARY_SIZE < WORD

/-- The live elements, bottom of the stack first: slots `0 .. GetCurSize() - 1`. -/
def contents (P : Cfg) (s : SafeStack) : List (Elem P) :=
  (List.range (GetCurSize s)).map (fun i => GetElement P s i)

/-- The initialisation both constructors perform on the buffer they are given,
for capacity `N` and a buffer of `all_size` bytes. -/
def initBuffer (P : Cfg) (N all_size : Nat) (s0 : SafeStack) : SafeStack :=
  CalculateAndPlaceHash P all_size
    (FillWithPoison P BUF_POS (all_size - CANARY_SIZE)
      (FillCanaries P all_size (SetCurSizeVal P 0 (SetBufferSizeVal P N s0))))

/-- One public call on the stack. -/
inductive Op (P : Cfg) where
  | push (item : Elem P)
  | pop

/-- Number of `Push` calls in a sequence of calls. -/
def pushes {P : Cfg} : List (Op P) → Nat
  | [] => 0
  | Op.push _ :: ops => pushes ops + 1
  | Op.pop :: ops => pushes ops

/-- The stack as call `k` finds it: `env k` is what the rest of the program
did to the memory since the call before.  The instance and the pointer `buf_`
are the same. -/
def disturbed (env : Nat → Mem → Mem) (k : Nat) (s : SafeStack) : SafeStack :=
  { s with buf_ := env k s.buf_ }

/-- Runs a sequence of calls in a program that writes to memory between the
calls, the `k`-th call of the program being the first one: before call `i` the
memory is changed by `env i`, and `alloc i` is the memory that `new` hands out
during call `i`.  The buffer has `GetAllBufferSize()` bytes; the bytes from
that offset on belong to the allocator or to neighbouring objects.  The result
is the list of the values the `Pop` calls returned, in call order, and the
final state; there is none when a call throws or does not return. -/
def runWith (P : Cfg) (alloc : Nat → Mem) (env : Nat → Mem → Mem) :
    Nat → List (Op P) → SafeStack → Option (List (Elem P) × SafeStack)
  | _, [], s => some ([], s)
  | k, Op.push item :: ops, s =>
    match Push P (alloc k) item (disturbed env k s) with
    | Res.ok _ s' => runWith P alloc env (k + 1) ops s'
    | _ => none
  | k, Op.pop :: ops, s =>
    match Pop P (disturbed env k s) with
    | Res.ok v s' => (runWith P alloc env (k + 1) ops s').map (fun r => (v :: r.1, r.2))
    | _ => none

/-- An environment that leaves the bytes at the offsets `0 .. top` alone: the
rest of the program writes only above `top`. -/
def Quiet (env : Nat → Mem → Mem) (top : Nat) : Prop :=
  ∀ k m a, a ≤ top → env k m a = m a

/-- An environment that writes the byte `b` at offset `p` before call `0` and
nothing else. -/
def writesOnce (p b : Nat) : Nat → Mem → Mem :=
  fun k m => if k = 0 then store m p [b] else m

/-- The environment of a program that writes nothing between the calls. -/
def idle : Nat → Mem → Mem :=
  fun _ m => m

/-- Runs a sequence of calls with nothing else writing to memory between them:
`runWith` in the environment `idle`.  Each call finds the memory as the call
before left it, the byte at offset `GetAllBufferSize()` included, which
`CalculateHash` digests and which is not part of the buffer. -/
def run (P : Cfg) (alloc : Nat → Mem) :
    Nat → List (Op P) → SafeStack → Option (List (Elem P) × SafeStack) :=
  runWith P alloc idle

/-- The last-in-first-out reference, in the words of the specification: a
`Pop` returns the most recently pushed value that has not been popped yet.  The
second argument lists the pushed and not yet popped values, most recent first;
there is no result when a `Pop` finds none. -/
def lifo {P : Cfg} : List (Op P) → List (Elem P) → Option (List (Elem P) × List (Elem P))
  | [], st => some ([], st)
  | Op.push item :: ops, st => lifo ops (item :: st)
  | Op.pop :: _, [] => none
  | Op.pop :: ops, v :: st => (lifo ops st).map (fun r => (v :: r.1, r.2))

/-- The calls of the loop `Push(v); Pop(); Push(v)` of the stress tests, one
iteration for each value of the list. -/
def stressLoop {P : Cfg} : List (Elem P) → List (Op P)
  | [] => []
  | v :: vs => Op.push v :: Op.pop :: Op.push v :: stressLoop vs

/-- Number of `Pop` calls in a sequence of calls. -/
def pops {P : Cfg} : List (Op P) → Nat
  | [] => 0
  | Op.push _ :: ops => pops ops
  | Op.pop :: ops => pops ops + 1

/-- The last-in-first-out reference for a stack that holds at most `N` values:
as `lifo`, and there is no result either when a `Push` finds `N` values
already, so that the live-count would have to exceed `N`. -/
def lifoBounded {P : Cfg} (N : Nat) :
    List (Op P) → List (Elem P) → Option (List (Elem P) × List (Elem P))
  | [], st => some ([], st)
  | Op.push item :: ops, st =>
    if st.length < N then lifoBounded N ops (item :: st) else none
  | Op.pop :: _, [] => none
  | Op.pop :: ops, v :: st => (lifoBounded N ops st).map (fun r => (v :: r.1, r.2))

/-- Room for one more element: a free slot, or a full buffer of at least one
slot whose doubled size still fits in the address space, so that
`new char[new_all_size]` is asked for the size that growth needs. -/
def Accepts (P : Cfg) (s : SafeStack) : Prop :=
  GetCurSize s < GetBufSize s ∨
    (1 ≤ GetBufSize s ∧ BUF_POS + (2 * GetBufSize s) * P.sizeofT + CANARY_SIZE < WORD)

/-! ## Concrete instances -/

/-- The instantiation `T = uint8_t`, with simple stand-ins for the two
standard-library hashes. -/
def cfgU8 : Cfg :=
  { sizeofT := 1, sizeofT_pos := by decide, hashSizeT := fun x => x, hashStr := List.sum }

/-- The instantiation `T = uint64_t`, with the same stand-in hashes. -/
def cfgU64 : Cfg :=
  { sizeofT := 8, sizeofT_pos := by decide, hashSizeT := fun x => x, hashStr := List.sum }

/-- Memory that holds zero everywhere. -/
def zeroMem : Mem := fun _ => 0

/-- The `uint8_t` value `n`. -/
def u8 (n : Nat) : Elem cfgU8 := ⟨[n % 256], rfl⟩

/-- The `uint64_t` value `n`. -/
def u64 (n : Nat) : Elem cfgU64 := ⟨bytes64 n, rfl⟩

/-- A fixed-capacity stack `SafeStackStatic<uint8_t, 1>` at address `1` that
holds the value `7`: its only slot is taken. -/
def fullFixedU8 : SafeStack :=
  Push.place cfgU8 (u8 7) (SafeStackStatic.construct cfgU8 1 1 zeroMem)

/-- A fresh `SafeStack<uint64_t>` whose leading sentinel bytes were set to
zero. -/
def zeroedU64 : SafeStack :=
  (SafeStack.construct cfgU64 1 zeroMem).write 0 (List.replicate CANARY_SIZE 0)

/-- A `SafeStack<uint8_t>` after the pushes of `0, 1, .., 9`: the live-count
and the capacity are both `10`. -/
def fullU8 : SafeStack :=
  ((List.range 10).map u8).foldl (fun s x => Push.place cfgU8 x s)
    (SafeStack.construct cfgU8 1 zeroMem)

/-- Two instances that differ at most in the bytes of the checksum field. -/
def agree (s t : SafeStack) : Prop :=
  s.this_ptr = t.this_ptr ∧
    ∀ a, a < HASH_POS ∨ HASH_POS + HASH_SIZE ≤ a → s.buf_ a = t.buf_ a

/-! ## Memory lemmas -/

theorem bytes64_length (v : Nat) : (bytes64 v).length = 8 := rfl

theorem load_length (m : Mem) (p n : Nat) : (load m p n).length = n := by
  simp [load]

theorem load_congr {m m' : Mem} {p n : Nat}
    (h : ∀ k, k < n → m (p + k) = m' (p + k)) : load m p n = load m' p n := by
  unfold load
  apply List.map_congr_left
  intro k hk
  exact h k (List.mem_range.mp hk)

theorem load64_lt (m : Mem) (p : Nat) : load64 m p < WORD := by
  unfold load64 WORD
  omega

theorem load64_congr {m m' : Mem} {p : Nat}
    (h : ∀ k, k < 8 → m (p + k) = m' (p + k)) : load64 m p = load64 m' p := by
  have h0 : m p = m' p := h 0 (by omega)
  unfold load64
  rw [h0, h 1 (by omega), h 2 (by omega), h 3 (by omega), h 4 (by omega),
    h 5 (by omega), h 6 (by omega), h 7 (by omega)]

theorem store_outside {m : Mem} {p a : Nat} {bs : List Nat}
    (h : a < p ∨ p + bs.length ≤ a) : store m p bs a = m a := by
  unfold store
  rw [if_neg]
  omega

theorem store_inside {m : Mem} {p k : Nat} {bs : List Nat}
    (h : k < bs.length) : store m p bs (p + k) = bs.getD k 0 := by
  unfold store
  rw [if_pos (by omega), Nat.add_sub_cancel_left]

theorem load_store_same (m : Mem) (p : Nat) (bs : List Nat) :
    load (store m p bs) p bs.length = bs := by
  apply List.ext_getElem
  · simp [load]
  · intro k h1 h2
    simp only [load, List.getElem_map, List.getElem_range]
    rw [store_inside h2, List.getD_eq_getElem _ _ h2]

theorem load64_store_same (m : Mem) (p v : Nat) :
    load64 (store m p (bytes64 v)) p = v % WORD := by
  have e : ∀ k, k < 8 → store m p (bytes64 v) (p + k) = (bytes64 v).getD k 0 :=
    fun k hk => store_inside (by rw [bytes64_length]; exact hk)
  have e0 := e 0 (by omega)
  rw [Nat.add_zero] at e0
  unfold load64
  rw [e0, e 1 (by omega), e 2 (by omega), e 3 (by omega), e 4 (by omega),
    e 5 (by omega), e 6 (by omega), e 7 (by omega)]
  simp only [bytes64, List.getD_cons_zero, List.getD_cons_succ, WORD]
  omega

theorem load64_store_other {m : Mem} {p q : Nat} {bs : List Nat}
    (h : q + 8 ≤ p ∨ p + bs.length ≤ q) :
    load64 (store m p bs) q = load64 m q := by
  apply load64_congr
  intro k hk
  apply store_outside
  omega

theorem load_store_other {m : Mem} {p q n : Nat} {bs : List Nat}
    (h : q + n ≤ p ∨ p + bs.length ≤ q) :
    load (store m p bs) q n = load m q n := by
  apply load_congr
  intro k hk
  apply store_outside
  omega

/-! ## Layout constants, evaluated -/

theorem HASH_POS_eq : HASH_POS = 8 := rfl
theorem HASH_SIZE_eq : HASH_SIZE = 8 := rfl
theorem CANARY_SIZE_eq : CANARY_SIZE = 8 := rfl
theorem CUR_SIZE_POS_eq : CUR_SIZE_POS = 16 := rfl
theorem CUR_SIZE_SIZE_eq : CUR_SIZE_SIZE = 8 := rfl
theorem BUF_SIZE_POS_eq : BUF_SIZE_POS = 24 := rfl
theorem BUF_SIZE_SIZE_eq : BUF_SIZE_SIZE = 8 := rfl
theorem BUF_POS_eq : BUF_POS = 32 := rfl
theorem WORD_eq : WORD = 18446744073709551616 := rfl
theorem CANARY_VALUE_lt : CANARY_VALUE < WORD := by decide

theorem MASSERT_true (e : Errc) : MASSERT true e = none := rfl
theorem MASSERT_false (e : Errc) : MASSERT false e = some e := rfl

/-! ## The checksum field -/

theorem agree_refl (s : SafeStack) : agree s s := ⟨rfl, fun _ _ => rfl⟩

theorem agree_symm {s t : SafeStack} (h : agree s t) : agree t s :=
  ⟨h.1.symm, fun a ha => (h.2 a ha).symm⟩

theorem agree_trans {s t u : SafeStack} (h : agree s t) (h' : agree t u) : agree s u :=
  ⟨h.1.trans h'.1, fun a ha => (h.2 a ha).trans (h'.2 a ha)⟩

theorem agree_place (P : Cfg) (n : Nat) (s : SafeStack) :
    agree (CalculateAndPlaceHash P n s) s := by
  refine ⟨rfl, fun a ha => ?_⟩
  simp only [CalculateAndPlaceHash, SafeStack.write]
  apply store_outside
  rw [bytes64_length]
  simp only [HASH_POS_eq, HASH_SIZE_eq] at ha ⊢
  omega

theorem agree_place_0 (P : Cfg) (s : SafeStack) :
    agree (CalculateAndPlaceHash_0 P s) s :=
  agree_place P _ s

theorem agree_load64 {s t : SafeStack} (h : agree s t) {p : Nat}
    (hp : p + 8 ≤ 8 ∨ 16 ≤ p) : load64 s.buf_ p = load64 t.buf_ p := by
  apply load64_congr
  intro k hk
  apply h.2
  simp only [HASH_POS_eq, HASH_SIZE_eq]
  omega

theorem agree_load {s t : SafeStack} (h : agree s t) {p n : Nat}
    (hp : p + n ≤ 8 ∨ 16 ≤ p) : load s.buf_ p n = load t.buf_ p n := by
  apply load_congr
  intro k hk
  apply h.2
  simp only [HASH_POS_eq, HASH_SIZE_eq]
  omega

theorem agree_cur {s t : SafeStack} (h : agree s t) : GetCurSize s = GetCurSize t :=
  agree_load64 h (Or.inr (by decide))

theorem agree_cap {s t : SafeStack} (h : agree s t) : GetBufSize s = GetBufSize t :=
  agree_load64 h (Or.inr (by decide))

theorem agree_first {s t : SafeStack} (h : agree s t) :
    GetFirstCanary s = GetFirstCanary t :=
  agree_load64 h (Or.inl (by decide))

theorem agree_all (P : Cfg) {s t : SafeStack} (h : agree s t) :
    GetAllBufferSize P s = GetAllBufferSize P t := by
  simp only [GetAllBufferSize, agree_cap h]

theorem agree_slot (P : Cfg) {s t : SafeStack} (h : agree s t) {pos : Nat}
    (hp : 16 ≤ pos) : slotAt P s pos = slotAt P t pos := by
  apply Subtype.ext
  exact agree_load h (Or.inr hp)

theorem agree_hash (P : Cfg) (n : Nat) {s t : SafeStack} (h : agree s t) :
    CalculateHash P n s = CalculateHash P n t := by
  simp only [CalculateHash, h.1]
  rw [agree_load h (Or.inl (by decide)), agree_load h (Or.inr (by decide))]

theorem agree_hash_0 (P : Cfg) {s t : SafeStack} (h : agree s t) :
    CalculateHash_0 P s = CalculateHash_0 P t := by
  simp only [CalculateHash_0, agree_all P h, agree_hash P _ h]

theorem CalculateHash_lt (P : Cfg) (n : Nat) (s : SafeStack) :
    CalculateHash P n s < WORD :=
  Nat.mod_lt _ (by decide)

theorem hash_placed (P : Cfg) (n : Nat) (s : SafeStack) :
    GetHashValue (CalculateAndPlaceHash P n s) = CalculateHash P n s := by
  simp only [GetHashValue, CalculateAndPlaceHash, SafeStack.write, load64_store_same]
  exact Nat.mod_eq_of_lt (CalculateHash_lt P n s)

/-- After `CalculateAndPlaceHash(n)` with `n` the size of the whole buffer,
the stored checksum is the one `Ok()` recomputes. -/
theorem hash_placed_ok (P : Cfg) (n : Nat) (s : SafeStack)
    (hn : n = GetAllBufferSize P s) :
    GetHashValue (CalculateAndPlaceHash P n s)
      = CalculateHash_0 P (CalculateAndPlaceHash P n s) := by
  rw [hash_placed, agree_hash_0 P (agree_place P n s), CalculateHash_0, hn]

theorem hash_placed_ok_0 (P : Cfg) (s : SafeStack) :
    GetHashValue (CalculateAndPlaceHash_0 P s)
      = CalculateHash_0 P (CalculateAndPlaceHash_0 P s) :=
  hash_placed_ok P _ s rfl

/-! ## The payload scan of `Ok()` -/

theorem IsPoison_slot_iff (P : Cfg) (s : SafeStack) (pos : Nat) :
    IsPoison P (slotAt P s pos) = true ↔
      ∀ j, j < P.sizeofT → s.buf_ (pos + j) = POISON_VALUE := by
  simp [IsPoison, slotAt, load]

theorem IsPoison_GetPoisonValue (P : Cfg) : IsPoison P (GetPoisonValue P) = true := by
  simp [IsPoison, GetPoisonValue]

theorem slot_lt {P : Cfg} {k c : Nat} (h : k < c) :
    BUF_POS + k * P.sizeofT + P.sizeofT ≤ BUF_POS + c * P.sizeofT := by
  have h1 : (k + 1) * P.sizeofT ≤ c * P.sizeofT := Nat.mul_le_mul_right _ h
  rw [Nat.succ_mul] at h1
  omega

theorem slot_mono {P : Cfg} {k c : Nat} (h : k ≤ c) :
    BUF_POS + k * P.sizeofT ≤ BUF_POS + c * P.sizeofT := by
  have h1 : k * P.sizeofT ≤ c * P.sizeofT := Nat.mul_le_mul_right _ h
  omega

/-- With enough fuel the scan started at slot `k` ends: it passes when every
slot from `max k n` to `c - 1` is poison, and raises
`UNINITIALIZED_CELL_IS_NOT_POISON` when one of them is not. -/
theorem OkLoop_spec (P : Cfg) (s : SafeStack) (n c : Nat)
    (hfit : BUF_POS + c * P.sizeofT + CANARY_SIZE < WORD) :
    ∀ fuel k, k ≤ c → c - k < fuel →
      (OkLoop P s (BUF_POS + n * P.sizeofT) (BUF_POS + c * P.sizeofT) fuel
          (BUF_POS + k * P.sizeofT) = Verdict.pass ∧
        ∀ k', k ≤ k' → n ≤ k' → k' < c →
          IsPoison P (slotAt P s (BUF_POS + k' * P.sizeofT)) = true) ∨
      (OkLoop P s (BUF_POS + n * P.sizeofT) (BUF_POS + c * P.sizeofT) fuel
          (BUF_POS + k * P.sizeofT) = Verdict.fail Errc.UNINITIALIZED_CELL_IS_NOT_POISON ∧
        ∃ k', k ≤ k' ∧ n ≤ k' ∧ k' < c ∧
          IsPoison P (slotAt P s (BUF_POS + k' * P.sizeofT)) = false) := by
  intro fuel
  induction fuel with
  | zero => intro k _ hf; omega
  | succ fuel ih =>
    intro k hk hf
    rw [OkLoop]
    by_cases hkc : k < c
    · have hlt := slot_lt (P := P) hkc
      have hpos := P.sizeofT_pos
      have hnext : (BUF_POS + k * P.sizeofT + P.sizeofT) % WORD
          = BUF_POS + (k + 1) * P.sizeofT := by
        rw [Nat.succ_mul, Nat.mod_eq_of_lt (by omega)]
        omega
      rw [if_pos (by omega), hnext]
      have step := ih (k + 1) hkc (by omega)
      by_cases hkn : k < n
      · have h2 := slot_lt (P := P) hkn
        rw [if_pos (by omega)]
        rcases step with ⟨h1, h3⟩ | ⟨h1, k', h3, h4, h5, h6⟩
        · refine Or.inl ⟨h1, fun k' a b d => h3 k' (by omega) b d⟩
        · exact Or.inr ⟨h1, k', by omega, h4, h5, h6⟩
      · have h2 := slot_mono (P := P) (Nat.le_of_not_lt hkn)
        rw [if_neg (by omega)]
        cases hp : IsPoison P (slotAt P s (BUF_POS + k * P.sizeofT)) with
        | false =>
          rw [MASSERT_false]
          exact Or.inr ⟨rfl, k, Nat.le_refl _, Nat.le_of_not_lt hkn, hkc, hp⟩
        | true =>
          rw [MASSERT_true]
          rcases step with ⟨h1, h3⟩ | ⟨h1, k', h3, h4, h5, h6⟩
          · refine Or.inl ⟨h1, fun k' a b d => ?_⟩
            by_cases e : k' = k
            · rw [e]; exact hp
            · exact h3 k' (by omega) b d
          · exact Or.inr ⟨h1, k', by omega, h4, h5, h6⟩
    · have e : k = c := by omega
      rw [if_neg (by rw [e]; omega)]
      exact Or.inl ⟨rfl, fun k' a _ d => by omega⟩

/-! ## `Ok()` and the invariants -/

/-- When the buffer has room for a sentinel, `GetSecondCanary` reads its last
eight bytes. -/
theorem GetSecondCanary_eq {P : Cfg} {s : SafeStack}
    (h : CANARY_SIZE ≤ GetAllBufferSize P s) :
    GetSecondCanary P s = load64 s.buf_ (GetAllBufferSize P s - CANARY_SIZE) := by
  have hlt : GetAllBufferSize P s < WORD := Nat.mod_lt _ (by decide)
  have e : (GetAllBufferSize P s + WORD - CANARY_SIZE) % WORD
      = GetAllBufferSize P s - CANARY_SIZE := by
    simp only [CANARY_SIZE_eq, WORD_eq] at h hlt ⊢
    omega
  unfold GetSecondCanary
  rw [e]
  apply load64_congr
  intro k hk
  show s.buf_ ((GetAllBufferSize P s - CANARY_SIZE + k) % WORD) = _
  rw [Nat.mod_eq_of_lt (by simp only [CANARY_SIZE_eq] at h ⊢; omega)]

/-- When the size that the stored capacity describes has wrapped below
`CANARY_SIZE`, `GetSecondCanary` reads before `buf_`. -/
theorem GetSecondCanary_wrapped {P : Cfg} {s : SafeStack}
    (h : GetAllBufferSize P s < CANARY_SIZE) :
    GetSecondCanary P s
      = load64 (fun a => s.buf_ (a % WORD)) (WORD - (CANARY_SIZE - GetAllBufferSize P s)) := by
  have e : (GetAllBufferSize P s + WORD - CANARY_SIZE) % WORD
      = WORD - (CANARY_SIZE - GetAllBufferSize P s) := by
    simp only [CANARY_SIZE_eq, WORD_eq] at h ⊢
    omega
  unfold GetSecondCanary
  rw [e]

theorem Inv.all {P : Cfg} {s : SafeStack} {n c : Nat} (h : Inv P s n c) :
    GetAllBufferSize P s = BUF_POS + c * P.sizeofT + CANARY_SIZE := by
  have hf := h.fits
  simp only [GetAllBufferSize, h.cap, HASH_SIZE_eq, CANARY_SIZE_eq, CUR_SIZE_SIZE_eq,
    BUF_SIZE_SIZE_eq, BUF_POS_eq] at hf ⊢
  rw [Nat.mod_eq_of_lt (by omega)]
  omega

/-- The invariants make every check of `Ok()` pass. -/
theorem Inv.ok {P : Cfg} {s : SafeStack} {n c : Nat} (h : Inv P s n c) :
    Ok P s = Verdict.pass := by
  have hall := h.all
  have hf := h.fits
  have hle := slot_mono (P := P) h.le
  have hthis : (s.this_ptr != 0) = true := by simpa using h.this_ne
  have h1 : (GetFirstCanary s == CANARY_VALUE) = true := by simpa using h.first
  have h2 : (GetSecondCanary P s == CANARY_VALUE) = true := by
    rw [GetSecondCanary_eq (by rw [hall]; exact Nat.le_add_left _ _), hall,
      Nat.add_sub_cancel]
    simpa using h.second
  have h3 : (GetHashValue s == CalculateHash_0 P s) = true := by simpa using h.hash
  have h4 : decide (GetCurSize s ≤ GetBufSize s) = true := by
    simpa [h.cur, h.cap] using h.le
  have ecsb : (BUF_POS + GetCurSize s * P.sizeofT) % WORD = BUF_POS + n * P.sizeofT := by
    rw [h.cur, Nat.mod_eq_of_lt (by omega)]
  have eall : (GetAllBufferSize P s + WORD - CANARY_SIZE) % WORD
      = BUF_POS + c * P.sizeofT := by
    rw [hall]
    simp only [CANARY_SIZE_eq, WORD_eq] at hf ⊢
    omega
  simp only [Ok, hthis, h1, h2, h3, h4, MASSERT_true, ecsb, eall]
  have := OkLoop_spec P s n c h.fits WORD 0 (Nat.zero_le _)
    (by have := load64_lt s.buf_ BUF_SIZE_POS; have e := h.cap; unfold GetBufSize at e; omega)
  simp only [Nat.zero_mul, Nat.add_zero] at this
  rcases this with ⟨h5, _⟩ | ⟨_, k', _, h6, h7, h8⟩
  · exact h5
  · rw [h.tail k' h6 h7] at h8
    exact absurd h8 (by decide)

theorem all_of_fits {P : Cfg} {s : SafeStack}
    (hf : BUF_POS + GetBufSize s * P.sizeofT + CANARY_SIZE < WORD) :
    GetAllBufferSize P s = BUF_POS + GetBufSize s * P.sizeofT + CANARY_SIZE := by
  simp only [GetAllBufferSize, HASH_SIZE_eq, CANARY_SIZE_eq, CUR_SIZE_SIZE_eq,
    BUF_SIZE_SIZE_eq, BUF_POS_eq] at hf ⊢
  rw [Nat.mod_eq_of_lt (by omega)]
  omega

/-- A consistent stack satisfies the invariants of the data model, for the
live-count and the capacity stored in its header. -/
theorem Consistent.inv {P : Cfg} {s : SafeStack} (h : Consistent P s) :
    Inv P s (GetCurSize s) (GetBufSize s) := by
  obtain ⟨hok, hf⟩ := h
  have hall := all_of_fits hf
  unfold Ok at hok
  cases h1 : (s.this_ptr != 0)
  · simp [h1, MASSERT_false] at hok
  cases h2 : (GetFirstCanary s == CANARY_VALUE)
  · simp [h1, h2, MASSERT_false, MASSERT_true] at hok
  cases h3 : (GetSecondCanary P s == CANARY_VALUE)
  · simp [h1, h2, h3, MASSERT_false, MASSERT_true] at hok
  cases h4 : (GetHashValue s == CalculateHash_0 P s)
  · simp [h1, h2, h3, h4, MASSERT_false, MASSERT_true] at hok
  cases h5 : decide (GetCurSize s ≤ GetBufSize s)
  · simp [h1, h2, h3, h4, h5, MASSERT_false, MASSERT_true] at hok
  have hle : GetCurSize s ≤ GetBufSize s := of_decide_eq_true h5
  have hle' := slot_mono (P := P) hle
  have ecsb : (BUF_POS + GetCurSize s * P.sizeofT) % WORD
      = BUF_POS + GetCurSize s * P.sizeofT := Nat.mod_eq_of_lt (by omega)
  have eall : (GetAllBufferSize P s + WORD - CANARY_SIZE) % WORD
      = BUF_POS + GetBufSize s * P.sizeofT := by
    rw [hall]
    simp only [CANARY_SIZE_eq, WORD_eq] at hf ⊢
    omega
  simp only [h1, h2, h3, h4, h5, MASSERT_true, ecsb, eall] at hok
  have hloop := OkLoop_spec P s (GetCurSize s) (GetBufSize s) hf WORD 0 (Nat.zero_le _)
    (by have := load64_lt s.buf_ BUF_SIZE_POS; unfold GetBufSize; omega)
  simp only [Nat.zero_mul, Nat.add_zero] at hloop
  refine ⟨by simpa using h1, rfl, rfl, hle, hf, by simpa using h2, ?_, by simpa using h4, ?_⟩
  · rw [GetSecondCanary_eq (by rw [hall]; exact Nat.le_add_left _ _), hall,
      Nat.add_sub_cancel] at h3
    simpa using h3
  · intro k hk hkc
    rcases hloop with ⟨_, h6⟩ | ⟨h6, _⟩
    · exact h6 k (Nat.zero_le _) hk hkc
    · rw [h6] at hok
      exact absurd hok (by decide)

theorem Inv.consistent {P : Cfg} {s : SafeStack} {n c : Nat} (h : Inv P s n c) :
    Consistent P s :=
  ⟨h.ok, by rw [h.cap]; exact h.fits⟩

/-! ## Writes, up to the checksum field -/

theorem agree_write {s t : SafeStack} (h : agree s t) (p : Nat) (bs : List Nat) :
    agree (s.write p bs) (t.write p bs) := by
  refine ⟨h.1, fun a ha => ?_⟩
  simp only [SafeStack.write, store]
  split
  · rfl
  · exact h.2 a ha

theorem agree_SetCurSizeVal (P : Cfg) (v : Nat) {s t : SafeStack} (h : agree s t) :
    agree (SetCurSizeVal P v s) (t.write CUR_SIZE_POS (bytes64 v)) :=
  agree_trans (agree_place_0 P _) (agree_write h _ _)

theorem agree_SetBufferSizeVal (P : Cfg) (v : Nat) {s t : SafeStack} (h : agree s t) :
    agree (SetBufferSizeVal P v s) (t.write BUF_SIZE_POS (bytes64 v)) :=
  agree_trans (agree_place_0 P _) (agree_write h _ _)

theorem agree_FillWithPoison (P : Cfg) (a b : Nat) {s t : SafeStack} (h : agree s t) :
    agree (FillWithPoison P a b s) (t.write a (List.replicate (b - a) POISON_VALUE)) :=
  agree_trans (agree_place_0 P _) (agree_write h _ _)

theorem agree_FillCanaries (P : Cfg) (n : Nat) {s t : SafeStack} (h : agree s t) :
    agree (FillCanaries P n s)
      ((t.write 0 (bytes64 CANARY_VALUE)).write (n - CANARY_SIZE) (bytes64 CANARY_VALUE)) :=
  agree_trans (agree_place_0 P _) (agree_write (agree_write h _ _) _ _)

theorem load64_word_other {m : Mem} {p q v : Nat} (h : q + 8 ≤ p ∨ p + 8 ≤ q) :
    load64 (store m p (bytes64 v)) q = load64 m q :=
  load64_store_other (by rw [bytes64_length]; exact h)

theorem load64_fill_other {m : Mem} {p q n v : Nat} (h : q + 8 ≤ p ∨ p + n ≤ q) :
    load64 (store m p (List.replicate n v)) q = load64 m q :=
  load64_store_other (by rw [List.length_replicate]; exact h)

theorem word_outside {m : Mem} {p a v : Nat} (h : a < p ∨ p + 8 ≤ a) :
    store m p (bytes64 v) a = m a :=
  store_outside (by rw [bytes64_length]; exact h)

theorem fill_outside {m : Mem} {p a n v : Nat} (h : a < p ∨ p + n ≤ a) :
    store m p (List.replicate n v) a = m a :=
  store_outside (by rw [List.length_replicate]; exact h)

theorem store_replicate_inside {m : Mem} {p n a v : Nat} (h1 : p ≤ a) (h2 : a < p + n) :
    store m p (List.replicate n v) a = v := by
  unfold store
  rw [List.length_replicate, if_pos ⟨h1, h2⟩, List.getD_eq_getElem _ _ (by simp; omega)]
  simp

/-- The invariants, established on a state that agrees outside the checksum
field with a state whose bytes are known. -/
theorem Inv.of_agree {P : Cfg} {s t : SafeStack} {n c : Nat} (hag : agree s t)
    (hhash : GetHashValue s = CalculateHash_0 P s)
    (hthis : t.this_ptr ≠ 0) (hcur : GetCurSize t = n) (hcap : GetBufSize t = c)
    (hle : n ≤ c) (hfit : BUF_POS + c * P.sizeofT + CANARY_SIZE < WORD)
    (hfirst : GetFirstCanary t = CANARY_VALUE)
    (hsecond : load64 t.buf_ (BUF_POS + c * P.sizeofT) = CANARY_VALUE)
    (htail : ∀ k, n ≤ k → k < c → ∀ j, j < P.sizeofT →
      t.buf_ (BUF_POS + k * P.sizeofT + j) = POISON_VALUE) :
    Inv P s n c := by
  refine ⟨by rw [hag.1]; exact hthis, by rw [agree_cur hag]; exact hcur,
    by rw [agree_cap hag]; exact hcap, hle, hfit, by rw [agree_first hag]; exact hfirst,
    ?_, hhash, ?_⟩
  · rw [agree_load64 hag (Or.inr (by rw [BUF_POS_eq]; omega))]
    exact hsecond
  · intro k hk hkc
    rw [agree_slot P hag (by rw [BUF_POS_eq]; omega), IsPoison_slot_iff]
    exact htail k hk hkc

theorem Inv.slot_poison {P : Cfg} {s : SafeStack} {n c : Nat} (h : Inv P s n c)
    {k j : Nat} (hk : n ≤ k) (hkc : k < c) (hj : j < P.sizeofT) :
    s.buf_ (BUF_POS + k * P.sizeofT + j) = POISON_VALUE :=
  (IsPoison_slot_iff P s _).mp (h.tail k hk hkc) j hj

theorem Inv.cap_lt {P : Cfg} {s : SafeStack} {n c : Nat} (h : Inv P s n c) : c < WORD := by
  have := load64_lt s.buf_ BUF_SIZE_POS
  have e := h.cap
  unfold GetBufSize at e
  omega

theorem GetElement_eq {P : Cfg} {s : SafeStack} {n c i : Nat} (h : Inv P s n c) (hi : i ≤ c) :
    GetElement P s i = slotAt P s (BUF_POS + i * P.sizeofT) := by
  have := slot_mono (P := P) hi
  have := h.fits
  unfold GetElement
  rw [Nat.mod_eq_of_lt (by omega)]

/-! ## `Pop` on a non-empty stack -/

/-- The state `Pop` leaves behind, up to the checksum field: the top slot is
poisoned and the live-count is one less. -/
theorem Pop_ok {P : Cfg} {s : SafeStack} {n c : Nat} (h : Inv P s (n + 1) c) :
    ∃ s', Pop P s = Res.ok (GetElement P s n) s' ∧
      agree s' ((s.write (BUF_POS + n * P.sizeofT)
        (List.replicate P.sizeofT POISON_VALUE)).write CUR_SIZE_POS (bytes64 n)) ∧
      Inv P s' n c := by
  have hfit := h.fits
  have hnc : n < c := h.le
  have hlt := slot_lt (P := P) hnc
  have hcw := h.cap_lt
  have hpos : (BUF_POS + (n + 1 + WORD - 1) * P.sizeofT) % WORD
      = BUF_POS + n * P.sizeofT := by
    have e : n + 1 + WORD - 1 = n + WORD := by omega
    rw [e, Nat.add_mul, ← Nat.add_assoc, Nat.add_mul_mod_self_left,
      Nat.mod_eq_of_lt (by omega)]
  have hsz : (n + 1 + WORD - 1) % WORD = n := by
    have e : n + 1 + WORD - 1 = n + WORD := by omega
    rw [e, Nat.add_mod_right, Nat.mod_eq_of_lt (by omega)]
  have hcnt : BUF_POS + n * P.sizeofT + P.sizeofT - (BUF_POS + n * P.sizeofT)
      = P.sizeofT := by omega
  let t := (s.write (BUF_POS + n * P.sizeofT)
        (List.replicate P.sizeofT POISON_VALUE)).write CUR_SIZE_POS (bytes64 n)
  let s' := CalculateAndPlaceHash_0 P (SetCurSizeVal P n
    (FillWithPoison P (BUF_POS + n * P.sizeofT) (BUF_POS + n * P.sizeofT + P.sizeofT) s))
  have hag : agree s' t := by
    refine agree_trans (agree_place_0 P _) (agree_SetCurSizeVal P n ?_)
    have := agree_FillWithPoison P (BUF_POS + n * P.sizeofT)
      (BUF_POS + n * P.sizeofT + P.sizeofT) (agree_refl s)
    rw [hcnt] at this
    exact this
  have hinv : Inv P s' n c := by
    refine Inv.of_agree hag (hash_placed_ok_0 P _) h.this_ne ?_ ?_ (by omega) hfit ?_ ?_ ?_
    · show load64 (store _ CUR_SIZE_POS (bytes64 n)) CUR_SIZE_POS = n
      rw [load64_store_same, Nat.mod_eq_of_lt (by omega)]
    · show load64 (store (store s.buf_ _ _) CUR_SIZE_POS (bytes64 n)) BUF_SIZE_POS = c
      rw [load64_word_other (by decide),
        load64_fill_other (by simp only [BUF_SIZE_POS_eq, BUF_POS_eq]; omega)]
      exact h.cap
    · show load64 (store (store s.buf_ _ _) CUR_SIZE_POS (bytes64 n)) 0 = CANARY_VALUE
      rw [load64_word_other (by decide),
        load64_fill_other (by simp only [BUF_POS_eq]; omega)]
      exact h.first
    · show load64 (store (store s.buf_ _ _) CUR_SIZE_POS (bytes64 n)) _ = CANARY_VALUE
      rw [load64_word_other (by simp only [CUR_SIZE_POS_eq, BUF_POS_eq]; omega),
        load64_fill_other (by omega)]
      exact h.second
    · intro k hk hkc j hj
      show store (store s.buf_ _ _) CUR_SIZE_POS (bytes64 n) _ = POISON_VALUE
      rw [word_outside (by simp only [CUR_SIZE_POS_eq, BUF_POS_eq]; omega)]
      by_cases e : k = n
      · rw [e, Nat.add_assoc]
        exact store_replicate_inside (by omega) (by omega)
      · have := slot_lt (P := P) (show n < k by omega)
        rw [fill_outside (by omega)]
        exact h.slot_poison (by omega) hkc hj
  refine ⟨s', ?_, hag, hinv⟩
  have hne : ¬ (n + 1 = 0) := by omega
  simp only [Pop, VERIFIED, h.ok, h.cur, hne, if_false, hpos, hsz]
  rw [GetElement_eq h (by omega)]
  show (match Ok P s' with
    | Verdict.pass => Res.ok _ s'
    | Verdict.fail e => Res.thrown e s'
    | Verdict.diverge => Res.diverged) = _
  rw [hinv.ok]

/-! ## `Push` into a free slot -/

theorem Push.place_spec {P : Cfg} {s : SafeStack} {n c : Nat} (h : Inv P s n c)
    (hnc : n < c) (item : Elem P) :
    agree (Push.place P item s)
        ((s.write (BUF_POS + n * P.sizeofT) item.val).write CUR_SIZE_POS (bytes64 (n + 1))) ∧
      Inv P (Push.place P item s) (n + 1) c := by
  have hfit := h.fits
  have hlt := slot_lt (P := P) hnc
  have hcw := h.cap_lt
  have hlen := item.property
  have hpos : (BUF_POS + GetCurSize s * P.sizeofT) % WORD = BUF_POS + n * P.sizeofT := by
    rw [h.cur, Nat.mod_eq_of_lt (by omega)]
  have hcur2 : GetCurSize (s.write (BUF_POS + n * P.sizeofT) item.val) = n := by
    show load64 (store s.buf_ _ _) CUR_SIZE_POS = n
    rw [load64_store_other (by simp only [CUR_SIZE_POS_eq, BUF_POS_eq]; omega)]
    exact h.cur
  have hag : agree (Push.place P item s)
      ((s.write (BUF_POS + n * P.sizeofT) item.val).write CUR_SIZE_POS (bytes64 (n + 1))) := by
    unfold Push.place
    simp only [hpos, hcur2]
    rw [Nat.mod_eq_of_lt (show n + 1 < WORD by omega)]
    exact agree_trans (agree_place_0 P _) (agree_SetCurSizeVal P _ (agree_refl _))
  refine ⟨hag, ?_⟩
  refine Inv.of_agree hag (hash_placed_ok_0 P _) h.this_ne ?_ ?_ (by omega) hfit ?_ ?_ ?_
  · show load64 (store _ CUR_SIZE_POS (bytes64 (n + 1))) CUR_SIZE_POS = n + 1
    rw [load64_store_same, Nat.mod_eq_of_lt (by omega)]
  · show load64 (store (store s.buf_ _ _) CUR_SIZE_POS _) BUF_SIZE_POS = c
    rw [load64_word_other (by decide),
      load64_store_other (by simp only [BUF_SIZE_POS_eq, BUF_POS_eq]; omega)]
    exact h.cap
  · show load64 (store (store s.buf_ _ _) CUR_SIZE_POS _) 0 = CANARY_VALUE
    rw [load64_word_other (by decide),
      load64_store_other (by simp only [BUF_POS_eq]; omega)]
    exact h.first
  · show load64 (store (store s.buf_ _ _) CUR_SIZE_POS _) _ = CANARY_VALUE
    rw [load64_word_other (by simp only [CUR_SIZE_POS_eq, BUF_POS_eq]; omega),
      load64_store_other (by omega)]
    exact h.second
  · intro k hk hkc j hj
    show store (store s.buf_ _ _) CUR_SIZE_POS _ _ = POISON_VALUE
    have := slot_lt (P := P) (show n < k by omega)
    rw [word_outside (by simp only [CUR_SIZE_POS_eq, BUF_POS_eq]; omega),
      store_outside (by omega)]
    exact h.slot_poison (by omega) hkc hj

/-- A push that finds a free slot completes; up to the checksum field it
writes the element into slot `n` and `n + 1` into the live-count. -/
theorem Push_ok_room {P : Cfg} {s : SafeStack} {n c : Nat} (h : Inv P s n c)
    (hnc : n < c) (new_mem : Mem) (item : Elem P) :
    Push P new_mem item s = Res.ok () (Push.place P item s) ∧
      agree (Push.place P item s)
        ((s.write (BUF_POS + n * P.sizeofT) item.val).write CUR_SIZE_POS (bytes64 (n + 1))) ∧
      Inv P (Push.place P item s) (n + 1) c := by
  obtain ⟨hag, hinv⟩ := Push.place_spec h hnc item
  refine ⟨?_, hag, hinv⟩
  have hne : ¬ (n = c) := by omega
  simp only [Push, VERIFIED, h.ok, h.cur, h.cap, hne, if_false, hinv.ok]

/-! ## Growth -/

theorem load_getD (m : Mem) (p n k : Nat) (h : k < n) : (load m p n).getD k 0 = m (p + k) := by
  rw [List.getD_eq_getElem _ _ (by rw [load_length]; exact h)]
  simp [load]

/-- The relocation loop copies exactly the payload bytes of the old buffer. -/
theorem moveSlots_apply (P : Cfg) (old new_mem : Mem) :
    ∀ c, BUF_POS + c * P.sizeofT < WORD → ∀ a,
      moveSlots P old c new_mem a
        = if BUF_POS ≤ a ∧ a < BUF_POS + c * P.sizeofT then old a else new_mem a := by
  intro c
  induction c with
  | zero =>
    intro _ a
    rw [if_neg (by omega)]
    rfl
  | succ c ih =>
    intro hc a
    have hs : (c + 1) * P.sizeofT = c * P.sizeofT + P.sizeofT := Nat.succ_mul _ _
    have e : moveSlots P old (c + 1) new_mem
        = store (moveSlots P old c new_mem) ((BUF_POS + c * P.sizeofT) % WORD)
            (load old ((BUF_POS + c * P.sizeofT) % WORD) P.sizeofT) := by
      simp only [moveSlots, List.range_succ, List.foldl_append, List.foldl_cons,
        List.foldl_nil]
    rw [e, Nat.mod_eq_of_lt (by omega)]
    by_cases ha : BUF_POS + c * P.sizeofT ≤ a ∧ a < BUF_POS + c * P.sizeofT + P.sizeofT
    · have ea : a = BUF_POS + c * P.sizeofT + (a - (BUF_POS + c * P.sizeofT)) := by omega
      rw [if_pos (by omega), ea, store_inside (by rw [load_length]; omega),
        load_getD _ _ _ _ (by omega)]
    · rw [store_outside (by rw [load_length]; omega), ih (by omega)]
      by_cases hb : BUF_POS ≤ a ∧ a < BUF_POS + c * P.sizeofT
      · rw [if_pos hb, if_pos (by omega)]
      · rw [if_neg hb, if_neg (by omega)]

/-- Growth of a full consistent stack: the capacity doubles, the live-count
and the payload bytes of the old slots are kept, the new slots are poison, and
nothing is written past the new trailing sentinel. -/
theorem ReallocateDoubleSize.body_spec {P : Cfg} {s : SafeStack} {c : Nat}
    (h : Inv P s c c) (hfit2 : BUF_POS + (2 * c) * P.sizeofT + CANARY_SIZE < WORD)
    (new_mem : Mem) :
    Inv P (ReallocateDoubleSize.body P new_mem s) c (2 * c) ∧
      (∀ a, BUF_POS ≤ a → a < BUF_POS + c * P.sizeofT →
        (ReallocateDoubleSize.body P new_mem s).buf_ a = s.buf_ a) ∧
      (∀ a, BUF_POS + (2 * c) * P.sizeofT + CANARY_SIZE ≤ a →
        (ReallocateDoubleSize.body P new_mem s).buf_ a = new_mem a) := by
  have hfit := h.fits
  have h2 : (2 * c) * P.sizeofT = c * P.sizeofT + c * P.sizeofT := by
    rw [Nat.two_mul, Nat.add_mul]
  have hnew : (BUF_POS + c * P.sizeofT + CANARY_SIZE + c * P.sizeofT) % WORD
      = BUF_POS + (2 * c) * P.sizeofT + CANARY_SIZE := by
    rw [Nat.mod_eq_of_lt (by omega)]
    omega
  have h2c : 2 * c < WORD := by
    have : 2 * c ≤ (2 * c) * P.sizeofT := Nat.le_mul_of_pos_right _ P.sizeofT_pos
    omega
  have hdbl : (c * 2) % WORD = 2 * c := by
    rw [Nat.mod_eq_of_lt (by omega)]
    omega
  have hcnt : BUF_POS + (2 * c) * P.sizeofT - (BUF_POS + c * P.sizeofT) = c * P.sizeofT := by
    omega
  let s1 : SafeStack := { s with buf_ := moveSlots P s.buf_ c new_mem }
  let t := ((((s1.write BUF_SIZE_POS (bytes64 (2 * c))).write CUR_SIZE_POS (bytes64 c)).write
    0 (bytes64 CANARY_VALUE)).write (BUF_POS + (2 * c) * P.sizeofT) (bytes64 CANARY_VALUE)).write
    (BUF_POS + c * P.sizeofT) (List.replicate (c * P.sizeofT) POISON_VALUE)
  let s5 := FillWithPoison P (BUF_POS + c * P.sizeofT) (BUF_POS + (2 * c) * P.sizeofT)
    (FillCanaries P (BUF_POS + (2 * c) * P.sizeofT + CANARY_SIZE)
      (SetCurSizeVal P c (SetBufferSizeVal P (2 * c) s1)))
  have hbody : ReallocateDoubleSize.body P new_mem s
      = CalculateAndPlaceHash P (BUF_POS + (2 * c) * P.sizeofT + CANARY_SIZE) s5 := by
    simp only [ReallocateDoubleSize.body, h.all, h.cap, hnew, hdbl, Nat.add_sub_cancel]
  have hag5 : agree s5 t := by
    have := agree_FillWithPoison P (BUF_POS + c * P.sizeofT) (BUF_POS + (2 * c) * P.sizeofT)
      (agree_FillCanaries P (BUF_POS + (2 * c) * P.sizeofT + CANARY_SIZE)
        (agree_SetCurSizeVal P c (agree_SetBufferSizeVal P (2 * c) (agree_refl s1))))
    rw [hcnt, Nat.add_sub_cancel] at this
    exact this
  have tbuf : ∀ a, t.buf_ a = store (store (store (store (store (moveSlots P s.buf_ c new_mem)
      BUF_SIZE_POS (bytes64 (2 * c))) CUR_SIZE_POS (bytes64 c)) 0 (bytes64 CANARY_VALUE))
      (BUF_POS + (2 * c) * P.sizeofT) (bytes64 CANARY_VALUE))
      (BUF_POS + c * P.sizeofT) (List.replicate (c * P.sizeofT) POISON_VALUE) a :=
    fun _ => rfl
  have hcap5 : GetBufSize t = 2 * c := by
    show load64 (store (store (store (store (store _ BUF_SIZE_POS _) _ _) _ _) _ _) _ _)
      BUF_SIZE_POS = _
    rw [load64_fill_other (by simp only [BUF_SIZE_POS_eq, BUF_POS_eq]; omega),
      load64_word_other (by simp only [BUF_SIZE_POS_eq, BUF_POS_eq]; omega),
      load64_word_other (by decide), load64_word_other (by decide), load64_store_same,
      Nat.mod_eq_of_lt h2c]
  have hall5 : BUF_POS + (2 * c) * P.sizeofT + CANARY_SIZE = GetAllBufferSize P s5 := by
    have e : GetBufSize s5 = 2 * c := by rw [agree_cap hag5]; exact hcap5
    rw [all_of_fits (by rw [e]; exact hfit2), e]
  have hag : agree (ReallocateDoubleSize.body P new_mem s) t := by
    rw [hbody]
    exact agree_trans (agree_place P _ _) hag5
  have hbytes : ∀ a, (a < 8 ∨ 16 ≤ a) →
      (ReallocateDoubleSize.body P new_mem s).buf_ a = t.buf_ a := fun a ha =>
    hag.2 a (by simp only [HASH_POS_eq, HASH_SIZE_eq]; omega)
  refine ⟨?_, ?_, ?_⟩
  · refine Inv.of_agree hag ?_ h.this_ne ?_ hcap5 (by omega) hfit2 ?_ ?_ ?_
    · rw [hbody]
      exact hash_placed_ok P _ _ hall5
    · show load64 (store (store (store (store (store _ _ _) CUR_SIZE_POS _) _ _) _ _) _ _)
        CUR_SIZE_POS = _
      rw [load64_fill_other (by simp only [CUR_SIZE_POS_eq, BUF_POS_eq]; omega),
        load64_word_other (by simp only [CUR_SIZE_POS_eq, BUF_POS_eq]; omega),
        load64_word_other (by decide), load64_store_same,
        Nat.mod_eq_of_lt h.cap_lt]
    · show load64 (store (store (store (store (store _ _ _) _ _) 0 _) _ _) _ _) 0 = _
      rw [load64_fill_other (by simp only [BUF_POS_eq]; omega),
        load64_word_other (by simp only [BUF_POS_eq]; omega),
        load64_store_same, Nat.mod_eq_of_lt CANARY_VALUE_lt]
    · show load64 (store (store _ (BUF_POS + (2 * c) * P.sizeofT) _) _ _) _ = _
      rw [load64_fill_other (by omega), load64_store_same,
        Nat.mod_eq_of_lt CANARY_VALUE_lt]
    · intro k hk hkc j hj
      have := slot_lt (P := P) hkc
      have := slot_mono (P := P) hk
      rw [tbuf]
      exact store_replicate_inside (by omega) (by omega)
  · intro a ha1 ha2
    rw [hbytes a (by rw [BUF_POS_eq] at ha1; omega), tbuf,
      fill_outside (by omega), word_outside (by omega),
      word_outside (by rw [BUF_POS_eq] at ha1; omega),
      word_outside (by simp only [CUR_SIZE_POS_eq, BUF_POS_eq] at ha1 ⊢; omega),
      word_outside (by simp only [BUF_SIZE_POS_eq, BUF_POS_eq] at ha1 ⊢; omega),
      moveSlots_apply P _ _ c (by omega), if_pos ⟨ha1, ha2⟩]
  · intro a ha
    simp only [CANARY_SIZE_eq] at ha
    rw [hbytes a (by rw [BUF_POS_eq] at ha; omega), tbuf,
      fill_outside (by omega), word_outside (by omega),
      word_outside (by rw [BUF_POS_eq] at ha; omega),
      word_outside (by simp only [CUR_SIZE_POS_eq, BUF_POS_eq] at ha ⊢; omega),
      word_outside (by simp only [BUF_SIZE_POS_eq, BUF_POS_eq] at ha ⊢; omega),
      moveSlots_apply P _ _ c (by omega), if_neg (by omega)]

theorem ReallocateDoubleSize_ok {P : Cfg} {s : SafeStack} {c : Nat}
    (h : Inv P s c c) (hfit2 : BUF_POS + (2 * c) * P.sizeofT + CANARY_SIZE < WORD)
    (new_mem : Mem) :
    ReallocateDoubleSize P new_mem s = Res.ok () (ReallocateDoubleSize.body P new_mem s) := by
  have hinv := (ReallocateDoubleSize.body_spec h hfit2 new_mem).1
  simp only [ReallocateDoubleSize, VERIFIED, h.ok, hinv.ok]

/-- A push that finds the buffer full grows it first and then completes. -/
theorem Push_ok_grow {P : Cfg} {s : SafeStack} {c : Nat} (h : Inv P s c c) (hc : 1 ≤ c)
    (hfit2 : BUF_POS + (2 * c) * P.sizeofT + CANARY_SIZE < WORD)
    (new_mem : Mem) (item : Elem P) :
    Push P new_mem item s
        = Res.ok () (Push.place P item (ReallocateDoubleSize.body P new_mem s)) ∧
      Inv P (Push.place P item (ReallocateDoubleSize.body P new_mem s)) (c + 1) (2 * c) := by
  have hg := (ReallocateDoubleSize.body_spec h hfit2 new_mem).1
  obtain ⟨_, hinv⟩ := Push.place_spec hg (by omega) item
  refine ⟨?_, hinv⟩
  simp only [Push, VERIFIED, h.ok, h.cur, h.cap, if_true,
    ReallocateDoubleSize_ok h hfit2 new_mem, hinv.ok]

/-! ## Construction -/

theorem SafeStack_construct_eq (P : Cfg) (this_ptr : Nat) (new_mem : Mem) :
    SafeStack.construct P this_ptr new_mem
      = initBuffer P DEFAULT_INITIAL_SIZE
          ((CANARY_SIZE + HASH_SIZE + CUR_SIZE_SIZE + BUF_SIZE_SIZE +
            DEFAULT_INITIAL_SIZE * P.sizeofT + CANARY_SIZE) % WORD)
          { this_ptr := this_ptr, buf_ := new_mem } := rfl

theorem SafeStackStatic_construct_eq (P : Cfg) (ReservedSize this_ptr : Nat) (after : Mem) :
    SafeStackStatic.construct P ReservedSize this_ptr after
      = initBuffer P (ReservedSize % WORD)
          ((CANARY_SIZE + HASH_SIZE + CUR_SIZE_SIZE + BUF_SIZE_SIZE +
            ReservedSize * P.sizeofT + CANARY_SIZE) % WORD)
          { this_ptr := this_ptr,
            buf_ := fun a =>
              if a < (CANARY_SIZE + HASH_SIZE + CUR_SIZE_SIZE + BUF_SIZE_SIZE +
                ReservedSize * P.sizeofT + CANARY_SIZE) % WORD then 0 else after a } := rfl

/-- The initialisation of the constructors establishes the invariants with
live-count `0` and capacity `N`, and writes nothing past the buffer. -/
theorem initBuffer_spec {P : Cfg} {N : Nat} (s0 : SafeStack) (h0 : s0.this_ptr ≠ 0)
    (hfit : BUF_POS + N * P.sizeofT + CANARY_SIZE < WORD) :
    Inv P (initBuffer P N (BUF_POS + N * P.sizeofT + CANARY_SIZE) s0) 0 N ∧
      ∀ a, BUF_POS + N * P.sizeofT + CANARY_SIZE ≤ a →
        (initBuffer P N (BUF_POS + N * P.sizeofT + CANARY_SIZE) s0).buf_ a = s0.buf_ a := by
  have hN : N < WORD := by
    have : N ≤ N * P.sizeofT := Nat.le_mul_of_pos_right _ P.sizeofT_pos
    omega
  have hcnt : BUF_POS + N * P.sizeofT - BUF_POS = N * P.sizeofT := by omega
  let t := ((((s0.write BUF_SIZE_POS (bytes64 N)).write CUR_SIZE_POS (bytes64 0)).write
    0 (bytes64 CANARY_VALUE)).write (BUF_POS + N * P.sizeofT) (bytes64 CANARY_VALUE)).write
    BUF_POS (List.replicate (N * P.sizeofT) POISON_VALUE)
  let s4 := FillWithPoison P BUF_POS (BUF_POS + N * P.sizeofT)
    (FillCanaries P (BUF_POS + N * P.sizeofT + CANARY_SIZE)
      (SetCurSizeVal P 0 (SetBufferSizeVal P N s0)))
  have hinit : initBuffer P N (BUF_POS + N * P.sizeofT + CANARY_SIZE) s0
      = CalculateAndPlaceHash P (BUF_POS + N * P.sizeofT + CANARY_SIZE) s4 := by
    simp only [initBuffer, Nat.add_sub_cancel]
  have hag4 : agree s4 t := by
    have := agree_FillWithPoison P BUF_POS (BUF_POS + N * P.sizeofT)
      (agree_FillCanaries P (BUF_POS + N * P.sizeofT + CANARY_SIZE)
        (agree_SetCurSizeVal P 0 (agree_SetBufferSizeVal P N (agree_refl s0))))
    rw [hcnt, Nat.add_sub_cancel] at this
    exact this
  have tbuf : ∀ a, t.buf_ a = store (store (store (store (store s0.buf_
      BUF_SIZE_POS (bytes64 N)) CUR_SIZE_POS (bytes64 0)) 0 (bytes64 CANARY_VALUE))
      (BUF_POS + N * P.sizeofT) (bytes64 CANARY_VALUE))
      BUF_POS (List.replicate (N * P.sizeofT) POISON_VALUE) a :=
    fun _ => rfl
  have hcap4 : GetBufSize t = N := by
    show load64 (store (store (store (store (store _ BUF_SIZE_POS _) _ _) _ _) _ _) _ _)
      BUF_SIZE_POS = _
    rw [load64_fill_other (Or.inl (by decide)),
      load64_word_other (by simp only [BUF_SIZE_POS_eq, BUF_POS_eq]; omega),
      load64_word_other (by decide), load64_word_other (by decide), load64_store_same,
      Nat.mod_eq_of_lt hN]
  have hall4 : BUF_POS + N * P.sizeofT + CANARY_SIZE = GetAllBufferSize P s4 := by
    have e : GetBufSize s4 = N := by rw [agree_cap hag4]; exact hcap4
    rw [all_of_fits (by rw [e]; exact hfit), e]
  have hag : agree (initBuffer P N (BUF_POS + N * P.sizeofT + CANARY_SIZE) s0) t := by
    rw [hinit]
    exact agree_trans (agree_place P _ _) hag4
  refine ⟨?_, ?_⟩
  · refine Inv.of_agree hag ?_ h0 ?_ hcap4 (Nat.zero_le _) hfit ?_ ?_ ?_
    · rw [hinit]
      exact hash_placed_ok P _ _ hall4
    · show load64 (store (store (store (store (store _ _ _) CUR_SIZE_POS _) _ _) _ _) _ _)
        CUR_SIZE_POS = _
      rw [load64_fill_other (Or.inl (by decide)),
        load64_word_other (by simp only [CUR_SIZE_POS_eq, BUF_POS_eq]; omega),
        load64_word_other (by decide), load64_store_same]
      rfl
    · show load64 (store (store (store (store (store _ _ _) _ _) 0 _) _ _) _ _) 0 = _
      rw [load64_fill_other (Or.inl (by decide)),
        load64_word_other (by simp only [BUF_POS_eq]; omega),
        load64_store_same, Nat.mod_eq_of_lt CANARY_VALUE_lt]
    · show load64 (store (store _ (BUF_POS + N * P.sizeofT) _) _ _) _ = _
      rw [load64_fill_other (by omega), load64_store_same,
        Nat.mod_eq_of_lt CANARY_VALUE_lt]
    · intro k _ hkc j hj
      have := slot_lt (P := P) hkc
      rw [tbuf]
      exact store_replicate_inside (by omega) (by omega)
  · intro a ha
    simp only [CANARY_SIZE_eq, BUF_POS_eq] at ha
    rw [hag.2 a (by simp only [HASH_POS_eq, HASH_SIZE_eq]; omega), tbuf,
      fill_outside (by simp only [BUF_POS_eq]; omega),
      word_outside (by simp only [BUF_POS_eq]; omega),
      word_outside (by omega),
      word_outside (by simp only [CUR_SIZE_POS_eq]; omega),
      word_outside (by simp only [BUF_SIZE_POS_eq]; omega)]

theorem all_size_eq {P : Cfg} {N : Nat}
    (hfit : BUF_POS + N * P.sizeofT + CANARY_SIZE < WORD) :
    (CANARY_SIZE + HASH_SIZE + CUR_SIZE_SIZE + BUF_SIZE_SIZE + N * P.sizeofT + CANARY_SIZE)
      % WORD = BUF_POS + N * P.sizeofT + CANARY_SIZE := by
  simp only [HASH_SIZE_eq, CANARY_SIZE_eq, CUR_SIZE_SIZE_eq, BUF_SIZE_SIZE_eq,
    BUF_POS_eq] at hfit ⊢
  rw [Nat.mod_eq_of_lt (by omega)]

/-- A freshly constructed growable stack satisfies the invariants with
live-count `0` and capacity `DEFAULT_INITIAL_SIZE`. -/
theorem SafeStack_construct_inv (P : Cfg) (this_ptr : Nat) (hthis : this_ptr ≠ 0)
    (hfit : BUF_POS + DEFAULT_INITIAL_SIZE * P.sizeofT + CANARY_SIZE < WORD)
    (new_mem : Mem) :
    Inv P (SafeStack.construct P this_ptr new_mem) 0 DEFAULT_INITIAL_SIZE := by
  rw [SafeStack_construct_eq, all_size_eq hfit]
  exact (initBuffer_spec _ hthis hfit).1

/-- A freshly constructed fixed-capacity stack satisfies the invariants with
live-count `0` and capacity `ReservedSize`. -/
theorem SafeStackStatic_construct_inv (P : Cfg) (ReservedSize this_ptr : Nat)
    (hthis : this_ptr ≠ 0)
    (hfit : BUF_POS + ReservedSize * P.sizeofT + CANARY_SIZE < WORD)
    (after : Mem) :
    Inv P (SafeStackStatic.construct P ReservedSize this_ptr after) 0 ReservedSize := by
  have hN : ReservedSize < WORD := by
    have : ReservedSize ≤ ReservedSize * P.sizeofT := Nat.le_mul_of_pos_right _ P.sizeofT_pos
    omega
  rw [SafeStackStatic_construct_eq, all_size_eq hfit, Nat.mod_eq_of_lt hN]
  exact (initBuffer_spec _ hthis hfit).1

/-! ## The live elements -/

theorem slot_congr (P : Cfg) {s s' : SafeStack} {pos : Nat}
    (h : ∀ j, j < P.sizeofT → s'.buf_ (pos + j) = s.buf_ (pos + j)) :
    slotAt P s' pos = slotAt P s pos :=
  Subtype.ext (load_congr h)

theorem contents_length (P : Cfg) (s : SafeStack) :
    (contents P s).length = GetCurSize s := by
  simp [contents]

theorem contents_eq {P : Cfg} {s : SafeStack} {n c : Nat} (h : Inv P s n c) :
    contents P s = (List.range n).map (fun i => slotAt P s (BUF_POS + i * P.sizeofT)) := by
  unfold contents
  rw [h.cur]
  apply List.map_congr_left
  intro i hi
  exact GetElement_eq h (by have := List.mem_range.mp hi; have := h.le; omega)

/-- When the first `n` slots keep their bytes and slot `n` holds `v`, the live
elements of the larger stack are those of the smaller one followed by `v`. -/
theorem contents_snoc {P : Cfg} {s s' : SafeStack} {n c c' : Nat} {v : Elem P}
    (h : Inv P s n c) (h' : Inv P s' (n + 1) c')
    (hframe : ∀ a, BUF_POS ≤ a → a < BUF_POS + n * P.sizeofT → s'.buf_ a = s.buf_ a)
    (hv : slotAt P s' (BUF_POS + n * P.sizeofT) = v) :
    contents P s' = contents P s ++ [v] := by
  rw [contents_eq h, contents_eq h', List.range_succ, List.map_append, List.map_singleton, hv]
  congr 1
  apply List.map_congr_left
  intro i hi
  have hi' := slot_lt (P := P) (List.mem_range.mp hi)
  exact slot_congr P (fun j hj => hframe _ (by omega) (by omega))

theorem contents_same {P : Cfg} {s s' : SafeStack} {n c c' : Nat}
    (h : Inv P s n c) (h' : Inv P s' n c')
    (hframe : ∀ a, BUF_POS ≤ a → a < BUF_POS + n * P.sizeofT → s'.buf_ a = s.buf_ a) :
    contents P s' = contents P s := by
  rw [contents_eq h, contents_eq h']
  apply List.map_congr_left
  intro i hi
  have hi' := slot_lt (P := P) (List.mem_range.mp hi)
  exact slot_congr P (fun j hj => hframe _ (by omega) (by omega))

/-- The bytes `Push.place` leaves alone, and the slot it fills. -/
theorem Push.place_frame {P : Cfg} {s : SafeStack} {n c : Nat} (h : Inv P s n c)
    (hnc : n < c) (item : Elem P) :
    (∀ a, BUF_POS ≤ a →
        (a < BUF_POS + n * P.sizeofT ∨ BUF_POS + n * P.sizeofT + P.sizeofT ≤ a) →
        (Push.place P item s).buf_ a = s.buf_ a) ∧
      slotAt P (Push.place P item s) (BUF_POS + n * P.sizeofT) = item := by
  obtain ⟨hag, _⟩ := Push.place_spec h hnc item
  have hlen := item.property
  refine ⟨fun a ha1 ha2 => ?_, ?_⟩
  · rw [hag.2 a (by simp only [HASH_POS_eq, HASH_SIZE_eq, BUF_POS_eq] at ha1 ⊢; omega)]
    show store (store s.buf_ _ _) CUR_SIZE_POS _ a = _
    rw [word_outside (by simp only [CUR_SIZE_POS_eq, BUF_POS_eq] at ha1 ⊢; omega),
      store_outside (by omega)]
  · rw [agree_slot P hag (by rw [BUF_POS_eq]; omega)]
    apply Subtype.ext
    show load (store (store s.buf_ _ _) CUR_SIZE_POS _) _ _ = _
    rw [load_store_other (by simp only [bytes64_length, CUR_SIZE_POS_eq, BUF_POS_eq]; omega)]
    have e := load_store_same s.buf_ (BUF_POS + n * P.sizeofT) item.val
    rw [hlen] at e
    exact e

/-- The bytes of the payload that `Pop` leaves alone. -/
theorem Pop_frame {P : Cfg} {s s' : SafeStack} {n : Nat}
    (hag : agree s' ((s.write (BUF_POS + n * P.sizeofT)
        (List.replicate P.sizeofT POISON_VALUE)).write CUR_SIZE_POS (bytes64 n))) :
    ∀ a, BUF_POS ≤ a →
      (a < BUF_POS + n * P.sizeofT ∨ BUF_POS + n * P.sizeofT + P.sizeofT ≤ a) →
      s'.buf_ a = s.buf_ a := by
  intro a ha1 ha2
  rw [hag.2 a (by simp only [HASH_POS_eq, HASH_SIZE_eq, BUF_POS_eq] at ha1 ⊢; omega)]
  show store (store s.buf_ _ _) CUR_SIZE_POS _ a = _
  rw [word_outside (by simp only [CUR_SIZE_POS_eq, BUF_POS_eq] at ha1 ⊢; omega),
    fill_outside (by omega)]

theorem Push_room_contents {P : Cfg} {s : SafeStack} {n c : Nat} (h : Inv P s n c)
    (hnc : n < c) (item : Elem P) :
    contents P (Push.place P item s) = contents P s ++ [item] := by
  obtain ⟨hf, hv⟩ := Push.place_frame h hnc item
  exact contents_snoc h (Push.place_spec h hnc item).2
    (fun a ha1 ha2 => hf a ha1 (Or.inl ha2)) hv

theorem Push_grow_contents {P : Cfg} {s : SafeStack} {c : Nat} (h : Inv P s c c)
    (hc : 1 ≤ c) (hfit2 : BUF_POS + (2 * c) * P.sizeofT + CANARY_SIZE < WORD)
    (new_mem : Mem) (item : Elem P) :
    contents P (Push.place P item (ReallocateDoubleSize.body P new_mem s))
      = contents P s ++ [item] := by
  obtain ⟨hg, hgf, _⟩ := ReallocateDoubleSize.body_spec h hfit2 new_mem
  obtain ⟨hf, hv⟩ := Push.place_frame hg (show c < 2 * c by omega) item
  refine contents_snoc h (Push.place_spec hg (by omega) item).2 (fun a ha1 ha2 => ?_) hv
  rw [hf a ha1 (Or.inl ha2), hgf a ha1 ha2]

theorem Pop_contents {P : Cfg} {s : SafeStack} {n c : Nat} (h : Inv P s (n + 1) c)
    {s' : SafeStack}
    (hag : agree s' ((s.write (BUF_POS + n * P.sizeofT)
        (List.replicate P.sizeofT POISON_VALUE)).write CUR_SIZE_POS (bytes64 n)))
    (hinv : Inv P s' n c) :
    contents P s = contents P s' ++ [GetElement P s n] := by
  refine contents_snoc hinv h (fun a ha1 ha2 => ?_) (GetElement_eq h (by have := h.le; omega)).symm
  exact (Pop_frame hag a ha1 (Or.inl ha2)).symm

/-! ## Sequences of calls refine the last-in-first-out reference -/

theorem run_nil (P : Cfg) (alloc : Nat → Mem) (k : Nat) (s : SafeStack) :
    run P alloc k [] s = some ([], s) := rfl

theorem run_push (P : Cfg) (alloc : Nat → Mem) (k : Nat) (item : Elem P) (ops : List (Op P))
    (s : SafeStack) :
    run P alloc k (Op.push item :: ops) s =
      match Push P (alloc k) item s with
      | Res.ok _ s' => run P alloc (k + 1) ops s'
      | _ => none := rfl

theorem run_pop (P : Cfg) (alloc : Nat → Mem) (k : Nat) (ops : List (Op P)) (s : SafeStack) :
    run P alloc k (Op.pop :: ops) s =
      match Pop P s with
      | Res.ok v s' => (run P alloc (k + 1) ops s').map (fun r => (v :: r.1, r.2))
      | _ => none := rfl

theorem fits_mono {P : Cfg} {c B : Nat} (h : c ≤ B)
    (hB : BUF_POS + B * P.sizeofT + CANARY_SIZE < WORD) :
    BUF_POS + c * P.sizeofT + CANARY_SIZE < WORD := by
  have := Nat.mul_le_mul_right P.sizeofT h
  omega

/-- On a consistent stack whose live elements are `st` (most recent first),
every sequence of calls that the reference accepts runs to its end; the `Pop`
calls return what the reference returns, the live elements stay those of the
reference, and the invariants hold at the end.  `B` bounds the capacities that
can be reached when the sequence has a `Push`: the buffers up to that capacity
fit in the address space. -/
theorem run_refines (P : Cfg) (alloc : Nat → Mem) (B : Nat)
    (hB : BUF_POS + B * P.sizeofT + CANARY_SIZE < WORD) :
    ∀ (ops : List (Op P)) (k : Nat) (s : SafeStack) (c : Nat)
      (st outs st' : List (Elem P)),
      Inv P s st.length c → 1 ≤ c → c ≤ B →
      (pushes ops = 0 ∨ 2 * (st.length + pushes ops) ≤ B) →
      contents P s = st.reverse → lifo ops st = some (outs, st') →
      ∃ s' c', run P alloc k ops s = some (outs, s') ∧ Inv P s' st'.length c' ∧
        c ≤ c' ∧ c' ≤ B ∧ contents P s' = st'.reverse := by
  intro ops
  induction ops with
  | nil =>
    intro k s c st outs st' h _ hcB _ hcont hl
    simp only [lifo, Option.some.injEq, Prod.mk.injEq] at hl
    obtain ⟨rfl, rfl⟩ := hl
    exact ⟨s, c, rfl, h, Nat.le_refl _, hcB, hcont⟩
  | cons op ops ih =>
    intro k s c st outs st' h hc hcB hp hcont hl
    cases op with
    | push item =>
      simp only [lifo] at hl
      simp only [pushes] at hp
      have hp : 2 * (st.length + (pushes ops + 1)) ≤ B := by omega
      by_cases hnc : st.length < c
      · obtain ⟨hpush, _, hinv⟩ := Push_ok_room h hnc (alloc k) item
        have hcont' : contents P (Push.place P item s) = (item :: st).reverse := by
          rw [Push_room_contents h hnc item, hcont, List.reverse_cons]
        obtain ⟨s', c', hrun, hinv', hcc, hcB', hcs⟩ :=
          ih (k + 1) (Push.place P item s) c (item :: st) outs st' hinv hc hcB
            (Or.inr (by simp only [List.length_cons]; omega)) hcont' hl
        exact ⟨s', c', by rw [run_push, hpush]; exact hrun, hinv', hcc, hcB', hcs⟩
      · have hle := h.le
        have e : st.length = c := by omega
        rw [e] at h
        have hfit2 : BUF_POS + (2 * c) * P.sizeofT + CANARY_SIZE < WORD :=
          fits_mono (by omega) hB
        obtain ⟨hpush, hinv⟩ := Push_ok_grow h hc hfit2 (alloc k) item
        have hcont' : contents P (Push.place P item (ReallocateDoubleSize.body P (alloc k) s))
            = (item :: st).reverse := by
          rw [Push_grow_contents h hc hfit2 (alloc k) item, hcont, List.reverse_cons]
        obtain ⟨s', c', hrun, hinv', hcc, hcB', hcs⟩ :=
          ih (k + 1) (Push.place P item (ReallocateDoubleSize.body P (alloc k) s)) (2 * c)
            (item :: st) outs st' (by simp only [List.length_cons, e]; exact hinv)
            (by omega) (by omega) (Or.inr (by simp only [List.length_cons]; omega)) hcont' hl
        exact ⟨s', c', by rw [run_push, hpush]; exact hrun, hinv', by omega, hcB', hcs⟩
    | pop =>
      cases st with
      | nil => simp [lifo] at hl
      | cons v st0 =>
        simp only [lifo, Option.map_eq_some', Prod.mk.injEq] at hl
        obtain ⟨⟨o1, t1⟩, hl1, ho, ht⟩ := hl
        simp only at ho ht
        simp only [pushes, List.length_cons] at hp
        simp only [List.length_cons] at h
        obtain ⟨s1, hpop, hag, hinv⟩ := Pop_ok h
        have hsplit := Pop_contents h hag hinv
        rw [hcont, List.reverse_cons] at hsplit
        obtain ⟨hc1, hv1⟩ := List.append_inj' hsplit rfl
        have hv : GetElement P s st0.length = v := by
          simpa using hv1.symm
        obtain ⟨s', c', hrun, hinv', hcc, hcB', hcs⟩ :=
          ih (k + 1) s1 c st0 o1 t1 hinv hc hcB (by omega) hc1.symm hl1
        refine ⟨s', c', ?_, by rw [← ht]; exact hinv', hcc, hcB', by rw [← ht]; exact hcs⟩
        rw [run_pop, hpop]
        simp only [hrun, Option.map_some', hv, ← ho]

theorem lifo_pushes {P : Cfg} (xs : List (Elem P)) :
    ∀ (rest : List (Op P)) (st : List (Elem P)),
      lifo (xs.map Op.push ++ rest) st = lifo rest (xs.reverse ++ st) := by
  induction xs with
  | nil => intro rest st; rfl
  | cons x xs ih =>
    intro rest st
    show lifo (xs.map Op.push ++ rest) (x :: st) = _
    rw [ih, List.reverse_cons, List.append_assoc]
    rfl

theorem lifo_pops {P : Cfg} (st1 : List (Elem P)) :
    ∀ st2 : List (Elem P),
      lifo (List.replicate st1.length Op.pop) (st1 ++ st2) = some (st1, st2) := by
  induction st1 with
  | nil => intro st2; rfl
  | cons v st1 ih =>
    intro st2
    show Option.map _ (lifo (List.replicate st1.length Op.pop) (st1 ++ st2)) = _
    rw [ih]
    rfl

theorem pushes_append {P : Cfg} (a b : List (Op P)) :
    pushes (a ++ b) = pushes a + pushes b := by
  induction a with
  | nil => simp [pushes]
  | cons op a ih =>
    cases op with
    | push item =>
      show pushes (a ++ b) + 1 = pushes a + 1 + pushes b
      rw [ih]
      omega
    | pop => exact ih

theorem pushes_map_push {P : Cfg} (xs : List (Elem P)) :
    pushes (xs.map Op.push) = xs.length := by
  induction xs with
  | nil => rfl
  | cons x xs ih => simp only [List.map_cons, pushes, ih, List.length_cons]

theorem pushes_replicate_pop {P : Cfg} (n : Nat) :
    pushes (List.replicate n (Op.pop : Op P)) = 0 := by
  induction n with
  | zero => rfl
  | succ n ih => simp only [List.replicate_succ, pushes, ih]

theorem lifo_push_pop {P : Cfg} (xs : List (Elem P)) :
    lifo (xs.map Op.push ++ List.replicate xs.length Op.pop) [] = some (xs.reverse, []) := by
  rw [lifo_pushes, List.append_nil]
  have := lifo_pops xs.reverse ([] : List (Elem P))
  rw [List.length_reverse, List.append_nil] at this
  exact this

/-- A sequence of calls on a freshly constructed growable stack. -/
theorem run_fresh (P : Cfg) (this_ptr : Nat) (hthis : this_ptr ≠ 0)
    (alloc : Nat → Mem) (new_mem : Mem) (ops : List (Op P)) (outs st' : List (Elem P))
    (hfit : BUF_POS + (2 * pushes ops + DEFAULT_INITIAL_SIZE) * P.sizeofT + CANARY_SIZE < WORD)
    (hl : lifo ops [] = some (outs, st')) :
    ∃ s' c', run P alloc 0 ops (SafeStack.construct P this_ptr new_mem) = some (outs, s') ∧
      Inv P s' st'.length c' ∧ DEFAULT_INITIAL_SIZE ≤ c' ∧ contents P s' = st'.reverse := by
  have h0 : Inv P (SafeStack.construct P this_ptr new_mem) 0 DEFAULT_INITIAL_SIZE :=
    SafeStack_construct_inv P this_ptr hthis (fits_mono (by omega) hfit) new_mem
  have hc0 : contents P (SafeStack.construct P this_ptr new_mem) = ([] : List (Elem P)).reverse := by
    rw [contents_eq h0]
    rfl
  obtain ⟨s', c', hrun, hinv, hcc, _, hcs⟩ :=
    run_refines P alloc (2 * pushes ops + DEFAULT_INITIAL_SIZE) hfit ops 0 _
      DEFAULT_INITIAL_SIZE [] outs st' h0 (by decide) (by omega)
      (Or.inr (by simp only [List.length_nil]; omega)) hc0 hl
  exact ⟨s', c', hrun, hinv, hcc, hcs⟩

/-! ## `Pop` on an empty stack -/

theorem OkLoop_fail_code (P : Cfg) (s : SafeStack) (csb all_size : Nat) :
    ∀ fuel i e, OkLoop P s csb all_size fuel i = Verdict.fail e →
      e = Errc.UNINITIALIZED_CELL_IS_NOT_POISON := by
  intro fuel
  induction fuel with
  | zero => intro i e h; simp [OkLoop] at h
  | succ fuel ih =>
    intro i e h
    rw [OkLoop] at h
    split at h
    · split at h
      · exact ih _ e h
      · cases hp : IsPoison P (slotAt P s i) with
        | false =>
          rw [hp, MASSERT_false] at h
          simp only [Verdict.fail.injEq] at h
          exact h.symm
        | true =>
          rw [hp, MASSERT_true] at h
          exact ih _ e h
    · simp at h

/-- The error codes that `Ok()` can raise are those of its six checks. -/
theorem Ok_fail_code {P : Cfg} {s : SafeStack} {e : Errc} (h : Ok P s = Verdict.fail e) :
    e = Errc.THIS_PTR_IS_NULLPTR ∨ e = Errc.CORRUPTED_FIRST_CANARY ∨
      e = Errc.CORRUPTED_SECOND_CANARY ∨ e = Errc.HASH_NOT_THE_SAME ∨
      e = Errc.CUR_SIZE_IS_BIGGER_THAN_BUF ∨ e = Errc.UNINITIALIZED_CELL_IS_NOT_POISON := by
  unfold Ok at h
  cases h1 : (s.this_ptr != 0)
  · simp [h1, MASSERT_false] at h; exact Or.inl h.symm
  cases h2 : (GetFirstCanary s == CANARY_VALUE)
  · simp [h1, h2, MASSERT_false, MASSERT_true] at h; exact Or.inr (Or.inl h.symm)
  cases h3 : (GetSecondCanary P s == CANARY_VALUE)
  · simp [h1, h2, h3, MASSERT_false, MASSERT_true] at h
    exact Or.inr (Or.inr (Or.inl h.symm))
  cases h4 : (GetHashValue s == CalculateHash_0 P s)
  · simp [h1, h2, h3, h4, MASSERT_false, MASSERT_true] at h
    exact Or.inr (Or.inr (Or.inr (Or.inl h.symm)))
  cases h5 : decide (GetCurSize s ≤ GetBufSize s)
  · simp [h1, h2, h3, h4, h5, MASSERT_false, MASSERT_true] at h
    exact Or.inr (Or.inr (Or.inr (Or.inr (Or.inl h.symm))))
  simp only [h1, h2, h3, h4, h5, MASSERT_true] at h
  exact Or.inr (Or.inr (Or.inr (Or.inr (Or.inr (OkLoop_fail_code P s _ _ _ _ e h)))))

/-- When the stored live-count exceeds the stored capacity, `Ok()` raises one
of the errors of its first five checks. -/
theorem Ok_fail_of_cur_gt {P : Cfg} {s : SafeStack} (hgt : GetBufSize s < GetCurSize s) :
    ∃ e, Ok P s = Verdict.fail e := by
  unfold Ok
  cases h1 : (s.this_ptr != 0)
  · exact ⟨Errc.THIS_PTR_IS_NULLPTR, by simp [MASSERT_false]⟩
  cases h2 : (GetFirstCanary s == CANARY_VALUE)
  · exact ⟨Errc.CORRUPTED_FIRST_CANARY, by simp [MASSERT_false, MASSERT_true]⟩
  cases h3 : (GetSecondCanary P s == CANARY_VALUE)
  · exact ⟨Errc.CORRUPTED_SECOND_CANARY, by simp [MASSERT_false, MASSERT_true]⟩
  cases h4 : (GetHashValue s == CalculateHash_0 P s)
  · exact ⟨Errc.HASH_NOT_THE_SAME, by simp [MASSERT_false, MASSERT_true]⟩
  have h5 : decide (GetCurSize s ≤ GetBufSize s) = false := by
    simp only [decide_eq_false_iff_not]
    omega
  exact ⟨Errc.CUR_SIZE_IS_BIGGER_THAN_BUF, by simp [h5, MASSERT_false, MASSERT_true]⟩

theorem Ok_pass_le {P : Cfg} {s : SafeStack} (h : Ok P s = Verdict.pass) :
    GetCurSize s ≤ GetBufSize s := by
  by_contra hn
  obtain ⟨e, he⟩ := Ok_fail_of_cur_gt (P := P) (s := s) (by omega)
  rw [he] at h
  exact absurd h (by simp)

/-- What `Pop` does on an empty consistent stack: the assertion on the size
does not fire, the `sizeof(T)` bytes before the payload are poisoned, the
live-count wraps around to `2^64 - 1`, and the exit check decides the result. -/
theorem Pop_empty_shape {P : Cfg} {s : SafeStack} {c : Nat} (h : Inv P s 0 c) :
    ∃ s3 : SafeStack,
      agree s3 ((s.write ((BUF_POS + (WORD - 1) * P.sizeofT) % WORD)
        (List.replicate P.sizeofT POISON_VALUE)).write CUR_SIZE_POS (bytes64 (WORD - 1))) ∧
      GetCurSize s3 = WORD - 1 ∧
      Pop P s = (match Ok P s3 with
        | Verdict.pass =>
          Res.ok (slotAt P s ((BUF_POS + (WORD - 1) * P.sizeofT) % WORD)) s3
        | Verdict.fail e => Res.thrown e s3
        | Verdict.diverge => Res.diverged) := by
  have hag : agree
      (CalculateAndPlaceHash_0 P (SetCurSizeVal P (WORD - 1)
        (FillWithPoison P ((BUF_POS + (WORD - 1) * P.sizeofT) % WORD)
          ((BUF_POS + (WORD - 1) * P.sizeofT) % WORD + P.sizeofT) s)))
      ((s.write ((BUF_POS + (WORD - 1) * P.sizeofT) % WORD)
        (List.replicate P.sizeofT POISON_VALUE)).write CUR_SIZE_POS (bytes64 (WORD - 1))) := by
    refine agree_trans (agree_place_0 P _) (agree_SetCurSizeVal P _ ?_)
    have := agree_FillWithPoison P ((BUF_POS + (WORD - 1) * P.sizeofT) % WORD)
      ((BUF_POS + (WORD - 1) * P.sizeofT) % WORD + P.sizeofT) (agree_refl s)
    rw [Nat.add_sub_cancel_left] at this
    exact this
  refine ⟨_, hag, ?_, ?_⟩
  · rw [agree_cur hag]
    show load64 (store _ CUR_SIZE_POS (bytes64 (WORD - 1))) CUR_SIZE_POS = _
    rw [load64_store_same]
    rfl
  · have e1 : (0 + WORD - 1) % WORD = WORD - 1 := rfl
    have e2 : 0 + WORD - 1 = WORD - 1 := rfl
    have e3 : (WORD - 1) % WORD = WORD - 1 := rfl
    simp only [Pop, VERIFIED, h.ok, h.cur, if_true, MASSERT_true, e1, e2, e3]

/-- On an empty consistent stack of elements no wider than the header, `Pop`
ends in the exit check: it throws an error that is not `POP_ON_0_SIZE`, after
it has set the live-count to `2^64 - 1` and poisoned the last byte of the
capacity field. -/
theorem Pop_empty_thrown {P : Cfg} {s : SafeStack} {c : Nat} (h : Inv P s 0 c)
    (hsz : P.sizeofT ≤ BUF_POS) :
    ∃ e s', Pop P s = Res.thrown e s' ∧ Ok P s' = Verdict.fail e ∧
      e ≠ Errc.POP_ON_0_SIZE ∧ GetCurSize s' = WORD - 1 ∧
      s'.buf_ (BUF_SIZE_POS + 7) = POISON_VALUE := by
  obtain ⟨s3, hag, hcur, hpop⟩ := Pop_empty_shape h
  have hpos := P.sizeofT_pos
  have hp0 : (BUF_POS + (WORD - 1) * P.sizeofT) % WORD = BUF_POS - P.sizeofT := by
    simp only [BUF_POS_eq, WORD_eq] at hsz ⊢
    omega
  rw [hp0] at hag
  have h31 : s3.buf_ (BUF_SIZE_POS + 7) = POISON_VALUE := by
    rw [hag.2 _ (by decide)]
    simp only [SafeStack.write]
    rw [word_outside (by decide)]
    apply store_replicate_inside
    · simp only [BUF_POS_eq, BUF_SIZE_POS_eq]; omega
    · simp only [BUF_POS_eq, BUF_SIZE_POS_eq] at hsz ⊢; omega
  have hcap : GetBufSize s3 < WORD - 1 := by
    unfold GetBufSize load64
    rw [h31]
    simp only [POISON_VALUE, WORD_eq]
    omega
  obtain ⟨e, he⟩ := Ok_fail_of_cur_gt (P := P) (s := s3) (by omega)
  refine ⟨e, s3, by rw [hpop, he], he, ?_, hcur, h31⟩
  rcases Ok_fail_code he with h | h | h | h | h | h <;> rw [h] <;> decide

/-! ## More on sequences of calls -/

theorem run_append (P : Cfg) (alloc : Nat → Mem) (b : List (Op P)) :
    ∀ (a : List (Op P)) (k : Nat) (s : SafeStack),
      run P alloc k (a ++ b) s =
        match run P alloc k a s with
        | none => none
        | some r1 => (run P alloc (k + a.length) b r1.2).map (fun r => (r1.1 ++ r.1, r.2)) := by
  intro a
  induction a with
  | nil =>
    intro k s
    simp [run_nil]
  | cons op a ih =>
    intro k s
    have hk : k + 1 + a.length = k + (a.length + 1) := by omega
    cases op with
    | push item =>
      rw [List.cons_append, run_push, run_push, List.length_cons]
      cases Push P (alloc k) item s with
      | ok val st =>
        simp only []
        rw [ih, hk]
      | thrown e st => rfl
      | diverged => rfl
    | pop =>
      rw [List.cons_append, run_pop, run_pop, List.length_cons]
      cases Pop P s with
      | ok val st =>
        simp only []
        rw [ih, hk]
        cases run P alloc (k + 1) a st with
        | none => rfl
        | some r1 =>
          simp only [Option.map_some', Option.map_map]
          rfl
      | thrown e st => rfl
      | diverged => rfl

theorem IsPoison_iff_eq (P : Cfg) (v : Elem P) :
    IsPoison P v = true ↔ v = GetPoisonValue P := by
  constructor
  · intro h
    apply Subtype.ext
    simp only [IsPoison, List.all_eq_true, beq_iff_eq] at h
    exact List.eq_replicate_iff.mpr ⟨v.property, h⟩
  · intro h
    rw [h]
    exact IsPoison_GetPoisonValue P

/-! ## The checks of `Ok()`, one by one -/

/-- The verdict of `Ok()` as a cascade over the conditions it asserts. -/
theorem Ok_eq (P : Cfg) (s : SafeStack) :
    Ok P s =
      if s.this_ptr = 0 then Verdict.fail Errc.THIS_PTR_IS_NULLPTR
      else if GetFirstCanary s ≠ CANARY_VALUE then Verdict.fail Errc.CORRUPTED_FIRST_CANARY
      else if GetSecondCanary P s ≠ CANARY_VALUE then
        Verdict.fail Errc.CORRUPTED_SECOND_CANARY
      else if GetHashValue s ≠ CalculateHash_0 P s then Verdict.fail Errc.HASH_NOT_THE_SAME
      else if ¬ GetCurSize s ≤ GetBufSize s then
        Verdict.fail Errc.CUR_SIZE_IS_BIGGER_THAN_BUF
      else OkLoop P s ((BUF_POS + GetCurSize s * P.sizeofT) % WORD)
        ((GetAllBufferSize P s + WORD - CANARY_SIZE) % WORD) WORD BUF_POS := by
  unfold Ok
  by_cases h1 : s.this_ptr = 0
  · simp [h1, MASSERT]
  by_cases h2 : GetFirstCanary s = CANARY_VALUE
  swap
  · simp [h1, h2, MASSERT]
  by_cases h3 : GetSecondCanary P s = CANARY_VALUE
  swap
  · simp [h1, h2, h3, MASSERT]
  by_cases h4 : GetHashValue s = CalculateHash_0 P s
  swap
  · simp [h1, h2, h3, h4, MASSERT]
  by_cases h5 : GetCurSize s ≤ GetBufSize s
  swap
  · simp [h1, h2, h3, h4, h5, MASSERT]
  simp [h1, h2, h3, h4, h5, MASSERT]

theorem GetElement_of_fits {P : Cfg} {s : SafeStack} {i : Nat}
    (hf : BUF_POS + GetBufSize s * P.sizeofT + CANARY_SIZE < WORD) (hi : i ≤ GetBufSize s) :
    GetElement P s i = slotAt P s (BUF_POS + i * P.sizeofT) := by
  have := slot_mono (P := P) hi
  unfold GetElement
  rw [Nat.mod_eq_of_lt (by omega)]

/-- The sizes `Push.place` leaves in the header, with or without a free slot. -/
theorem Push.place_sizes {P : Cfg} {s : SafeStack} {n c : Nat} (h : Inv P s n c)
    (item : Elem P) :
    GetCurSize (Push.place P item s) = n + 1 ∧ GetBufSize (Push.place P item s) = c := by
  have hfit := h.fits
  have hle := slot_mono (P := P) h.le
  have hcw : c ≤ c * P.sizeofT := Nat.le_mul_of_pos_right _ P.sizeofT_pos
  have hnc := h.le
  have hpos : (BUF_POS + GetCurSize s * P.sizeofT) % WORD = BUF_POS + n * P.sizeofT := by
    rw [h.cur, Nat.mod_eq_of_lt (by omega)]
  have hcur2 : GetCurSize (s.write (BUF_POS + n * P.sizeofT) item.val) = n := by
    show load64 (store s.buf_ _ _) CUR_SIZE_POS = n
    rw [load64_store_other (by simp only [CUR_SIZE_POS_eq, BUF_POS_eq]; omega)]
    exact h.cur
  have hag : agree (Push.place P item s)
      ((s.write (BUF_POS + n * P.sizeofT) item.val).write CUR_SIZE_POS (bytes64 (n + 1))) := by
    unfold Push.place
    simp only [hpos, hcur2]
    rw [Nat.mod_eq_of_lt (show n + 1 < WORD by simp only [BUF_POS_eq, CANARY_SIZE_eq] at hfit; omega)]
    exact agree_trans (agree_place_0 P _) (agree_SetCurSizeVal P _ (agree_refl _))
  constructor
  · rw [agree_cur hag]
    show load64 (store _ CUR_SIZE_POS (bytes64 (n + 1))) CUR_SIZE_POS = n + 1
    rw [load64_store_same,
      Nat.mod_eq_of_lt (by simp only [BUF_POS_eq, CANARY_SIZE_eq] at hfit; omega)]
  · rw [agree_cap hag]
    show load64 (store (store s.buf_ _ _) CUR_SIZE_POS _) BUF_SIZE_POS = c
    rw [load64_word_other (by decide),
      load64_store_other (by simp only [BUF_SIZE_POS_eq, BUF_POS_eq]; omega)]
    exact h.cap

/-- On a full consistent buffer, `Push` grows and places the element, and its
exit check decides the result. -/
theorem Push_full_shape {P : Cfg} {s : SafeStack} {c : Nat} (h : Inv P s c c)
    (hfit2 : BUF_POS + (2 * c) * P.sizeofT + CANARY_SIZE < WORD)
    (new_mem : Mem) (item : Elem P) :
    Push P new_mem item s =
      match Ok P (Push.place P item (ReallocateDoubleSize.body P new_mem s)) with
      | Verdict.pass => Res.ok () (Push.place P item (ReallocateDoubleSize.body P new_mem s))
      | Verdict.fail e =>
        Res.thrown e (Push.place P item (ReallocateDoubleSize.body P new_mem s))
      | Verdict.diverge => Res.diverged := by
  simp only [Push, VERIFIED, h.ok, h.cur, h.cap, if_true,
    ReallocateDoubleSize_ok h hfit2 new_mem]

theorem contents_last {P : Cfg} {s : SafeStack} {n c : Nat} (h : Inv P s (n + 1) c)
    {l : List (Elem P)} {v : Elem P} (hc : contents P s = l ++ [v]) :
    GetElement P s n = v := by
  have e : contents P s
      = (List.range n).map (fun i => GetElement P s i) ++ [GetElement P s n] := by
    unfold contents
    rw [h.cur, List.range_succ, List.map_append, List.map_singleton]
  rw [e] at hc
  have := (List.append_inj' hc rfl).2
  simpa using this

theorem Inv.tail_poison {P : Cfg} {s : SafeStack} {n c : Nat} (h : Inv P s n c) :
    ∀ i, GetCurSize s ≤ i → i < GetBufSize s → GetElement P s i = GetPoisonValue P := by
  intro i hi1 hi2
  rw [h.cur] at hi1
  rw [h.cap] at hi2
  rw [GetElement_eq h (by omega)]
  exact (IsPoison_iff_eq P _).mp (h.tail i hi1 hi2)

/-- A `Push` that returns leaves every slot from the live-count on poisoned. -/
theorem Push_tail_poison {P : Cfg} {s s' : SafeStack} (hcons : Consistent P s)
    (hfit2 : BUF_POS + (2 * GetBufSize s) * P.sizeofT + CANARY_SIZE < WORD)
    {new_mem : Mem} {v : Elem P} (hres : Push P new_mem v s = Res.ok () s') :
    ∀ i, GetCurSize s' ≤ i → i < GetBufSize s' → GetElement P s' i = GetPoisonValue P := by
  have hinv := hcons.inv
  by_cases hnc : GetCurSize s < GetBufSize s
  · obtain ⟨hpush, _, hinv'⟩ := Push_ok_room hinv hnc new_mem v
    rw [hpush] at hres
    simp only [Res.ok.injEq, true_and] at hres
    rw [← hres]
    exact hinv'.tail_poison
  · have e : GetCurSize s = GetBufSize s := by have := hinv.le; omega
    rw [e] at hinv
    by_cases hc : 1 ≤ GetBufSize s
    · obtain ⟨hpush, hinv'⟩ := Push_ok_grow hinv hc hfit2 new_mem v
      rw [hpush] at hres
      simp only [Res.ok.injEq, true_and] at hres
      rw [← hres]
      exact hinv'.tail_poison
    · have hg := (ReallocateDoubleSize.body_spec hinv hfit2 new_mem).1
      obtain ⟨h1, h2⟩ := Push.place_sizes hg v
      obtain ⟨e', he'⟩ := Ok_fail_of_cur_gt (P := P)
        (s := Push.place P v (ReallocateDoubleSize.body P new_mem s)) (by omega)
      rw [Push_full_shape hinv hfit2 new_mem v, he'] at hres
      simp at hres

/-- A `Pop` that returns leaves every slot from the live-count on poisoned. -/
theorem Pop_tail_poison {P : Cfg} {s s' : SafeStack} (hcons : Consistent P s)
    {r : Elem P} (hres : Pop P s = Res.ok r s') :
    ∀ i, GetCurSize s' ≤ i → i < GetBufSize s' → GetElement P s' i = GetPoisonValue P := by
  have hinv := hcons.inv
  cases hn : GetCurSize s with
  | zero =>
    rw [hn] at hinv
    obtain ⟨s3, _, hcur, hpop⟩ := Pop_empty_shape hinv
    rw [hpop] at hres
    cases hok : Ok P s3 with
    | pass =>
      rw [hok] at hres
      simp only [Res.ok.injEq] at hres
      intro i hi1 hi2
      rw [← hres.2, hcur] at hi1
      rw [← hres.2] at hi2
      have h1 := Ok_pass_le hok
      have h2 := load64_lt s3.buf_ BUF_SIZE_POS
      unfold GetBufSize at hi2 h1
      omega
    | fail e => rw [hok] at hres; simp at hres
    | diverge => rw [hok] at hres; simp at hres
  | succ n =>
    rw [hn] at hinv
    obtain ⟨s1, hpop, _, hinv'⟩ := Pop_ok hinv
    rw [hpop] at hres
    simp only [Res.ok.injEq] at hres
    rw [← hres.2]
    exact hinv'.tail_poison

/-! ## A zeroed leading sentinel -/

theorem load64_zeroed (m : Mem) : load64 (store m 0 (List.replicate CANARY_SIZE 0)) 0 = 0 := by
  have hb : ∀ k, k < 8 → store m 0 (List.replicate CANARY_SIZE 0) (0 + k) = 0 :=
    fun k hk => store_replicate_inside (Nat.le_add_right _ _)
      (by rw [CANARY_SIZE_eq]; omega)
  have h0 := hb 0 (by omega)
  rw [Nat.add_zero] at h0
  unfold load64
  rw [h0, hb 1 (by omega), hb 2 (by omega), hb 3 (by omega), hb 4 (by omega),
    hb 5 (by omega), hb 6 (by omega), hb 7 (by omega)]

/-- With the bytes of the leading sentinel set to zero on an instance that is
not null, `Ok()` raises `CORRUPTED_FIRST_CANARY`. -/
theorem Ok_zeroed_first_canary (P : Cfg) (s : SafeStack) (hthis : s.this_ptr ≠ 0) :
    Ok P (s.write 0 (List.replicate CANARY_SIZE 0))
      = Verdict.fail Errc.CORRUPTED_FIRST_CANARY := by
  have h1 : GetFirstCanary (s.write 0 (List.replicate CANARY_SIZE 0)) ≠ CANARY_VALUE := by
    show load64 (store s.buf_ 0 _) 0 ≠ _
    rw [load64_zeroed]
    decide
  have h0 : ¬ (s.write 0 (List.replicate CANARY_SIZE 0)).this_ptr = 0 := hthis
  rw [Ok_eq, if_neg h0, if_pos h1]

/-! ## `Push` followed by `Pop` -/

theorem lifo_stressLoop {P : Cfg} (vals : List (Elem P)) :
    ∀ (rest : List (Op P)) (st : List (Elem P)),
      lifo (stressLoop vals ++ rest) st
        = (lifo rest (vals.reverse ++ st)).map (fun r => (vals ++ r.1, r.2)) := by
  induction vals with
  | nil =>
    intro rest st
    show lifo rest st = Option.map _ (lifo rest st)
    cases lifo rest st with
    | none => rfl
    | some r => rfl
  | cons v vs ih =>
    intro rest st
    show Option.map (fun r => (v :: r.1, r.2)) (lifo (stressLoop vs ++ rest) (v :: st)) = _
    rw [ih, List.reverse_cons, List.append_assoc, Option.map_map]
    rfl

theorem pushes_stressLoop {P : Cfg} (vals : List (Elem P)) :
    pushes (stressLoop vals) = 2 * vals.length := by
  induction vals with
  | nil => rfl
  | cons v vs ih =>
    show pushes (stressLoop vs) + 1 + 1 = _
    rw [ih, List.length_cons]
    omega

theorem load_succ (m : Mem) (p n : Nat) : load m p (n + 1) = load m p n ++ [m (p + n)] := by
  simp [load, List.range_succ]

/-- The second view of `CalculateHash` for a buffer of `S` bytes: the bytes at
offsets `[HASH_POS + HASH_SIZE, S)`, followed by the byte at offset `S`. -/
theorem hash_view (m : Mem) (S : Nat) (h16 : HASH_POS + HASH_SIZE ≤ S) (hS : S < WORD) :
    load m (HASH_POS + HASH_SIZE) ((S + WORD - HASH_SIZE - HASH_POS + 1) % WORD)
      = load m (HASH_POS + HASH_SIZE) (S - HASH_POS - HASH_SIZE) ++ [m S] := by
  have e : (S + WORD - HASH_SIZE - HASH_POS + 1) % WORD = (S - HASH_POS - HASH_SIZE) + 1 := by
    simp only [HASH_POS_eq, HASH_SIZE_eq, WORD_eq] at h16 hS ⊢
    omega
  have e' : HASH_POS + HASH_SIZE + (S - HASH_POS - HASH_SIZE) = S := by
    simp only [HASH_POS_eq, HASH_SIZE_eq] at h16 ⊢
    omega
  rw [e, load_succ, e']

theorem GetAllBufferSize_lt (P : Cfg) (s : SafeStack) : GetAllBufferSize P s < WORD :=
  Nat.mod_lt _ (by decide)

/-- The recomputed checksum of a buffer that fits in the address space, with
the second view split at the end of the buffer. -/
theorem CalculateHash_0_view {P : Cfg} {s : SafeStack}
    (hf : BUF_POS + GetBufSize s * P.sizeofT + CANARY_SIZE < WORD) :
    CalculateHash_0 P s
      = (P.hashSizeT s.this_ptr + P.hashStr (load s.buf_ 0 HASH_POS)
          + P.hashStr (load s.buf_ (HASH_POS + HASH_SIZE)
              (GetAllBufferSize P s - HASH_POS - HASH_SIZE)
            ++ [s.buf_ (GetAllBufferSize P s)])) % WORD := by
  have h16 : HASH_POS + HASH_SIZE ≤ GetAllBufferSize P s := by
    rw [all_of_fits hf]
    simp only [HASH_POS_eq, HASH_SIZE_eq, BUF_POS_eq]
    omega
  unfold CalculateHash_0 CalculateHash
  rw [hash_view s.buf_ _ h16 (GetAllBufferSize_lt P s)]

/-- The byte that follows the buffer takes part in the checksum: when it is
replaced by a byte that the string hash tells apart, no byte of the buffer has
changed and `Ok()` raises `HASH_NOT_THE_SAME`. -/
theorem Ok_next_byte {P : Cfg} {s : SafeStack} {n c : Nat} (h : Inv P s n c) (b : Nat)
    (hdist : P.hashStr (load s.buf_ (HASH_POS + HASH_SIZE)
          (GetAllBufferSize P s - HASH_POS - HASH_SIZE) ++ [b]) % WORD
      ≠ P.hashStr (load s.buf_ (HASH_POS + HASH_SIZE)
          (GetAllBufferSize P s - HASH_POS - HASH_SIZE)
        ++ [s.buf_ (GetAllBufferSize P s)]) % WORD) :
    Ok P (s.write (GetAllBufferSize P s) [b]) = Verdict.fail Errc.HASH_NOT_THE_SAME := by
  have hfit := h.fits
  have hf : BUF_POS + GetBufSize s * P.sizeofT + CANARY_SIZE < WORD := by
    rw [h.cap]; exact hfit
  have hview := CalculateHash_0_view hf
  have hall := h.all
  rw [hall] at hdist hview ⊢
  have hcap' : GetBufSize (s.write (BUF_POS + c * P.sizeofT + CANARY_SIZE) [b]) = c := by
    show load64 (store s.buf_ _ [b]) BUF_SIZE_POS = c
    rw [load64_store_other (Or.inl (by simp only [BUF_SIZE_POS_eq, BUF_POS_eq]; omega))]
    exact h.cap
  have hf' : BUF_POS + GetBufSize (s.write (BUF_POS + c * P.sizeofT + CANARY_SIZE) [b])
      * P.sizeofT + CANARY_SIZE < WORD := by
    rw [hcap']; exact hfit
  have hall' : GetAllBufferSize P (s.write (BUF_POS + c * P.sizeofT + CANARY_SIZE) [b])
      = BUF_POS + c * P.sizeofT + CANARY_SIZE := by
    rw [all_of_fits hf', hcap']
  have h1 : ¬ (s.write (BUF_POS + c * P.sizeofT + CANARY_SIZE) [b]).this_ptr = 0 := h.this_ne
  have h2 : ¬ GetFirstCanary (s.write (BUF_POS + c * P.sizeofT + CANARY_SIZE) [b])
      ≠ CANARY_VALUE := by
    rw [not_not]
    show load64 (store s.buf_ _ [b]) 0 = _
    rw [load64_store_other (Or.inl (by simp only [BUF_POS_eq]; omega))]
    exact h.first
  have h3 : ¬ GetSecondCanary P (s.write (BUF_POS + c * P.sizeofT + CANARY_SIZE) [b])
      ≠ CANARY_VALUE := by
    rw [not_not]
    rw [GetSecondCanary_eq (by rw [hall']; exact Nat.le_add_left _ _), hall',
      Nat.add_sub_cancel]
    show load64 (store s.buf_ _ [b]) _ = _
    rw [load64_store_other (Or.inl (by simp only [CANARY_SIZE_eq]; omega))]
    exact h.second
  have h4 : GetHashValue (s.write (BUF_POS + c * P.sizeofT + CANARY_SIZE) [b])
      ≠ CalculateHash_0 P (s.write (BUF_POS + c * P.sizeofT + CANARY_SIZE) [b]) := by
    have e1 : GetHashValue (s.write (BUF_POS + c * P.sizeofT + CANARY_SIZE) [b])
        = GetHashValue s := by
      show load64 (store s.buf_ _ [b]) HASH_POS = load64 s.buf_ HASH_POS
      rw [load64_store_other (Or.inl (by simp only [HASH_POS_eq, BUF_POS_eq]; omega))]
    have e2 := CalculateHash_0_view hf'
    rw [hall'] at e2
    have e3 : load (s.write (BUF_POS + c * P.sizeofT + CANARY_SIZE) [b]).buf_ 0 HASH_POS
        = load s.buf_ 0 HASH_POS :=
      load_store_other (Or.inl (by simp only [HASH_POS_eq, BUF_POS_eq]; omega))
    have e4 : load (s.write (BUF_POS + c * P.sizeofT + CANARY_SIZE) [b]).buf_
          (HASH_POS + HASH_SIZE) (BUF_POS + c * P.sizeofT + CANARY_SIZE - HASH_POS - HASH_SIZE)
        = load s.buf_ (HASH_POS + HASH_SIZE)
          (BUF_POS + c * P.sizeofT + CANARY_SIZE - HASH_POS - HASH_SIZE) :=
      load_store_other
        (Or.inl (by simp only [HASH_POS_eq, HASH_SIZE_eq, BUF_POS_eq]; omega))
    have e5 : (s.write (BUF_POS + c * P.sizeofT + CANARY_SIZE) [b]).buf_
        (BUF_POS + c * P.sizeofT + CANARY_SIZE) = b := by
      have := @store_inside s.buf_ (BUF_POS + c * P.sizeofT + CANARY_SIZE) 0 [b] (by simp)
      simpa using this
    rw [e3, e4, e5] at e2
    rw [e1, h.hash, hview, e2]
    intro heq
    have key : ∀ A x y : Nat, (A + x) % WORD = (A + y) % WORD → x % WORD = y % WORD := by
      intro A x y hxy
      simp only [WORD_eq] at hxy ⊢
      omega
    exact hdist (key _ _ _ heq).symm
  rw [Ok_eq, if_neg h1, if_neg h2, if_neg h3, if_pos h4]

theorem SafeStack_construct_beyond (P : Cfg) (this_ptr : Nat) (hthis : this_ptr ≠ 0)
    (hfit : BUF_POS + DEFAULT_INITIAL_SIZE * P.sizeofT + CANARY_SIZE < WORD)
    (new_mem : Mem) :
    ∀ a, BUF_POS + DEFAULT_INITIAL_SIZE * P.sizeofT + CANARY_SIZE ≤ a →
      (SafeStack.construct P this_ptr new_mem).buf_ a = new_mem a := by
  rw [SafeStack_construct_eq, all_size_eq hfit]
  exact (initBuffer_spec _ hthis hfit).2

/-! ## An overwritten checksum -/

theorem agree_write_hash (s : SafeStack) (v : Nat) :
    agree (s.write HASH_POS (bytes64 v)) s := by
  refine ⟨rfl, fun a ha => ?_⟩
  apply word_outside
  simp only [HASH_POS_eq, HASH_SIZE_eq] at ha ⊢
  omega

theorem GetHashValue_write (s : SafeStack) (v : Nat) :
    GetHashValue (s.write HASH_POS (bytes64 v)) = v % WORD :=
  load64_store_same s.buf_ HASH_POS v

theorem GetHashValue_lt (s : SafeStack) : GetHashValue s < WORD :=
  load64_lt s.buf_ HASH_POS

/-- When only the checksum field of a consistent stack changes, to a different
stored value, the first three checks of `Ok()` pass as before and the fourth
raises `HASH_NOT_THE_SAME`. -/
theorem Ok_changed_hash {P : Cfg} {t t' : SafeStack} {n c : Nat} (h : Inv P t n c)
    (hag : agree t' t) (hne : GetHashValue t' ≠ GetHashValue t) :
    Ok P t' = Verdict.fail Errc.HASH_NOT_THE_SAME := by
  have hfit := h.fits
  have h1 : ¬ t'.this_ptr = 0 := by rw [hag.1]; exact h.this_ne
  have h2 : ¬ GetFirstCanary t' ≠ CANARY_VALUE := by
    rw [not_not, agree_first hag]; exact h.first
  have h3 : ¬ GetSecondCanary P t' ≠ CANARY_VALUE := by
    rw [not_not]
    rw [GetSecondCanary_eq (by rw [agree_all P hag, h.all]; exact Nat.le_add_left _ _),
      agree_all P hag, h.all, Nat.add_sub_cancel,
      agree_load64 hag (Or.inr (by rw [BUF_POS_eq]; omega))]
    exact h.second
  have h4 : GetHashValue t' ≠ CalculateHash_0 P t' := by
    rw [agree_hash_0 P hag, ← h.hash]
    exact hne
  rw [Ok_eq, if_neg h1, if_neg h2, if_neg h3, if_pos h4]

/-! ## Sequences of calls that never need more than the capacity -/

theorem lifoBounded_push {P : Cfg} (N : Nat) (item : Elem P) (ops : List (Op P))
    (st : List (Elem P)) :
    lifoBounded N (Op.push item :: ops) st
      = if st.length < N then lifoBounded N ops (item :: st) else none := rfl

theorem lifoBounded_pop {P : Cfg} (N : Nat) (ops : List (Op P)) (v : Elem P)
    (st : List (Elem P)) :
    lifoBounded N (Op.pop :: ops) (v :: st)
      = (lifoBounded N ops st).map (fun r => (v :: r.1, r.2)) := rfl

/-- A sequence that the bounded reference accepts is accepted by the unbounded
one, with the same results. -/
theorem lifoBounded_lifo {P : Cfg} (N : Nat) :
    ∀ (ops : List (Op P)) (st : List (Elem P)) (r : List (Elem P) × List (Elem P)),
      lifoBounded N ops st = some r → lifo ops st = some r := by
  intro ops
  induction ops with
  | nil => intro st r h; exact h
  | cons op ops ih =>
    intro st r h
    cases op with
    | push item =>
      rw [lifoBounded_push] at h
      by_cases hlt : st.length < N
      · rw [if_pos hlt] at h
        exact ih _ _ h
      · rw [if_neg hlt] at h
        exact absurd h (by simp)
    | pop =>
      cases st with
      | nil => exact absurd h (by simp [lifoBounded])
      | cons v st0 =>
        rw [lifoBounded_pop] at h
        cases hr : lifoBounded N ops st0 with
        | none => rw [hr] at h; exact absurd h (by simp)
        | some r0 =>
          rw [hr] at h
          show Option.map _ (lifo ops st0) = _
          rw [ih _ _ hr]
          exact h

/-- The bounded reference accepts every prefix of a sequence that it accepts. -/
theorem lifoBounded_prefix {P : Cfg} (N : Nat) (suf : List (Op P)) :
    ∀ (pre : List (Op P)) (st : List (Elem P)) (r : List (Elem P) × List (Elem P)),
      lifoBounded N (pre ++ suf) st = some r → ∃ r', lifoBounded N pre st = some r' := by
  intro pre
  induction pre with
  | nil => intro st r _; exact ⟨([], st), rfl⟩
  | cons op pre ih =>
    intro st r h
    rw [List.cons_append] at h
    cases op with
    | push item =>
      rw [lifoBounded_push] at h ⊢
      by_cases hlt : st.length < N
      · rw [if_pos hlt] at h ⊢
        exact ih _ _ h
      · rw [if_neg hlt] at h
        exact absurd h (by simp)
    | pop =>
      cases st with
      | nil => exact absurd h (by simp [lifoBounded])
      | cons v st0 =>
        rw [lifoBounded_pop] at h ⊢
        cases hr : lifoBounded N (pre ++ suf) st0 with
        | none => rw [hr] at h; exact absurd h (by simp)
        | some r0 =>
          obtain ⟨r', hr'⟩ := ih _ _ hr
          exact ⟨_, by rw [hr']; rfl⟩

/-- In a sequence that the bounded reference accepts, the number of values
left is the number of pushes minus the number of pops. -/
theorem lifoBounded_size {P : Cfg} (N : Nat) :
    ∀ (ops : List (Op P)) (st : List (Elem P)) (r : List (Elem P) × List (Elem P)),
      lifoBounded N ops st = some r →
      r.2.length + pops ops = st.length + pushes ops ∧ r.2.length ≤ max N st.length := by
  intro ops
  induction ops with
  | nil =>
    intro st r h
    simp only [lifoBounded, Option.some.injEq] at h
    rw [← h]
    exact ⟨rfl, Nat.le_max_right _ _⟩
  | cons op ops ih =>
    intro st r h
    cases op with
    | push item =>
      rw [lifoBounded_push] at h
      by_cases hlt : st.length < N
      · rw [if_pos hlt] at h
        have := ih _ _ h
        simp only [List.length_cons, pops, pushes] at this ⊢
        omega
      · rw [if_neg hlt] at h
        exact absurd h (by simp)
    | pop =>
      cases st with
      | nil => exact absurd h (by simp [lifoBounded])
      | cons v st0 =>
        rw [lifoBounded_pop] at h
        cases hr : lifoBounded N ops st0 with
        | none => rw [hr] at h; exact absurd h (by simp)
        | some r0 =>
          rw [hr] at h
          simp only [Option.map_some', Option.some.injEq] at h
          have := ih _ _ hr
          rw [← h]
          simp only [List.length_cons, pops, pushes] at this ⊢
          omega

theorem lifoBounded_stressLoop {P : Cfg} (N : Nat) (vals : List (Elem P)) :
    ∀ (rest : List (Op P)) (st : List (Elem P)), vals.length + st.length ≤ N →
      lifoBounded N (stressLoop vals ++ rest) st
        = (lifoBounded N rest (vals.reverse ++ st)).map (fun r => (vals ++ r.1, r.2)) := by
  induction vals with
  | nil =>
    intro rest st _
    show lifoBounded N rest st = Option.map _ (lifoBounded N rest st)
    cases lifoBounded N rest st with
    | none => rfl
    | some r => rfl
  | cons v vs ih =>
    intro rest st hle
    simp only [List.length_cons] at hle
    have h1 : st.length < N := by omega
    show lifoBounded N (Op.push v :: Op.pop :: Op.push v :: (stressLoop vs ++ rest)) st = _
    rw [lifoBounded_push, if_pos h1, lifoBounded_pop, lifoBounded_push, if_pos h1,
      ih rest (v :: st) (by simp only [List.length_cons]; omega), List.reverse_cons,
      List.append_assoc, Option.map_map]
    rfl

/-- On a consistent stack of capacity `N` whose live elements are `st`, every
sequence of calls that the bounded reference accepts runs to its end without
growth: the `Pop` calls return what the reference returns, and the capacity is
`N` at the end. -/
theorem run_bounded (P : Cfg) (alloc : Nat → Mem) (N : Nat) :
    ∀ (ops : List (Op P)) (k : Nat) (s : SafeStack) (st outs st' : List (Elem P)),
      Inv P s st.length N → contents P s = st.reverse →
      lifoBounded N ops st = some (outs, st') →
      ∃ s', run P alloc k ops s = some (outs, s') ∧ Inv P s' st'.length N ∧
        contents P s' = st'.reverse := by
  intro ops
  induction ops with
  | nil =>
    intro k s st outs st' h hcont hl
    simp only [lifoBounded, Option.some.injEq, Prod.mk.injEq] at hl
    obtain ⟨rfl, rfl⟩ := hl
    exact ⟨s, rfl, h, hcont⟩
  | cons op ops ih =>
    intro k s st outs st' h hcont hl
    cases op with
    | push item =>
      rw [lifoBounded_push] at hl
      by_cases hnc : st.length < N
      · rw [if_pos hnc] at hl
        obtain ⟨hpush, _, hinv⟩ := Push_ok_room h hnc (alloc k) item
        have hcont' : contents P (Push.place P item s) = (item :: st).reverse := by
          rw [Push_room_contents h hnc item, hcont, List.reverse_cons]
        obtain ⟨s', hrun, hinv', hcs⟩ :=
          ih (k + 1) (Push.place P item s) (item :: st) outs st' hinv hcont' hl
        exact ⟨s', by rw [run_push, hpush]; exact hrun, hinv', hcs⟩
      · rw [if_neg hnc] at hl
        exact absurd hl (by simp)
    | pop =>
      cases st with
      | nil => exact absurd hl (by simp [lifoBounded])
      | cons v st0 =>
        rw [lifoBounded_pop] at hl
        simp only [Option.map_eq_some', Prod.mk.injEq] at hl
        obtain ⟨⟨o1, t1⟩, hl1, ho, ht⟩ := hl
        simp only at ho ht
        simp only [List.length_cons] at h
        obtain ⟨s1, hpop, hag, hinv⟩ := Pop_ok h
        have hsplit := Pop_contents h hag hinv
        rw [hcont, List.reverse_cons] at hsplit
        obtain ⟨hc1, hv1⟩ := List.append_inj' hsplit rfl
        have hv : GetElement P s st0.length = v := by
          simpa using hv1.symm
        obtain ⟨s', hrun, hinv', hcs⟩ := ih (k + 1) s1 st0 o1 t1 hinv hc1.symm hl1
        refine ⟨s', ?_, by rw [← ht]; exact hinv', by rw [← ht]; exact hcs⟩
        rw [run_pop, hpop]
        simp only [hrun, Option.map_some', hv, ← ho]

/-! ## The state of an empty consistent stack -/

theorem Inv.second_canary {P : Cfg} {s : SafeStack} {n c : Nat} (h : Inv P s n c) :
    GetSecondCanary P s = CANARY_VALUE := by
  rw [GetSecondCanary_eq (by rw [h.all]; exact Nat.le_add_left _ _), h.all,
    Nat.add_sub_cancel]
  exact h.second

/-- What the invariants with live-count `0` and capacity `N` say through the
accessors. -/
theorem Inv.empty_state {P : Cfg} {s : SafeStack} {N : Nat} (h : Inv P s 0 N) :
    GetCurSize s = 0 ∧ GetBufSize s = N ∧
      GetFirstCanary s = CANARY_VALUE ∧ GetSecondCanary P s = CANARY_VALUE ∧
      (∀ i, i < GetBufSize s → GetElement P s i = GetPoisonValue P) ∧
      (∀ a, BUF_POS ≤ a → a < BUF_POS + N * P.sizeofT → s.buf_ a = POISON_VALUE) ∧
      GetHashValue s = CalculateHash_0 P s ∧ Ok P s = Verdict.pass := by
  refine ⟨h.cur, h.cap, h.first, h.second_canary,
    fun i hi => h.tail_poison i (by rw [h.cur]; exact Nat.zero_le _) hi, ?_, h.hash, h.ok⟩
  intro a ha1 ha2
  have hpos := P.sizeofT_pos
  have hk : (a - BUF_POS) / P.sizeofT < N := by
    rw [Nat.div_lt_iff_lt_mul hpos]
    omega
  have hj : (a - BUF_POS) % P.sizeofT < P.sizeofT := Nat.mod_lt _ hpos
  have ha : a = BUF_POS + (a - BUF_POS) / P.sizeofT * P.sizeofT + (a - BUF_POS) % P.sizeofT := by
    have := Nat.div_add_mod' (a - BUF_POS) P.sizeofT
    omega
  rw [ha]
  exact h.slot_poison (Nat.zero_le _) hk hj

/-! ## `Push`, slot by slot -/

/-- A push into a free slot: the slots below the live-count and the slots
above it keep their values, and slot `n` holds the pushed value. -/
theorem Push_room_elements {P : Cfg} {s : SafeStack} {n c : Nat} (h : Inv P s n c)
    (hnc : n < c) (item : Elem P) :
    (∀ i, i < c → i ≠ n →
        GetElement P (Push.place P item s) i = GetElement P s i) ∧
      GetElement P (Push.place P item s) n = item := by
  obtain ⟨hf, hv⟩ := Push.place_frame h hnc item
  have hinv := (Push.place_spec h hnc item).2
  refine ⟨fun i hic hin => ?_, ?_⟩
  · rw [GetElement_eq hinv (Nat.le_of_lt hic), GetElement_eq h (Nat.le_of_lt hic)]
    apply slot_congr P
    intro j hj
    apply hf _ (by omega)
    rcases Nat.lt_or_gt_of_ne hin with hlt | hgt
    · have := slot_lt (P := P) hlt
      exact Or.inl (by omega)
    · have := slot_lt (P := P) hgt
      exact Or.inr (by omega)
  · rw [GetElement_eq hinv (Nat.le_of_lt hnc)]
    exact hv

/-- A push that finds the buffer full: after growth the slots below the old
capacity keep their values, and slot `c` holds the pushed value. -/
theorem Push_grow_elements {P : Cfg} {s : SafeStack} {c : Nat} (h : Inv P s c c)
    (hc : 1 ≤ c) (hfit2 : BUF_POS + (2 * c) * P.sizeofT + CANARY_SIZE < WORD)
    (new_mem : Mem) (item : Elem P) :
    (∀ i, i < c →
        GetElement P (Push.place P item (ReallocateDoubleSize.body P new_mem s)) i
          = GetElement P s i) ∧
      GetElement P (Push.place P item (ReallocateDoubleSize.body P new_mem s)) c = item := by
  obtain ⟨hg, hgf, _⟩ := ReallocateDoubleSize.body_spec h hfit2 new_mem
  obtain ⟨he, hv⟩ := Push_room_elements hg (show c < 2 * c by omega) item
  refine ⟨fun i hic => ?_, hv⟩
  rw [he i (by omega) (by omega), GetElement_eq hg (by omega), GetElement_eq h (by omega)]
  apply slot_congr P
  intro j hj
  have := slot_lt (P := P) hic
  exact hgf _ (by omega) (by omega)

/-- A push on a consistent stack of capacity `0`: the growth step runs and
doubles `0` to `0`, the element is stored where the trailing sentinel starts,
and the exit check fails. -/
theorem Push_zero_capacity {P : Cfg} {s : SafeStack} (h : Inv P s 0 0)
    (new_mem : Mem) (item : Elem P) :
    ∃ e, Push P new_mem item s
        = Res.thrown e (Push.place P item (ReallocateDoubleSize.body P new_mem s)) ∧
      GetCurSize (Push.place P item (ReallocateDoubleSize.body P new_mem s)) = 1 ∧
      GetBufSize (Push.place P item (ReallocateDoubleSize.body P new_mem s)) = 0 := by
  have hfit2 : BUF_POS + (2 * 0) * P.sizeofT + CANARY_SIZE < WORD := by
    have := h.fits
    simpa using this
  have hg := (ReallocateDoubleSize.body_spec h hfit2 new_mem).1
  obtain ⟨hcur, hcap⟩ := Push.place_sizes hg item
  obtain ⟨e, he⟩ := Ok_fail_of_cur_gt (P := P)
    (s := Push.place P item (ReallocateDoubleSize.body P new_mem s)) (by rw [hcur, hcap]; decide)
  refine ⟨e, ?_, hcur, hcap⟩
  rw [Push_full_shape h hfit2 new_mem item, he]

/-! ## `Pop`, byte by byte -/

/-- The bytes `Pop` leaves alone: every byte outside the checksum field, the
live-count field and the slot it poisons, the bytes after the buffer
included. -/
theorem Pop_bytes {P : Cfg} {s s' : SafeStack} {n : Nat}
    (hag : agree s' ((s.write (BUF_POS + n * P.sizeofT)
        (List.replicate P.sizeofT POISON_VALUE)).write CUR_SIZE_POS (bytes64 n))) :
    ∀ a, (a < HASH_POS ∨ BUF_SIZE_POS ≤ a) →
      (a < BUF_POS + n * P.sizeofT ∨ BUF_POS + n * P.sizeofT + P.sizeofT ≤ a) →
      s'.buf_ a = s.buf_ a := by
  intro a ha1 ha2
  rw [hag.2 a (by simp only [HASH_POS_eq, HASH_SIZE_eq, BUF_SIZE_POS_eq] at ha1 ⊢; omega)]
  show store (store s.buf_ _ _) CUR_SIZE_POS _ a = _
  rw [word_outside (by simp only [HASH_POS_eq, CUR_SIZE_POS_eq, BUF_SIZE_POS_eq] at ha1 ⊢; omega),
    fill_outside ha2]

/-- The slots `Pop` leaves alone, and the slot it poisons. -/
theorem Pop_elements {P : Cfg} {s s' : SafeStack} {n c : Nat} (h : Inv P s (n + 1) c)
    (hag : agree s' ((s.write (BUF_POS + n * P.sizeofT)
        (List.replicate P.sizeofT POISON_VALUE)).write CUR_SIZE_POS (bytes64 n)))
    (hinv : Inv P s' n c) :
    (∀ i, i < c → i ≠ n → GetElement P s' i = GetElement P s i) ∧
      GetElement P s' n = GetPoisonValue P := by
  have hnc : n < c := h.le
  refine ⟨fun i hic hin => ?_, ?_⟩
  · rw [GetElement_eq hinv (Nat.le_of_lt hic), GetElement_eq h (Nat.le_of_lt hic)]
    apply slot_congr P
    intro j hj
    apply Pop_frame hag _ (by omega)
    rcases Nat.lt_or_gt_of_ne hin with hlt | hgt
    · have := slot_lt (P := P) hlt
      exact Or.inl (by omega)
    · have := slot_lt (P := P) hgt
      exact Or.inr (by omega)
  · have := hinv.tail_poison n (by rw [hinv.cur]) (by rw [hinv.cap]; exact hnc)
    exact this

/-! ## The offsets `Push` and `Pop` compute -/

/-- The body of `Push` after the capacity check, written with `Push.pos`. -/
theorem Push.place_eq_pos (P : Cfg) (item : Elem P) (s1 : SafeStack) :
    Push.place P item s1
      = CalculateAndPlaceHash_0 P
          (SetCurSizeVal P ((GetCurSize (s1.write (Push.pos P s1) item.val) + 1) % WORD)
            (s1.write (Push.pos P s1) item.val)) := rfl

/-- The operation `Pop`, written with `Pop.pos`. -/
theorem Pop_eq_pos (P : Cfg) (s : SafeStack) :
    Pop P s = VERIFIED P (fun s =>
      match (if GetCurSize s = 0 then MASSERT true Errc.POP_ON_0_SIZE else none) with
      | some e => Res.thrown e s
      | none =>
        Res.ok (slotAt P s (Pop.pos P s))
          (CalculateAndPlaceHash_0 P
            (SetCurSizeVal P ((GetCurSize s + WORD - 1) % WORD)
              (FillWithPoison P (Pop.pos P s) (Pop.pos P s + P.sizeofT) s)))) s := rfl

theorem Push_pos_eq {P : Cfg} {s : SafeStack} {n c : Nat} (h : Inv P s n c) :
    Push.pos P s = BUF_POS + n * P.sizeofT := by
  have hfit := h.fits
  have := slot_mono (P := P) h.le
  unfold Push.pos
  rw [h.cur, Nat.mod_eq_of_lt (by omega)]

theorem Pop_pos_eq {P : Cfg} {s : SafeStack} {n c : Nat} (h : Inv P s (n + 1) c) :
    Pop.pos P s = BUF_POS + n * P.sizeofT := by
  have hfit := h.fits
  have hnc : n < c := h.le
  have hlt := slot_lt (P := P) hnc
  unfold Pop.pos
  rw [h.cur]
  have e : n + 1 + WORD - 1 = n + WORD := by omega
  rw [e, Nat.add_mul, ← Nat.add_assoc, Nat.add_mul_mod_self_left,
    Nat.mod_eq_of_lt (by omega)]

theorem Pop_pos_empty {P : Cfg} {s : SafeStack} (h0 : GetCurSize s = 0)
    (hsz : P.sizeofT ≤ BUF_POS) : Pop.pos P s = BUF_POS - P.sizeofT := by
  have hpos := P.sizeofT_pos
  unfold Pop.pos
  rw [h0]
  simp only [BUF_POS_eq, WORD_eq] at hsz ⊢
  omega

/-- The state in which `Pop` on an empty consistent stack throws: the
`sizeof(T)` bytes before the payload are poisoned. -/
theorem Pop_empty_state {P : Cfg} {s : SafeStack} {c : Nat} (h : Inv P s 0 c)
    (hsz : P.sizeofT ≤ BUF_POS) :
    ∃ e s', Pop P s = Res.thrown e s' ∧
      agree s' ((s.write (Pop.pos P s) (List.replicate P.sizeofT POISON_VALUE)).write
        CUR_SIZE_POS (bytes64 (WORD - 1))) ∧
      s'.buf_ (BUF_SIZE_POS + 7) = POISON_VALUE := by
  obtain ⟨s3, hag, _, hpop⟩ := Pop_empty_shape h
  obtain ⟨e, s', hthrow, _, _, _, hbyte⟩ := Pop_empty_thrown h hsz
  have hp : Pop.pos P s = (BUF_POS + (WORD - 1) * P.sizeofT) % WORD := by
    unfold Pop.pos
    rw [h.cur, Nat.zero_add]
  rw [hthrow] at hpop
  have hs : s' = s3 := by
    cases hok : Ok P s3 with
    | pass => rw [hok] at hpop; exact absurd hpop (by simp)
    | fail e' =>
      rw [hok] at hpop
      simp only [Res.thrown.injEq] at hpop
      exact hpop.2
    | diverge => rw [hok] at hpop; exact absurd hpop (by simp)
  refine ⟨e, s', hthrow, ?_, hbyte⟩
  rw [hs, hp]
  exact hag

/-! ## The sizes passed to `FillCanaries` -/

theorem SafeStack_construct_sized (P : Cfg) (this_ptr : Nat) (new_mem : Mem) :
    SafeStack.construct P this_ptr new_mem
      = CalculateAndPlaceHash P (SafeStack.construct.all_size P)
          (FillWithPoison P BUF_POS (SafeStack.construct.all_size P - CANARY_SIZE)
            (FillCanaries P (SafeStack.construct.all_size P)
              (SafeStack.construct.sized P this_ptr new_mem))) := rfl

theorem SafeStackStatic_construct_sized (P : Cfg) (ReservedSize this_ptr : Nat)
    (after : Mem) :
    SafeStackStatic.construct P ReservedSize this_ptr after
      = CalculateAndPlaceHash P (SafeStackStatic.construct.all_size P ReservedSize)
          (FillWithPoison P BUF_POS
            (SafeStackStatic.construct.all_size P ReservedSize - CANARY_SIZE)
            (FillCanaries P (SafeStackStatic.construct.all_size P ReservedSize)
              (SafeStackStatic.construct.sized P ReservedSize this_ptr after))) := rfl

theorem ReallocateDoubleSize_body_sized (P : Cfg) (new_mem : Mem) (s : SafeStack) :
    ReallocateDoubleSize.body P new_mem s
      = CalculateAndPlaceHash P (ReallocateDoubleSize.new_all_size P s)
          (FillWithPoison P (GetAllBufferSize P s - CANARY_SIZE)
            (ReallocateDoubleSize.new_all_size P s - CANARY_SIZE)
            (FillCanaries P (ReallocateDoubleSize.new_all_size P s)
              (ReallocateDoubleSize.sized P new_mem s))) := rfl

/-- The capacity read back after `SetBufferSizeVal(N); SetCurSizeVal(a)`. -/
theorem GetBufSize_sized (P : Cfg) (N a : Nat) (s0 : SafeStack) :
    GetBufSize (SetCurSizeVal P a (SetBufferSizeVal P N s0)) = N % WORD := by
  rw [agree_cap (agree_SetCurSizeVal P a (agree_SetBufferSizeVal P N (agree_refl s0)))]
  show load64 (store (store s0.buf_ BUF_SIZE_POS (bytes64 N)) CUR_SIZE_POS (bytes64 a))
    BUF_SIZE_POS = _
  rw [load64_word_other (by decide), load64_store_same]

/-- What the stored capacity `N` says about the size of the buffer, and where
`FillCanaries` puts the trailing sentinel when it is given that size. -/
theorem sized_all (P : Cfg) (N a : Nat) (s0 : SafeStack)
    (hfit : BUF_POS + N * P.sizeofT + CANARY_SIZE < WORD) :
    GetBufSize (SetCurSizeVal P a (SetBufferSizeVal P N s0)) = N ∧
      GetAllBufferSize P (SetCurSizeVal P a (SetBufferSizeVal P N s0))
        = BUF_POS + N * P.sizeofT + CANARY_SIZE := by
  have hN : N < WORD := by
    have : N ≤ N * P.sizeofT := Nat.le_mul_of_pos_right _ P.sizeofT_pos
    omega
  have e : GetBufSize (SetCurSizeVal P a (SetBufferSizeVal P N s0)) = N := by
    rw [GetBufSize_sized, Nat.mod_eq_of_lt hN]
  exact ⟨e, by rw [all_of_fits (by rw [e]; exact hfit), e]⟩

/-! ## The capacities that growth reaches -/

theorem lifo_append {P : Cfg} (b : List (Op P)) :
    ∀ (a : List (Op P)) (st : List (Elem P)),
      lifo (a ++ b) st =
        match lifo a st with
        | none => none
        | some r1 => (lifo b r1.2).map (fun r => (r1.1 ++ r.1, r.2)) := by
  intro a
  induction a with
  | nil =>
    intro st
    show lifo b st = Option.map _ (lifo b st)
    cases lifo b st with
    | none => rfl
    | some r => rfl
  | cons op a ih =>
    intro st
    cases op with
    | push item =>
      show lifo (a ++ b) (item :: st) = _
      rw [ih]
      rfl
    | pop =>
      cases st with
      | nil => rfl
      | cons v st0 =>
        have e1 : lifo (Op.pop :: (a ++ b)) (v :: st0)
            = (lifo (a ++ b) st0).map (fun r => (v :: r.1, r.2)) := rfl
        have e2 : lifo (Op.pop :: a) (v :: st0)
            = (lifo a st0).map (fun r => (v :: r.1, r.2)) := rfl
        rw [List.cons_append, e1, e2, ih]
        cases lifo a st0 with
        | none => rfl
        | some r1 =>
          dsimp only [Option.map_some']
          cases lifo b r1.2 with
          | none => rfl
          | some r => rfl

/-- The reference never holds more values than were there at the start plus
the number of pushes. -/
theorem lifo_length_le {P : Cfg} :
    ∀ (ops : List (Op P)) (st : List (Elem P)) (r : List (Elem P) × List (Elem P)),
      lifo ops st = some r → r.2.length ≤ st.length + pushes ops := by
  intro ops
  induction ops with
  | nil =>
    intro st r h
    simp only [lifo, Option.some.injEq] at h
    rw [← h]
    exact Nat.le_add_right _ _
  | cons op ops ih =>
    intro st r h
    cases op with
    | push item =>
      have := ih (item :: st) r h
      simp only [List.length_cons, pushes] at this ⊢
      omega
    | pop =>
      cases st with
      | nil => exact absurd h (by simp [lifo])
      | cons v st0 =>
        simp only [lifo, Option.map_eq_some'] at h
        obtain ⟨r0, hr, he⟩ := h
        have := ih st0 r0 hr
        rw [← he]
        simp only [List.length_cons, pushes] at this ⊢
        omega

/-- On a consistent stack of capacity `c ≥ 1`, every sequence of calls that
the reference accepts runs to its end and leaves a capacity `c * 2 ^ j`: each
growth doubles it, and nothing else changes it. -/
theorem run_doubling (P : Cfg) (alloc : Nat → Mem) (B : Nat)
    (hB : BUF_POS + B * P.sizeofT + CANARY_SIZE < WORD) :
    ∀ (ops : List (Op P)) (k : Nat) (s : SafeStack) (c : Nat)
      (st outs st' : List (Elem P)),
      Inv P s st.length c → 1 ≤ c → c ≤ B →
      (pushes ops = 0 ∨ 2 * (st.length + pushes ops) ≤ B) →
      lifo ops st = some (outs, st') →
      ∃ o s' j, run P alloc k ops s = some (o, s') ∧ Inv P s' st'.length (c * 2 ^ j) ∧
        c * 2 ^ j ≤ B := by
  intro ops
  induction ops with
  | nil =>
    intro k s c st outs st' h _ hcB _ hl
    simp only [lifo, Option.some.injEq, Prod.mk.injEq] at hl
    obtain ⟨_, rfl⟩ := hl
    exact ⟨[], s, 0, rfl, by simpa using h, by simpa using hcB⟩
  | cons op ops ih =>
    intro k s c st outs st' h hc hcB hp hl
    cases op with
    | push item =>
      simp only [lifo] at hl
      simp only [pushes] at hp
      have hp : 2 * (st.length + (pushes ops + 1)) ≤ B := by omega
      by_cases hnc : st.length < c
      · obtain ⟨hpush, _, hinv⟩ := Push_ok_room h hnc (alloc k) item
        obtain ⟨o, s', j, hrun, hinv', hcB'⟩ :=
          ih (k + 1) (Push.place P item s) c (item :: st) outs st' hinv hc hcB
            (Or.inr (by simp only [List.length_cons]; omega)) hl
        exact ⟨o, s', j, by rw [run_push, hpush]; exact hrun, hinv', hcB'⟩
      · have hle := h.le
        have e : st.length = c := by omega
        rw [e] at h
        have hfit2 : BUF_POS + (2 * c) * P.sizeofT + CANARY_SIZE < WORD :=
          fits_mono (by omega) hB
        obtain ⟨hpush, hinv⟩ := Push_ok_grow h hc hfit2 (alloc k) item
        obtain ⟨o, s', j, hrun, hinv', hcB'⟩ :=
          ih (k + 1) (Push.place P item (ReallocateDoubleSize.body P (alloc k) s)) (2 * c)
            (item :: st) outs st' (by simp only [List.length_cons, e]; exact hinv)
            (by omega) (by omega) (Or.inr (by simp only [List.length_cons]; omega)) hl
        have e2 : 2 * c * 2 ^ j = c * 2 ^ (j + 1) := by
          rw [pow_succ]
          ring
        rw [e2] at hinv' hcB'
        exact ⟨o, s', j + 1, by rw [run_push, hpush]; exact hrun, hinv', hcB'⟩
    | pop =>
      cases st with
      | nil => exact absurd hl (by simp [lifo])
      | cons v st0 =>
        simp only [lifo, Option.map_eq_some', Prod.mk.injEq] at hl
        obtain ⟨⟨o1, t1⟩, hl1, _, ht⟩ := hl
        simp only at ht
        simp only [pushes, List.length_cons] at hp
        simp only [List.length_cons] at h
        obtain ⟨s1, hpop, _, hinv⟩ := Pop_ok h
        obtain ⟨o, s', j, hrun, hinv', hcB'⟩ :=
          ih (k + 1) s1 c st0 o1 t1 hinv hc hcB (by omega) hl1
        refine ⟨GetElement P s st0.length :: o, s', j, ?_, by rw [← ht]; exact hinv', hcB'⟩
        rw [run_pop, hpop]
        simp only [hrun, Option.map_some']

/-- Consecutive pushes: when the capacity `10 * 2 ^ e` is the smallest of
that form that holds `max n 10` values before the pushes, the capacity after
them is the smallest of that form that holds the new live-count. -/
theorem run_pushes_tight (P : Cfg) (alloc : Nat → Mem) (B : Nat)
    (hB : BUF_POS + B * P.sizeofT + CANARY_SIZE < WORD) :
    ∀ (xs : List (Elem P)) (k : Nat) (s : SafeStack) (n e : Nat),
      Inv P s n (10 * 2 ^ e) → (∀ j, max n 10 ≤ 10 * 2 ^ j → e ≤ j) →
      2 * (n + xs.length) ≤ B →
      ∃ s' e', run P alloc k (xs.map Op.push) s = some ([], s') ∧
        Inv P s' (n + xs.length) (10 * 2 ^ e') ∧
        (∀ j, max (n + xs.length) 10 ≤ 10 * 2 ^ j → e' ≤ j) := by
  intro xs
  induction xs with
  | nil =>
    intro k s n e h hmin _
    exact ⟨s, e, rfl, h, hmin⟩
  | cons x xs ih =>
    intro k s n e h hmin hp
    simp only [List.length_cons] at hp
    have hpow : 1 ≤ 2 ^ e := Nat.one_le_two_pow
    have hlen : n + (x :: xs).length = n + 1 + xs.length := by
      simp only [List.length_cons]
      omega
    rw [hlen]
    show ∃ s' e', run P alloc k (Op.push x :: xs.map Op.push) s = _ ∧ _
    by_cases hnc : n < 10 * 2 ^ e
    · obtain ⟨hpush, _, hinv⟩ := Push_ok_room h hnc (alloc k) x
      obtain ⟨s', e', hrun, hinv', hmin'⟩ :=
        ih (k + 1) (Push.place P x s) (n + 1) e hinv
          (fun j hj => hmin j (by omega)) (by omega)
      exact ⟨s', e', by rw [run_push, hpush]; exact hrun, hinv', hmin'⟩
    · have hle := h.le
      have en : n = 10 * 2 ^ e := by omega
      rw [en] at h
      have hfit2 : BUF_POS + (2 * (10 * 2 ^ e)) * P.sizeofT + CANARY_SIZE < WORD :=
        fits_mono (by omega) hB
      obtain ⟨hpush, hinv⟩ := Push_ok_grow h (by omega) hfit2 (alloc k) x
      have e2 : 2 * (10 * 2 ^ e) = 10 * 2 ^ (e + 1) := by
        rw [pow_succ]
        ring
      rw [e2, ← en] at hinv
      have hmin1 : ∀ j, max (n + 1) 10 ≤ 10 * 2 ^ j → e + 1 ≤ j := by
        intro j hj
        by_contra hlt
        have hje : j ≤ e := by omega
        have := Nat.pow_le_pow_right (show 0 < 2 by decide) hje
        omega
      obtain ⟨s', e', hrun, hinv', hmin'⟩ :=
        ih (k + 1) (Push.place P x (ReallocateDoubleSize.body P (alloc k) s)) (n + 1) (e + 1)
          hinv hmin1 (by omega)
      exact ⟨s', e', by rw [run_push, hpush]; exact hrun, hinv', hmin'⟩

/-- A capacity whose highest byte is `POISON_VALUE` is not of the form
`10 * 2 ^ k`. -/
theorem poisoned_capacity (s : SafeStack) (h : s.buf_ (BUF_SIZE_POS + 7) = POISON_VALUE) :
    ∀ k, GetBufSize s ≠ 10 * 2 ^ k := by
  have hlo : 35 * 2 ^ 56 ≤ GetBufSize s := by
    unfold GetBufSize load64
    rw [h]
    simp only [POISON_VALUE]
    omega
  have hhi : GetBufSize s < 36 * 2 ^ 56 := by
    unfold GetBufSize load64
    rw [h]
    simp only [POISON_VALUE]
    omega
  intro k heq
  rw [heq] at hlo hhi
  by_cases hk : k ≤ 57
  · have := Nat.pow_le_pow_right (show 0 < 2 by decide) hk
    omega
  · have := Nat.pow_le_pow_right (show 0 < 2 by decide) (show 58 ≤ k by omega)
    omega

/-! ## Calls in a program that writes to memory of its own -/

theorem runWith_push (P : Cfg) (alloc : Nat → Mem) (env : Nat → Mem → Mem) (k : Nat)
    (item : Elem P) (ops : List (Op P)) (s : SafeStack) :
    runWith P alloc env k (Op.push item :: ops) s =
      match Push P (alloc k) item (disturbed env k s) with
      | Res.ok _ s' => runWith P alloc env (k + 1) ops s'
      | _ => none := rfl

theorem runWith_pop (P : Cfg) (alloc : Nat → Mem) (env : Nat → Mem → Mem) (k : Nat)
    (ops : List (Op P)) (s : SafeStack) :
    runWith P alloc env k (Op.pop :: ops) s =
      match Pop P (disturbed env k s) with
      | Res.ok v s' => (runWith P alloc env (k + 1) ops s').map (fun r => (v :: r.1, r.2))
      | _ => none := rfl

/-- In the environment that writes nothing, `runWith` is `run`. -/
theorem runWith_idle (P : Cfg) (alloc : Nat → Mem) (ops : List (Op P)) (k : Nat)
    (s : SafeStack) : runWith P alloc idle k ops s = run P alloc k ops s := rfl

theorem Quiet_idle (top : Nat) : Quiet idle top :=
  fun _ _ _ _ => rfl

/-- The invariants and the live elements depend on the bytes of the buffer and
on the one byte after it only. -/
theorem Inv.same_bytes {P : Cfg} {s : SafeStack} {n c : Nat} (h : Inv P s n c)
    (t : SafeStack) (hthis : t.this_ptr = s.this_ptr)
    (hm : ∀ a, a ≤ BUF_POS + c * P.sizeofT + CANARY_SIZE → t.buf_ a = s.buf_ a) :
    Inv P t n c ∧ contents P t = contents P s := by
  have hfit := h.fits
  have hle := slot_mono (P := P) h.le
  have hcur : GetCurSize t = n := by
    rw [← h.cur]
    exact load64_congr (fun k hk => hm _ (by simp only [CUR_SIZE_POS_eq, BUF_POS_eq]; omega))
  have hcap : GetBufSize t = c := by
    rw [← h.cap]
    exact load64_congr (fun k hk => hm _ (by simp only [BUF_SIZE_POS_eq, BUF_POS_eq]; omega))
  have hf' : BUF_POS + GetBufSize t * P.sizeofT + CANARY_SIZE < WORD := by
    rw [hcap]; exact hfit
  have hf : BUF_POS + GetBufSize s * P.sizeofT + CANARY_SIZE < WORD := by
    rw [h.cap]; exact hfit
  have hall' : GetAllBufferSize P t = BUF_POS + c * P.sizeofT + CANARY_SIZE := by
    rw [all_of_fits hf', hcap]
  have hhash : GetHashValue t = CalculateHash_0 P t := by
    have e1 : GetHashValue t = GetHashValue s :=
      load64_congr (fun k hk => hm _ (by simp only [HASH_POS_eq, BUF_POS_eq]; omega))
    rw [e1, h.hash, CalculateHash_0_view hf', CalculateHash_0_view hf, hall', h.all, hthis,
      @load_congr t.buf_ s.buf_ 0 HASH_POS
        (fun k hk => hm _ (by simp only [HASH_POS_eq, BUF_POS_eq] at hk ⊢; omega)),
      @load_congr t.buf_ s.buf_ (HASH_POS + HASH_SIZE)
        (BUF_POS + c * P.sizeofT + CANARY_SIZE - HASH_POS - HASH_SIZE)
        (fun k hk => hm _ (by
          simp only [HASH_POS_eq, HASH_SIZE_eq, BUF_POS_eq, CANARY_SIZE_eq] at hk ⊢; omega)),
      hm _ (Nat.le_refl _)]
  have hinv : Inv P t n c := by
    refine ⟨by rw [hthis]; exact h.this_ne, hcur, hcap, h.le, hfit, ?_, ?_, hhash, ?_⟩
    · rw [← h.first]
      exact load64_congr (fun k hk => hm _ (by simp only [BUF_POS_eq]; omega))
    · rw [← h.second]
      exact load64_congr (fun k hk => hm _ (by simp only [CANARY_SIZE_eq]; omega))
    · intro k hk hkc
      have hlt := slot_lt (P := P) hkc
      rw [@slot_congr P s t (BUF_POS + k * P.sizeofT) (fun j hj => hm _ (by omega))]
      exact h.tail k hk hkc
  exact ⟨hinv, contents_same h hinv (fun a _ ha2 => hm a (by omega))⟩

/-- A quiet environment keeps the invariants and the live elements. -/
theorem Inv.quiet {P : Cfg} {s : SafeStack} {n c B : Nat} (h : Inv P s n c)
    (hcB : c ≤ B) {env : Nat → Mem → Mem}
    (hq : Quiet env (BUF_POS + B * P.sizeofT + CANARY_SIZE)) (k : Nat) :
    Inv P (disturbed env k s) n c ∧ contents P (disturbed env k s) = contents P s :=
  h.same_bytes (disturbed env k s) rfl (fun a ha => hq k s.buf_ a (by
    have := Nat.mul_le_mul_right P.sizeofT hcB
    omega))

/-- In a quiet environment, on a consistent stack whose live elements are `st`
(most recent first), every sequence of calls that the reference accepts runs
to its end; the `Pop` calls return what the reference returns, the live
elements stay those of the reference, and the invariants hold at the end.  `B`
bounds the capacities that can be reached; the environment leaves the bytes of
a buffer of that capacity and the byte after it alone. -/
theorem runWith_refines (P : Cfg) (alloc : Nat → Mem) (env : Nat → Mem → Mem) (B : Nat)
    (hB : BUF_POS + B * P.sizeofT + CANARY_SIZE < WORD)
    (hq : Quiet env (BUF_POS + B * P.sizeofT + CANARY_SIZE)) :
    ∀ (ops : List (Op P)) (k : Nat) (s : SafeStack) (c : Nat)
      (st outs st' : List (Elem P)),
      Inv P s st.length c → 1 ≤ c → c ≤ B →
      (pushes ops = 0 ∨ 2 * (st.length + pushes ops) ≤ B) →
      contents P s = st.reverse → lifo ops st = some (outs, st') →
      ∃ s' c', runWith P alloc env k ops s = some (outs, s') ∧ Inv P s' st'.length c' ∧
        c ≤ c' ∧ c' ≤ B ∧ contents P s' = st'.reverse := by
  intro ops
  induction ops with
  | nil =>
    intro k s c st outs st' h _ hcB _ hcont hl
    simp only [lifo, Option.some.injEq, Prod.mk.injEq] at hl
    obtain ⟨rfl, rfl⟩ := hl
    exact ⟨s, c, rfl, h, Nat.le_refl _, hcB, hcont⟩
  | cons op ops ih =>
    intro k s c st outs st' h0 hc hcB hp hcont0 hl
    obtain ⟨h, hcd⟩ := h0.quiet hcB hq k
    have hcont : contents P (disturbed env k s) = st.reverse := hcd.trans hcont0
    cases op with
    | push item =>
      simp only [lifo] at hl
      simp only [pushes] at hp
      have hp : 2 * (st.length + (pushes ops + 1)) ≤ B := by omega
      by_cases hnc : st.length < c
      · obtain ⟨hpush, _, hinv⟩ := Push_ok_room h hnc (alloc k) item
        have hcont' : contents P (Push.place P item (disturbed env k s))
            = (item :: st).reverse := by
          rw [Push_room_contents h hnc item, hcont, List.reverse_cons]
        obtain ⟨s', c', hrun, hinv', hcc, hcB', hcs⟩ :=
          ih (k + 1) (Push.place P item (disturbed env k s)) c (item :: st) outs st' hinv hc hcB
            (Or.inr (by simp only [List.length_cons]; omega)) hcont' hl
        exact ⟨s', c', by rw [runWith_push, hpush]; exact hrun, hinv', hcc, hcB', hcs⟩
      · have hle := h.le
        have e : st.length = c := by omega
        rw [e] at h
        have hfit2 : BUF_POS + (2 * c) * P.sizeofT + CANARY_SIZE < WORD :=
          fits_mono (by omega) hB
        obtain ⟨hpush, hinv⟩ := Push_ok_grow h hc hfit2 (alloc k) item
        have hcont' : contents P
            (Push.place P item (ReallocateDoubleSize.body P (alloc k) (disturbed env k s)))
            = (item :: st).reverse := by
          rw [Push_grow_contents h hc hfit2 (alloc k) item, hcont, List.reverse_cons]
        obtain ⟨s', c', hrun, hinv', hcc, hcB', hcs⟩ :=
          ih (k + 1)
            (Push.place P item (ReallocateDoubleSize.body P (alloc k) (disturbed env k s)))
            (2 * c) (item :: st) outs st' (by simp only [List.length_cons, e]; exact hinv)
            (by omega) (by omega) (Or.inr (by simp only [List.length_cons]; omega)) hcont' hl
        exact ⟨s', c', by rw [runWith_push, hpush]; exact hrun, hinv', by omega, hcB', hcs⟩
    | pop =>
      cases st with
      | nil => exact absurd hl (by simp [lifo])
      | cons v st0 =>
        simp only [lifo, Option.map_eq_some', Prod.mk.injEq] at hl
        obtain ⟨⟨o1, t1⟩, hl1, ho, ht⟩ := hl
        simp only at ho ht
        simp only [pushes, List.length_cons] at hp
        simp only [List.length_cons] at h
        obtain ⟨s1, hpop, hag, hinv⟩ := Pop_ok h
        have hsplit := Pop_contents h hag hinv
        rw [hcont, List.reverse_cons] at hsplit
        obtain ⟨hc1, hv1⟩ := List.append_inj' hsplit rfl
        have hv : GetElement P (disturbed env k s) st0.length = v := by
          simpa using hv1.symm
        obtain ⟨s', c', hrun, hinv', hcc, hcB', hcs⟩ :=
          ih (k + 1) s1 c st0 o1 t1 hinv hc hcB (by omega) hc1.symm hl1
        refine ⟨s', c', ?_, by rw [← ht]; exact hinv', hcc, hcB', by rw [← ht]; exact hcs⟩
        rw [runWith_pop, hpop]
        simp only [hrun, Option.map_some', hv, ← ho]

/-- The calls on a fresh growable stack, in a quiet environment. -/
theorem runWith_fresh (P : Cfg) (this_ptr : Nat) (hthis : this_ptr ≠ 0)
    (alloc : Nat → Mem) (env : Nat → Mem → Mem) (new_mem : Mem) (B : Nat)
    (hB : BUF_POS + B * P.sizeofT + CANARY_SIZE < WORD)
    (hq : Quiet env (BUF_POS + B * P.sizeofT + CANARY_SIZE))
    (ops : List (Op P)) (outs st' : List (Elem P))
    (hops : 2 * pushes ops + DEFAULT_INITIAL_SIZE ≤ B)
    (hl : lifo ops [] = some (outs, st')) :
    ∃ s' c', runWith P alloc env 0 ops (SafeStack.construct P this_ptr new_mem)
        = some (outs, s') ∧
      Inv P s' st'.length c' ∧ DEFAULT_INITIAL_SIZE ≤ c' ∧ c' ≤ B ∧
      contents P s' = st'.reverse := by
  have h0 : Inv P (SafeStack.construct P this_ptr new_mem) 0 DEFAULT_INITIAL_SIZE :=
    SafeStack_construct_inv P this_ptr hthis (fits_mono (by omega) hB) new_mem
  have hc0 : contents P (SafeStack.construct P this_ptr new_mem)
      = ([] : List (Elem P)).reverse := by
    rw [contents_eq h0]
    rfl
  exact runWith_refines P alloc env B hB hq ops 0 _
    DEFAULT_INITIAL_SIZE [] outs st' h0 (by decide) (by omega)
    (Or.inr (by simp only [List.length_nil]; omega)) hc0 hl

/-- In a quiet environment, on a consistent stack of capacity `N` whose live
elements are `st`, every sequence of calls that the bounded reference accepts
runs to its end without growth. -/
theorem runWith_bounded (P : Cfg) (alloc : Nat → Mem) (env : Nat → Mem → Mem) (N : Nat)
    (hq : Quiet env (BUF_POS + N * P.sizeofT + CANARY_SIZE)) :
    ∀ (ops : List (Op P)) (k : Nat) (s : SafeStack) (st outs st' : List (Elem P)),
      Inv P s st.length N → contents P s = st.reverse →
      lifoBounded N ops st = some (outs, st') →
      ∃ s', runWith P alloc env k ops s = some (outs, s') ∧ Inv P s' st'.length N ∧
        contents P s' = st'.reverse := by
  intro ops
  induction ops with
  | nil =>
    intro k s st outs st' h hcont hl
    simp only [lifoBounded, Option.some.injEq, Prod.mk.injEq] at hl
    obtain ⟨rfl, rfl⟩ := hl
    exact ⟨s, rfl, h, hcont⟩
  | cons op ops ih =>
    intro k s st outs st' h0 hcont0 hl
    obtain ⟨h, hcd⟩ := h0.quiet (Nat.le_refl N) hq k
    have hcont : contents P (disturbed env k s) = st.reverse := hcd.trans hcont0
    cases op with
    | push item =>
      rw [lifoBounded_push] at hl
      by_cases hnc : st.length < N
      · rw [if_pos hnc] at hl
        obtain ⟨hpush, _, hinv⟩ := Push_ok_room h hnc (alloc k) item
        have hcont' : contents P (Push.place P item (disturbed env k s))
            = (item :: st).reverse := by
          rw [Push_room_contents h hnc item, hcont, List.reverse_cons]
        obtain ⟨s', hrun, hinv', hcs⟩ :=
          ih (k + 1) (Push.place P item (disturbed env k s)) (item :: st) outs st' hinv
            hcont' hl
        exact ⟨s', by rw [runWith_push, hpush]; exact hrun, hinv', hcs⟩
      · rw [if_neg hnc] at hl
        exact absurd hl (by simp)
    | pop =>
      cases st with
      | nil => exact absurd hl (by simp [lifoBounded])
      | cons v st0 =>
        rw [lifoBounded_pop] at hl
        simp only [Option.map_eq_some', Prod.mk.injEq] at hl
        obtain ⟨⟨o1, t1⟩, hl1, ho, ht⟩ := hl
        simp only at ho ht
        simp only [List.length_cons] at h
        obtain ⟨s1, hpop, hag, hinv⟩ := Pop_ok h
        have hsplit := Pop_contents h hag hinv
        rw [hcont, List.reverse_cons] at hsplit
        obtain ⟨hc1, hv1⟩ := List.append_inj' hsplit rfl
        have hv : GetElement P (disturbed env k s) st0.length = v := by
          simpa using hv1.symm
        obtain ⟨s', hrun, hinv', hcs⟩ := ih (k + 1) s1 st0 o1 t1 hinv hc1.symm hl1
        refine ⟨s', ?_, by rw [← ht]; exact hinv', by rw [← ht]; exact hcs⟩
        rw [runWith_pop, hpop]
        simp only [hrun, Option.map_some', hv, ← ho]

/-! ## A byte after the buffer that changes between two calls -/

/-- A write of one byte at the offset that follows the buffer leaves every byte
of the buffer as it was. -/
theorem next_byte_outside (s : SafeStack) (S b : Nat) :
    ∀ a, a < S → (s.write S [b]).buf_ a = s.buf_ a := by
  intro a ha
  exact store_outside (Or.inl ha)

/-- When the byte after the buffer of a consistent stack has changed to a value
that the string hash tells from the old one, the entry check of `Push` and of
`Pop` fails: both throw `HASH_NOT_THE_SAME`. -/
theorem next_byte_throws {P : Cfg} {s : SafeStack} {n c : Nat} (h : Inv P s n c) (b : Nat)
    (hdist : P.hashStr (load s.buf_ (HASH_POS + HASH_SIZE)
          (GetAllBufferSize P s - HASH_POS - HASH_SIZE) ++ [b]) % WORD
      ≠ P.hashStr (load s.buf_ (HASH_POS + HASH_SIZE)
          (GetAllBufferSize P s - HASH_POS - HASH_SIZE)
        ++ [s.buf_ (GetAllBufferSize P s)]) % WORD)
    (new_mem : Mem) (v : Elem P) :
    Push P new_mem v (s.write (GetAllBufferSize P s) [b])
        = Res.thrown Errc.HASH_NOT_THE_SAME (s.write (GetAllBufferSize P s) [b]) ∧
      Pop P (s.write (GetAllBufferSize P s) [b])
        = Res.thrown Errc.HASH_NOT_THE_SAME (s.write (GetAllBufferSize P s) [b]) := by
  have hz := Ok_next_byte h b hdist
  exact ⟨by simp only [Push, VERIFIED, hz], by simp only [Pop, VERIFIED, hz]⟩

/-- A sequence of calls stops at its first call when the environment has
changed the byte after the buffer before that call. -/
theorem runWith_next_byte {P : Cfg} {s : SafeStack} {n c : Nat} (h : Inv P s n c) (b : Nat)
    (hdist : P.hashStr (load s.buf_ (HASH_POS + HASH_SIZE)
          (GetAllBufferSize P s - HASH_POS - HASH_SIZE) ++ [b]) % WORD
      ≠ P.hashStr (load s.buf_ (HASH_POS + HASH_SIZE)
          (GetAllBufferSize P s - HASH_POS - HASH_SIZE)
        ++ [s.buf_ (GetAllBufferSize P s)]) % WORD)
    (alloc : Nat → Mem) (op : Op P) (ops : List (Op P)) :
    runWith P alloc (writesOnce (GetAllBufferSize P s) b) 0 (op :: ops) s = none := by
  have hd : disturbed (writesOnce (GetAllBufferSize P s) b) 0 s
      = s.write (GetAllBufferSize P s) [b] := rfl
  cases op with
  | push item =>
    rw [runWith_push, hd, (next_byte_throws h b hdist (alloc 0) item).1]
  | pop =>
    rw [runWith_pop, hd, (next_byte_throws h b hdist (alloc 0) (GetPoisonValue P)).2]

/-- The pushes of `xs` into free slots, one after the other. -/
theorem place_all_inv {P : Cfg} :
    ∀ (xs : List (Elem P)) (s : SafeStack) (n c : Nat), Inv P s n c → n + xs.length ≤ c →
      Inv P (xs.foldl (fun s x => Push.place P x s) s) (n + xs.length) c := by
  intro xs
  induction xs with
  | nil => intro s n c h _; exact h
  | cons x xs ih =>
    intro s n c h hle
    simp only [List.length_cons] at hle
    have hinv := (Push.place_spec h (show n < c by omega) x).2
    have := ih (Push.place P x s) (n + 1) c hinv (by omega)
    have e : n + (x :: xs).length = n + 1 + xs.length := by
      simp only [List.length_cons]
      omega
    rw [e]
    exact this

theorem SafeStackStatic_construct_beyond (P : Cfg) (ReservedSize this_ptr : Nat)
    (hthis : this_ptr ≠ 0)
    (hfit : BUF_POS + ReservedSize * P.sizeofT + CANARY_SIZE < WORD) (after : Mem) :
    ∀ a, BUF_POS + ReservedSize * P.sizeofT + CANARY_SIZE ≤ a →
      (SafeStackStatic.construct P ReservedSize this_ptr after).buf_ a = after a := by
  have hN : ReservedSize < WORD := by
    have : ReservedSize ≤ ReservedSize * P.sizeofT := Nat.le_mul_of_pos_right _ P.sizeofT_pos
    omega
  rw [SafeStackStatic_construct_eq, all_size_eq hfit, Nat.mod_eq_of_lt hN]
  intro a ha
  rw [(initBuffer_spec _ hthis hfit).2 a ha]
  show (if a < BUF_POS + ReservedSize * P.sizeofT + CANARY_SIZE then 0 else after a) = after a
  rw [if_neg (by omega)]

/-- A `Push` that a consistent stack can accept, and the `Pop` that follows it
on every state that has the bytes of the buffer and the byte after it as the
`Push` left them. -/
theorem Push_then_Pop {P : Cfg} {s : SafeStack} (hcons : Consistent P s)
    (hacc : Accepts P s) (new_mem : Mem) (v : Elem P) :
    ∃ s1 c', Push P new_mem v s = Res.ok () s1 ∧ Inv P s1 (GetCurSize s + 1) c' ∧
      ∀ t : SafeStack, t.this_ptr = s1.this_ptr →
        (∀ a, a ≤ GetAllBufferSize P s1 → t.buf_ a = s1.buf_ a) →
        ∃ s2, Pop P t = Res.ok v s2 ∧ Inv P s2 (GetCurSize s) c' ∧
          contents P s2 = contents P s := by
  have hinv := hcons.inv
  have key : ∀ s1 c', Inv P s1 (GetCurSize s + 1) c' → contents P s1 = contents P s ++ [v] →
      ∀ t : SafeStack, t.this_ptr = s1.this_ptr →
        (∀ a, a ≤ GetAllBufferSize P s1 → t.buf_ a = s1.buf_ a) →
        ∃ s2, Pop P t = Res.ok v s2 ∧ Inv P s2 (GetCurSize s) c' ∧
          contents P s2 = contents P s := by
    intro s1 c' hinv1 hc1 t hthis hm
    rw [hinv1.all] at hm
    obtain ⟨hinvt, hct⟩ := hinv1.same_bytes t hthis hm
    rw [hc1] at hct
    have hv := contents_last hinvt hct
    obtain ⟨s2, hpop, hag, hinv2⟩ := Pop_ok hinvt
    have hsplit := Pop_contents hinvt hag hinv2
    rw [hv, hct] at hsplit
    rw [hv] at hpop
    exact ⟨s2, hpop, hinv2, ((List.append_inj' hsplit rfl).1).symm⟩
  by_cases hnc : GetCurSize s < GetBufSize s
  · obtain ⟨hpush, _, hinv1⟩ := Push_ok_room hinv hnc new_mem v
    exact ⟨_, _, hpush, hinv1, key _ _ hinv1 (Push_room_contents hinv hnc v)⟩
  · have e : GetCurSize s = GetBufSize s := by have := hinv.le; omega
    obtain ⟨hc, hfit2⟩ : 1 ≤ GetBufSize s ∧
        BUF_POS + (2 * GetBufSize s) * P.sizeofT + CANARY_SIZE < WORD := by
      rcases hacc with h | h
      · exact absurd h hnc
      · exact h
    have hinv' : Inv P s (GetBufSize s) (GetBufSize s) := by
      have := hinv
      rw [e] at this
      exact this
    obtain ⟨hpush, hinv1⟩ := Push_ok_grow hinv' hc hfit2 new_mem v
    have hinv1' : Inv P (Push.place P v (ReallocateDoubleSize.body P new_mem s))
        (GetCurSize s + 1) (2 * GetBufSize s) := by
      rw [e]
      exact hinv1
    exact ⟨_, _, hpush, hinv1', key _ _ hinv1' (Push_grow_contents hinv' hc hfit2 new_mem v)⟩


/-- The stand-in for the string hash tells two views apart that differ by one
in their last byte. -/
theorem sum_next_byte (l : List Nat) (y : Nat) :
    List.sum (l ++ [y + 1]) % WORD ≠ List.sum (l ++ [y]) % WORD := by
  simp only [List.sum_append, List.sum_cons, List.sum_nil, WORD_eq]
  omega

theorem sum_changed (l : List Nat) (x b : Nat) (h : b % WORD ≠ x % WORD) :
    List.sum (l ++ [b]) % WORD ≠ List.sum (l ++ [x]) % WORD := by
  simp only [List.sum_append, List.sum_cons, List.sum_nil, WORD_eq] at h ⊢
  omega

/-- When the string hash is the sum of the bytes, it tells the view of the
checksum from the view with another last byte. -/
theorem sum_hash_tells (P : Cfg) (hP : P.hashStr = List.sum) (s : SafeStack) (b : Nat)
    (h : b % WORD ≠ s.buf_ (GetAllBufferSize P s) % WORD) :
    P.hashStr (load s.buf_ (HASH_POS + HASH_SIZE)
          (GetAllBufferSize P s - HASH_POS - HASH_SIZE) ++ [b]) % WORD
      ≠ P.hashStr (load s.buf_ (HASH_POS + HASH_SIZE)
          (GetAllBufferSize P s - HASH_POS - HASH_SIZE)
        ++ [s.buf_ (GetAllBufferSize P s)]) % WORD := by
  rw [hP]
  exact sum_changed _ _ _ h

/-! ## Claims -/

/-- C1 (the code departs from the claim): the pops return the pushed values in
reverse order only while the byte that follows the buffer keeps its value from
call to call.  `CalculateHash` digests that byte, at offset
`GetAllBufferSize()`, although it belongs to the allocator or to a
neighbouring object.  When the rest of the program changes it between the
construction of a growable stack and the first call, to a value that the
string hash tells from the old one, the first `Push` throws
`HASH_NOT_THE_SAME` with every byte of the buffer intact: the pushes of a list
followed by as many pops do not run to their end, nor does any other sequence
of calls.  In a program that leaves the bytes of the buffer and the byte after
it alone between the calls, the claim holds: the pushes of a list followed by
as many pops return the list in reverse order and end with live-count `0`, and
in every sequence of calls in which no `Pop` finds the stack empty each `Pop`
returns the most recently pushed value that has not been popped yet. -/
theorem C1_foreign_byte_breaks_the_order_of_pops (P : Cfg) (this_ptr : Nat)
    (alloc : Nat → Mem) (env : Nat → Mem → Mem) (new_mem : Mem) (b B : Nat) (x : Elem P)
    (xs : List (Elem P)) (ops : List (Op P)) (outs st' : List (Elem P))
    (hthis : this_ptr ≠ 0)
    (hB : BUF_POS + B * P.sizeofT + CANARY_SIZE < WORD)
    (hdist : P.hashStr (load (SafeStack.construct P this_ptr new_mem).buf_
          (HASH_POS + HASH_SIZE)
          (GetAllBufferSize P (SafeStack.construct P this_ptr new_mem) - HASH_POS - HASH_SIZE)
          ++ [b]) % WORD
      ≠ P.hashStr (load (SafeStack.construct P this_ptr new_mem).buf_
          (HASH_POS + HASH_SIZE)
          (GetAllBufferSize P (SafeStack.construct P this_ptr new_mem) - HASH_POS - HASH_SIZE)
          ++ [(SafeStack.construct P this_ptr new_mem).buf_
            (GetAllBufferSize P (SafeStack.construct P this_ptr new_mem))]) % WORD)
    (hq : Quiet env (BUF_POS + B * P.sizeofT + CANARY_SIZE))
    (hxs : 2 * (x :: xs).length + DEFAULT_INITIAL_SIZE ≤ B)
    (hops : 2 * pushes ops + DEFAULT_INITIAL_SIZE ≤ B)
    (hl : lifo ops [] = some (outs, st')) :
    (Ok P (SafeStack.construct P this_ptr new_mem) = Verdict.pass ∧
      (∀ a, a < GetAllBufferSize P (SafeStack.construct P this_ptr new_mem) →
        (disturbed
            (writesOnce (GetAllBufferSize P (SafeStack.construct P this_ptr new_mem)) b) 0
            (SafeStack.construct P this_ptr new_mem)).buf_ a
          = (SafeStack.construct P this_ptr new_mem).buf_ a) ∧
      Push P (alloc 0) x
          (disturbed
            (writesOnce (GetAllBufferSize P (SafeStack.construct P this_ptr new_mem)) b) 0
            (SafeStack.construct P this_ptr new_mem))
        = Res.thrown Errc.HASH_NOT_THE_SAME
          (disturbed
            (writesOnce (GetAllBufferSize P (SafeStack.construct P this_ptr new_mem)) b) 0
            (SafeStack.construct P this_ptr new_mem)) ∧
      lifo ((x :: xs).map Op.push ++ List.replicate (x :: xs).length Op.pop) []
        = some ((x :: xs).reverse, []) ∧
      runWith P alloc
          (writesOnce (GetAllBufferSize P (SafeStack.construct P this_ptr new_mem)) b) 0
          ((x :: xs).map Op.push ++ List.replicate (x :: xs).length Op.pop)
          (SafeStack.construct P this_ptr new_mem) = none ∧
      (∀ (op : Op P) (rest : List (Op P)),
        runWith P alloc
          (writesOnce (GetAllBufferSize P (SafeStack.construct P this_ptr new_mem)) b) 0
          (op :: rest) (SafeStack.construct P this_ptr new_mem) = none)) ∧
    ((∃ s', runWith P alloc env 0
          ((x :: xs).map Op.push ++ List.replicate (x :: xs).length Op.pop)
          (SafeStack.construct P this_ptr new_mem) = some ((x :: xs).reverse, s') ∧
        GetCurSize s' = 0 ∧ Ok P s' = Verdict.pass) ∧
      (∃ s', runWith P alloc env 0 ops (SafeStack.construct P this_ptr new_mem)
          = some (outs, s') ∧
        contents P s' = st'.reverse ∧ GetCurSize s' = st'.length ∧
        Ok P s' = Verdict.pass)) := by
  have hfit0 : BUF_POS + DEFAULT_INITIAL_SIZE * P.sizeofT + CANARY_SIZE < WORD :=
    fits_mono (by omega) hB
  have h0 := SafeStack_construct_inv P this_ptr hthis hfit0 new_mem
  refine ⟨⟨h0.ok, ?_, (next_byte_throws h0 b hdist (alloc 0) x).1, lifo_push_pop (x :: xs),
    ?_, fun op rest => runWith_next_byte h0 b hdist alloc op rest⟩, ?_, ?_⟩
  · exact next_byte_outside _ _ b
  · exact runWith_next_byte h0 b hdist alloc (Op.push x) _
  · have hp : pushes ((x :: xs).map Op.push ++ List.replicate (x :: xs).length (Op.pop : Op P))
        = (x :: xs).length := by
      rw [pushes_append, pushes_map_push, pushes_replicate_pop, Nat.add_zero]
    obtain ⟨s', c', hrun, hinv, _, _⟩ :=
      runWith_fresh P this_ptr hthis alloc env new_mem B hB hq _ _ _ (by rw [hp]; exact hxs)
        (lifo_push_pop (x :: xs))
    exact ⟨s', hrun, hinv.cur, hinv.ok⟩
  · obtain ⟨s', c', hrun, hinv, _, _, hcs⟩ :=
      runWith_fresh P this_ptr hthis alloc env new_mem B hB hq ops outs st' hops hl
    exact ⟨s', hrun, hcs, hinv.cur, hinv.ok⟩

/-- C1, on `SafeStack<uint8_t>` in zeroed memory, whose buffer has 50 bytes:
once the byte at offset 50 has changed from `0` to `1`, `Push(1)` throws
`HASH_NOT_THE_SAME` and `Push(1); Push(2); Pop(); Pop()` does not run; in a
program that writes nothing in between it returns `2` and then `1`, and
`Push(3); Pop(); Push(4)` returns `3` and keeps `4`. -/
theorem C1_foreign_byte_breaks_the_order_of_pops_witness :
    (GetAllBufferSize cfgU8 (SafeStack.construct cfgU8 1 zeroMem) = 50 ∧
      (SafeStack.construct cfgU8 1 zeroMem).buf_ 50 = 0 ∧
      Quiet idle (BUF_POS + 14 * cfgU8.sizeofT + CANARY_SIZE) ∧
      lifo [Op.push (u8 3), Op.pop, Op.push (u8 4)] [] = some ([u8 3], [u8 4])) ∧
    (Push cfgU8 zeroMem (u8 1)
          (disturbed
            (writesOnce (GetAllBufferSize cfgU8 (SafeStack.construct cfgU8 1 zeroMem)) 1) 0
            (SafeStack.construct cfgU8 1 zeroMem))
        = Res.thrown Errc.HASH_NOT_THE_SAME
          (disturbed
            (writesOnce (GetAllBufferSize cfgU8 (SafeStack.construct cfgU8 1 zeroMem)) 1) 0
            (SafeStack.construct cfgU8 1 zeroMem)) ∧
      lifo ((u8 1 :: [u8 2]).map Op.push ++ List.replicate (u8 1 :: [u8 2]).length Op.pop) []
        = some ((u8 1 :: [u8 2]).reverse, []) ∧
      runWith cfgU8 (fun _ => zeroMem)
          (writesOnce (GetAllBufferSize cfgU8 (SafeStack.construct cfgU8 1 zeroMem)) 1) 0
          ((u8 1 :: [u8 2]).map Op.push ++ List.replicate (u8 1 :: [u8 2]).length Op.pop)
          (SafeStack.construct cfgU8 1 zeroMem) = none) ∧
    ((∃ s', runWith cfgU8 (fun _ => zeroMem) idle 0
          ((u8 1 :: [u8 2]).map Op.push ++ List.replicate (u8 1 :: [u8 2]).length Op.pop)
          (SafeStack.construct cfgU8 1 zeroMem) = some ((u8 1 :: [u8 2]).reverse, s') ∧
        GetCurSize s' = 0 ∧ Ok cfgU8 s' = Verdict.pass) ∧
      (∃ s', runWith cfgU8 (fun _ => zeroMem) idle 0
          [Op.push (u8 3), Op.pop, Op.push (u8 4)]
          (SafeStack.construct cfgU8 1 zeroMem) = some ([u8 3], s') ∧
        contents cfgU8 s' = [u8 4].reverse ∧ GetCurSize s' = [u8 4].length ∧
        Ok cfgU8 s' = Verdict.pass)) :=
  have h0 := SafeStack_construct_inv cfgU8 1 (by decide) (by decide) zeroMem
  have hall : GetAllBufferSize cfgU8 (SafeStack.construct cfgU8 1 zeroMem) = 50 := h0.all
  have hbyte : (SafeStack.construct cfgU8 1 zeroMem).buf_ 50 = 0 :=
    SafeStack_construct_beyond cfgU8 1 (by decide) (by decide) zeroMem 50 (by decide)
  have hdist : cfgU8.hashStr (load (SafeStack.construct cfgU8 1 zeroMem).buf_
        (HASH_POS + HASH_SIZE)
        (GetAllBufferSize cfgU8 (SafeStack.construct cfgU8 1 zeroMem) - HASH_POS - HASH_SIZE)
        ++ [1]) % WORD
      ≠ cfgU8.hashStr (load (SafeStack.construct cfgU8 1 zeroMem).buf_ (HASH_POS + HASH_SIZE)
        (GetAllBufferSize cfgU8 (SafeStack.construct cfgU8 1 zeroMem) - HASH_POS - HASH_SIZE)
        ++ [(SafeStack.construct cfgU8 1 zeroMem).buf_
          (GetAllBufferSize cfgU8 (SafeStack.construct cfgU8 1 zeroMem))]) % WORD := by
    rw [hall, hbyte]
    show List.sum _ % WORD ≠ List.sum _ % WORD
    simp only [List.sum_append, List.sum_cons, List.sum_nil, WORD_eq]
    omega
  have hq : Quiet idle (BUF_POS + 14 * cfgU8.sizeofT + CANARY_SIZE) :=
    fun _ _ _ _ => rfl
  have h := C1_foreign_byte_breaks_the_order_of_pops cfgU8 1 (fun _ => zeroMem)
    idle zeroMem 1 14 (u8 1) [u8 2] [Op.push (u8 3), Op.pop, Op.push (u8 4)]
    [u8 3] [u8 4] (by decide) (by decide) hdist hq (by decide) (by decide) rfl
  ⟨⟨hall, hbyte, hq, rfl⟩, ⟨h.1.2.2.1, h.1.2.2.2.1, h.1.2.2.2.2.1⟩, h.2⟩

/-- C2 (the code departs from the claim): the call sequence that consists of
one `Pop` on a freshly constructed stack, growable or fixed-capacity, leaves a
state on which `Ok()` fails.  The assertion `MASSERT(true, POP_ON_0_SIZE)` of
`Pop` never fires, the body runs on the empty stack, and the exit check of
`Pop` throws the error that `Ok()` reports on the state left behind. -/
theorem C2_verify_fails_after_pop_on_fresh_stack (P : Cfg) (this_ptr N : Nat)
    (new_mem after : Mem) (hthis : this_ptr ≠ 0) (hsz : P.sizeofT ≤ BUF_POS)
    (hfit : BUF_POS + N * P.sizeofT + CANARY_SIZE < WORD) :
    (∃ e s', Pop P (SafeStack.construct P this_ptr new_mem) = Res.thrown e s' ∧
        Ok P s' = Verdict.fail e) ∧
      (∃ e s', Pop P (SafeStackStatic.construct P N this_ptr after) = Res.thrown e s' ∧
        Ok P s' = Verdict.fail e) := by
  have hfit0 : BUF_POS + DEFAULT_INITIAL_SIZE * P.sizeofT + CANARY_SIZE < WORD := by
    simp only [BUF_POS_eq, DEFAULT_INITIAL_SIZE, CANARY_SIZE_eq, WORD_eq] at hsz ⊢
    omega
  constructor
  · obtain ⟨e, s', h1, h2, _⟩ :=
      Pop_empty_thrown (SafeStack_construct_inv P this_ptr hthis hfit0 new_mem) hsz
    exact ⟨e, s', h1, h2⟩
  · obtain ⟨e, s', h1, h2, _⟩ :=
      Pop_empty_thrown (SafeStackStatic_construct_inv P N this_ptr hthis hfit after) hsz
    exact ⟨e, s', h1, h2⟩

/-- C2, on `SafeStack<uint64_t>` and `SafeStackStatic<uint64_t, 1000>`. -/
theorem C2_verify_fails_after_pop_on_fresh_stack_witness :
    (1 ≠ 0 ∧ cfgU64.sizeofT ≤ BUF_POS ∧
      BUF_POS + 1000 * cfgU64.sizeofT + CANARY_SIZE < WORD) ∧
    ((∃ e s', Pop cfgU64 (SafeStack.construct cfgU64 1 zeroMem) = Res.thrown e s' ∧
        Ok cfgU64 s' = Verdict.fail e) ∧
      (∃ e s', Pop cfgU64 (SafeStackStatic.construct cfgU64 1000 1 zeroMem)
          = Res.thrown e s' ∧ Ok cfgU64 s' = Verdict.fail e)) :=
  ⟨⟨by decide, by decide, by decide⟩,
    C2_verify_fails_after_pop_on_fresh_stack cfgU64 1 1000 zeroMem zeroMem
      (by decide) (by decide) (by decide)⟩

/-- C3 (the code departs from the claim): on a consistent stack with live-count
`0`, `Pop` does not fail with `POP_ON_0_SIZE` and does not leave the state
unchanged: the error it throws comes from the exit check, after the live-count
was set to `2^64 - 1` and the last byte of the capacity field was poisoned.
The same holds for the second `Pop` of `Push(v); Pop(); Pop()` on a fresh
growable stack. -/
theorem C3_pop_on_empty_is_not_rejected (P : Cfg) (s : SafeStack) (v : Elem P)
    (this_ptr : Nat) (new_mem new_mem' : Mem)
    (hcons : Consistent P s) (h0 : GetCurSize s = 0) (hsz : P.sizeofT ≤ BUF_POS)
    (hthis : this_ptr ≠ 0) :
    (∃ e s', Pop P s = Res.thrown e s' ∧ e ≠ Errc.POP_ON_0_SIZE ∧
        GetCurSize s' = WORD - 1 ∧ s'.buf_ (BUF_SIZE_POS + 7) = POISON_VALUE) ∧
      (∃ s1 s2 e s3,
        Push P new_mem' v (SafeStack.construct P this_ptr new_mem) = Res.ok () s1 ∧
        Pop P s1 = Res.ok v s2 ∧ Pop P s2 = Res.thrown e s3 ∧
        e ≠ Errc.POP_ON_0_SIZE ∧ GetCurSize s3 = WORD - 1) := by
  constructor
  · have hinv := hcons.inv
    rw [h0] at hinv
    obtain ⟨e, s', h1, _, h3, h4, h5⟩ := Pop_empty_thrown hinv hsz
    exact ⟨e, s', h1, h3, h4, h5⟩
  · have hfit0 : BUF_POS + DEFAULT_INITIAL_SIZE * P.sizeofT + CANARY_SIZE < WORD := by
      simp only [BUF_POS_eq, DEFAULT_INITIAL_SIZE, CANARY_SIZE_eq, WORD_eq] at hsz ⊢
      omega
    have hf := SafeStack_construct_inv P this_ptr hthis hfit0 new_mem
    obtain ⟨hpush, _, hinv1⟩ := Push_ok_room hf (by decide) new_mem' v
    obtain ⟨_, hv⟩ := Push.place_frame hf (by decide) v
    obtain ⟨s2, hpop, _, hinv2⟩ := Pop_ok hinv1
    have hget : GetElement P (Push.place P v (SafeStack.construct P this_ptr new_mem)) 0 = v := by
      rw [GetElement_eq hinv1 (by decide)]
      exact hv
    rw [hget] at hpop
    obtain ⟨e, s3, h1, _, h3, h4, _⟩ := Pop_empty_thrown hinv2 hsz
    exact ⟨_, s2, e, s3, hpush, hpop, h1, h3, h4⟩

/-- C3, on a fresh `SafeStack<uint64_t>` and the value `5`. -/
theorem C3_pop_on_empty_is_not_rejected_witness :
    (Consistent cfgU64 (SafeStack.construct cfgU64 1 zeroMem) ∧
      GetCurSize (SafeStack.construct cfgU64 1 zeroMem) = 0 ∧
      cfgU64.sizeofT ≤ BUF_POS ∧ 1 ≠ 0) ∧
    ((∃ e s', Pop cfgU64 (SafeStack.construct cfgU64 1 zeroMem) = Res.thrown e s' ∧
        e ≠ Errc.POP_ON_0_SIZE ∧ GetCurSize s' = WORD - 1 ∧
        s'.buf_ (BUF_SIZE_POS + 7) = POISON_VALUE) ∧
      (∃ s1 s2 e s3,
        Push cfgU64 zeroMem (u64 5) (SafeStack.construct cfgU64 1 zeroMem) = Res.ok () s1 ∧
        Pop cfgU64 s1 = Res.ok (u64 5) s2 ∧ Pop cfgU64 s2 = Res.thrown e s3 ∧
        e ≠ Errc.POP_ON_0_SIZE ∧ GetCurSize s3 = WORD - 1)) :=
  ⟨⟨(SafeStack_construct_inv cfgU64 1 (by decide) (by decide)
        zeroMem).consistent,
      (SafeStack_construct_inv cfgU64 1 (by decide) (by decide)
        zeroMem).cur,
      by decide, by decide⟩,
    C3_pop_on_empty_is_not_rejected cfgU64 (SafeStack.construct cfgU64 1 zeroMem) (u64 5) 1
      zeroMem zeroMem
      (SafeStack_construct_inv cfgU64 1 (by decide) (by decide)
        zeroMem).consistent
      (SafeStack_construct_inv cfgU64 1 (by decide) (by decide)
        zeroMem).cur
      (by decide) (by decide)⟩

/-- C4 (the code departs from the claim): `Push` on a consistent stack with
live-count = capacity = `N` does not fail, for the fixed-capacity variant
either.  `SafeStack<T>::Push` calls the non-virtual
`SafeStack<T>::ReallocateDoubleSize`, so the push grows the buffer to capacity
`2 * N` and stores the element; the member of `SafeStackStatic` that was meant
to refuse is never called, and its `MASSERT(true, ...)` would not throw. -/
theorem C4_push_on_full_fixed_stack_grows (P : Cfg) (s : SafeStack) (N : Nat)
    (new_mem : Mem) (v : Elem P)
    (hcons : Consistent P s) (hcur : GetCurSize s = N) (hcap : GetBufSize s = N)
    (hN : 1 ≤ N) (hfit2 : BUF_POS + (2 * N) * P.sizeofT + CANARY_SIZE < WORD) :
    (∃ s', Push P new_mem v s = Res.ok () s' ∧ GetBufSize s' = 2 * N ∧
        GetCurSize s' = N + 1) ∧
      SafeStackStatic.ReallocateDoubleSize s = Res.ok () s := by
  have hinv := hcons.inv
  rw [hcur, hcap] at hinv
  obtain ⟨hpush, hinv'⟩ := Push_ok_grow hinv hN hfit2 new_mem v
  exact ⟨⟨_, hpush, hinv'.cap, hinv'.cur⟩, rfl⟩

/-- C4, on `SafeStackStatic<uint8_t, 1>`: after `Push(7)` the only slot is
taken, and `Push(9)` returns with capacity `2`. -/
theorem C4_push_on_full_fixed_stack_grows_witness :
    (Push cfgU8 zeroMem (u8 7) (SafeStackStatic.construct cfgU8 1 1 zeroMem)
        = Res.ok () fullFixedU8 ∧
      Consistent cfgU8 fullFixedU8 ∧ GetCurSize fullFixedU8 = 1 ∧
      GetBufSize fullFixedU8 = 1 ∧ 1 ≤ 1 ∧
      BUF_POS + (2 * 1) * cfgU8.sizeofT + CANARY_SIZE < WORD) ∧
    ((∃ s', Push cfgU8 zeroMem (u8 9) fullFixedU8 = Res.ok () s' ∧ GetBufSize s' = 2 * 1 ∧
        GetCurSize s' = 1 + 1) ∧
      SafeStackStatic.ReallocateDoubleSize fullFixedU8 = Res.ok () fullFixedU8) :=
  have hroom := Push_ok_room
    (SafeStackStatic_construct_inv cfgU8 1 1
      (by decide) (by decide) zeroMem) (by decide) zeroMem (u8 7)
  ⟨⟨hroom.1, hroom.2.2.consistent, hroom.2.2.cur, hroom.2.2.cap, by decide, by decide⟩,
    C4_push_on_full_fixed_stack_grows cfgU8 fullFixedU8 1 zeroMem (u8 9)
      hroom.2.2.consistent hroom.2.2.cur hroom.2.2.cap (by decide) (by decide)⟩

/-- C6: right after construction (growable or fixed-capacity), and after every
`Push` or `Pop` that returns on a consistent stack, a `Push` that grows the
buffer included, every payload slot `i` with live-count `≤ i <` capacity equals
the poison value, whose `sizeof(T)` bytes are all `POISON_VALUE`.  The buffers
are taken to fit in the address space. -/
theorem C6_unused_slots_are_poison (P : Cfg) (this_ptr N : Nat) (new_mem after : Mem)
    (s : SafeStack) (new_mem' : Mem) (v : Elem P)
    (hthis : this_ptr ≠ 0)
    (hfit0 : BUF_POS + DEFAULT_INITIAL_SIZE * P.sizeofT + CANARY_SIZE < WORD)
    (hfitN : BUF_POS + N * P.sizeofT + CANARY_SIZE < WORD)
    (hcons : Consistent P s)
    (hfit2 : BUF_POS + (2 * GetBufSize s) * P.sizeofT + CANARY_SIZE < WORD) :
    (GetPoisonValue P).val = List.replicate P.sizeofT POISON_VALUE ∧
      (GetCurSize (SafeStack.construct P this_ptr new_mem) = 0 ∧
        GetBufSize (SafeStack.construct P this_ptr new_mem) = DEFAULT_INITIAL_SIZE ∧
        ∀ i, i < DEFAULT_INITIAL_SIZE →
          GetElement P (SafeStack.construct P this_ptr new_mem) i = GetPoisonValue P) ∧
      (GetCurSize (SafeStackStatic.construct P N this_ptr after) = 0 ∧
        GetBufSize (SafeStackStatic.construct P N this_ptr after) = N ∧
        ∀ i, i < N →
          GetElement P (SafeStackStatic.construct P N this_ptr after) i = GetPoisonValue P) ∧
      (∀ s', Push P new_mem' v s = Res.ok () s' →
        ∀ i, GetCurSize s' ≤ i → i < GetBufSize s' → GetElement P s' i = GetPoisonValue P) ∧
      (∀ r s', Pop P s = Res.ok r s' →
        ∀ i, GetCurSize s' ≤ i → i < GetBufSize s' → GetElement P s' i = GetPoisonValue P) := by
  have h0 := SafeStack_construct_inv P this_ptr hthis hfit0 new_mem
  have hN := SafeStackStatic_construct_inv P N this_ptr hthis hfitN after
  refine ⟨rfl, ⟨h0.cur, h0.cap, fun i hi => ?_⟩, ⟨hN.cur, hN.cap, fun i hi => ?_⟩,
    fun s' hres => Push_tail_poison hcons hfit2 hres,
    fun r s' hres => Pop_tail_poison hcons hres⟩
  · exact h0.tail_poison i (by rw [h0.cur]; exact Nat.zero_le _) (by rw [h0.cap]; exact hi)
  · exact hN.tail_poison i (by rw [hN.cur]; exact Nat.zero_le _) (by rw [hN.cap]; exact hi)

/-- C6, on `uint8_t` stacks: fresh ones of capacity `10` and `3`, and the full
fixed-capacity stack of capacity `1`. -/
theorem C6_unused_slots_are_poison_witness :
    (1 ≠ 0 ∧ BUF_POS + DEFAULT_INITIAL_SIZE * cfgU8.sizeofT + CANARY_SIZE < WORD ∧
      BUF_POS + 3 * cfgU8.sizeofT + CANARY_SIZE < WORD ∧ Consistent cfgU8 fullFixedU8 ∧
      BUF_POS + (2 * GetBufSize fullFixedU8) * cfgU8.sizeofT + CANARY_SIZE < WORD) ∧
    ((GetPoisonValue cfgU8).val = List.replicate cfgU8.sizeofT POISON_VALUE ∧
      (GetCurSize (SafeStack.construct cfgU8 1 zeroMem) = 0 ∧
        GetBufSize (SafeStack.construct cfgU8 1 zeroMem) = DEFAULT_INITIAL_SIZE ∧
        ∀ i, i < DEFAULT_INITIAL_SIZE →
          GetElement cfgU8 (SafeStack.construct cfgU8 1 zeroMem) i = GetPoisonValue cfgU8) ∧
      (GetCurSize (SafeStackStatic.construct cfgU8 3 1 zeroMem) = 0 ∧
        GetBufSize (SafeStackStatic.construct cfgU8 3 1 zeroMem) = 3 ∧
        ∀ i, i < 3 →
          GetElement cfgU8 (SafeStackStatic.construct cfgU8 3 1 zeroMem) i
            = GetPoisonValue cfgU8) ∧
      (∀ s', Push cfgU8 zeroMem (u8 9) fullFixedU8 = Res.ok () s' →
        ∀ i, GetCurSize s' ≤ i → i < GetBufSize s' →
          GetElement cfgU8 s' i = GetPoisonValue cfgU8) ∧
      (∀ r s', Pop cfgU8 fullFixedU8 = Res.ok r s' →
        ∀ i, GetCurSize s' ≤ i → i < GetBufSize s' →
          GetElement cfgU8 s' i = GetPoisonValue cfgU8)) :=
  have hroom := Push_ok_room
    (SafeStackStatic_construct_inv cfgU8 1 1 (by decide) (by decide) zeroMem)
    (by decide) zeroMem (u8 7)
  have hfit2 : BUF_POS + (2 * GetBufSize fullFixedU8) * cfgU8.sizeofT + CANARY_SIZE < WORD := by
    have hcap : GetBufSize fullFixedU8 = 1 := hroom.2.2.cap
    rw [hcap]
    decide
  ⟨⟨by decide, by decide, by decide, hroom.2.2.consistent, hfit2⟩,
    C6_unused_slots_are_poison cfgU8 1 3 zeroMem zeroMem fullFixedU8 zeroMem (u8 9)
      (by decide) (by decide) (by decide) hroom.2.2.consistent hfit2⟩

/-- C7: when `Ok()` fails with error `e` on a buffer state, `Push` and `Pop`
throw that same `e` from their entry check and the state after the call is the
state before it, byte for byte.  In particular, once the bytes of the leading
sentinel of a consistent stack are set to zero, `Push` (and `Pop`) throw
`CORRUPTED_FIRST_CANARY`, and live-count, capacity and payload are those of the
stack before the tampering. -/
theorem C7_failed_entry_check_aborts (P : Cfg) (s : SafeStack) (e : Errc) (new_mem : Mem)
    (v : Elem P) (s0 : SafeStack)
    (hfail : Ok P s = Verdict.fail e) (hcons0 : Consistent P s0) :
    (Push P new_mem v s = Res.thrown e s ∧ Pop P s = Res.thrown e s) ∧
      (Push P new_mem v (s0.write 0 (List.replicate CANARY_SIZE 0))
          = Res.thrown Errc.CORRUPTED_FIRST_CANARY (s0.write 0 (List.replicate CANARY_SIZE 0)) ∧
        Pop P (s0.write 0 (List.replicate CANARY_SIZE 0))
          = Res.thrown Errc.CORRUPTED_FIRST_CANARY (s0.write 0 (List.replicate CANARY_SIZE 0)) ∧
        GetCurSize (s0.write 0 (List.replicate CANARY_SIZE 0)) = GetCurSize s0 ∧
        GetBufSize (s0.write 0 (List.replicate CANARY_SIZE 0)) = GetBufSize s0 ∧
        ∀ a, CANARY_SIZE ≤ a →
          (s0.write 0 (List.replicate CANARY_SIZE 0)).buf_ a = s0.buf_ a) := by
  have hz := Ok_zeroed_first_canary P s0 hcons0.inv.this_ne
  refine ⟨⟨?_, ?_⟩, ?_, ?_, ?_, ?_, ?_⟩
  · simp only [Push, VERIFIED, hfail]
  · simp only [Pop, VERIFIED, hfail]
  · simp only [Push, VERIFIED, hz]
  · simp only [Pop, VERIFIED, hz]
  · exact load64_fill_other (Or.inr (by decide))
  · exact load64_fill_other (Or.inr (by decide))
  · intro a ha
    exact fill_outside (Or.inr (by omega))

/-- C7, on a fresh `SafeStack<uint64_t>` whose leading sentinel was zeroed, as
in the test `intrusion`. -/
theorem C7_failed_entry_check_aborts_witness :
    (Ok cfgU64 zeroedU64 = Verdict.fail Errc.CORRUPTED_FIRST_CANARY ∧
      Consistent cfgU64 (SafeStack.construct cfgU64 1 zeroMem)) ∧
    ((Push cfgU64 zeroMem (u64 0) zeroedU64
          = Res.thrown Errc.CORRUPTED_FIRST_CANARY zeroedU64 ∧
        Pop cfgU64 zeroedU64 = Res.thrown Errc.CORRUPTED_FIRST_CANARY zeroedU64) ∧
      (Push cfgU64 zeroMem (u64 0) zeroedU64
          = Res.thrown Errc.CORRUPTED_FIRST_CANARY zeroedU64 ∧
        Pop cfgU64 zeroedU64 = Res.thrown Errc.CORRUPTED_FIRST_CANARY zeroedU64 ∧
        GetCurSize zeroedU64 = GetCurSize (SafeStack.construct cfgU64 1 zeroMem) ∧
        GetBufSize zeroedU64 = GetBufSize (SafeStack.construct cfgU64 1 zeroMem) ∧
        ∀ a, CANARY_SIZE ≤ a →
          zeroedU64.buf_ a = (SafeStack.construct cfgU64 1 zeroMem).buf_ a)) :=
  have hc := (SafeStack_construct_inv cfgU64 1 (by decide) (by decide) zeroMem).consistent
  have hz : Ok cfgU64 zeroedU64 = Verdict.fail Errc.CORRUPTED_FIRST_CANARY :=
    Ok_zeroed_first_canary cfgU64 (SafeStack.construct cfgU64 1 zeroMem) hc.inv.this_ne
  ⟨⟨hz, hc⟩,
    C7_failed_entry_check_aborts cfgU64 zeroedU64 Errc.CORRUPTED_FIRST_CANARY zeroMem (u64 0)
      (SafeStack.construct cfgU64 1 zeroMem) hz hc⟩

/-- C9 (the code departs from the claim): a `Push` and the `Pop` that follows
it restore the stack only while the byte that follows the buffer keeps its
value between the two calls.  On a consistent stack that can accept a push,
`Push(v)` returns and raises the live-count by exactly one; when the byte at
offset `GetAllBufferSize()`, which is not the stack's and which
`CalculateHash` digests, then changes to a value that the string hash tells
from the old one, the `Pop` that follows throws `HASH_NOT_THE_SAME` on its
entry check and does not return `v`.  When the bytes of the buffer and the
byte after it are as the `Push` left them, the `Pop` returns `v` and restores
the live-count and every element that was live before the push; and in the
loop `Push(w); Pop(); Push(w)` run on a fresh growable stack in a program that
leaves those bytes alone, after the iterations for the values `pre` the first
`Push` of the next iteration leaves live-count `|pre| + 1`, and its `Pop`
returns the value `w` just pushed. -/
theorem C9_foreign_byte_breaks_push_then_pop (P : Cfg) (s : SafeStack) (v : Elem P)
    (new_mem : Mem) (this_ptr : Nat) (new_mem0 : Mem) (alloc : Nat → Mem)
    (env : Nat → Mem → Mem) (B : Nat) (pre : List (Elem P)) (w : Elem P)
    (hcons : Consistent P s) (hacc : Accepts P s) (hthis : this_ptr ≠ 0)
    (hB : BUF_POS + B * P.sizeofT + CANARY_SIZE < WORD)
    (hq : Quiet env (BUF_POS + B * P.sizeofT + CANARY_SIZE))
    (hpre : 4 * pre.length + 12 ≤ B) :
    (∃ s1, Push P new_mem v s = Res.ok () s1 ∧ GetCurSize s1 = GetCurSize s + 1 ∧
        Ok P s1 = Verdict.pass ∧
        (∀ b,
          P.hashStr (load s1.buf_ (HASH_POS + HASH_SIZE)
                (GetAllBufferSize P s1 - HASH_POS - HASH_SIZE) ++ [b]) % WORD
            ≠ P.hashStr (load s1.buf_ (HASH_POS + HASH_SIZE)
                (GetAllBufferSize P s1 - HASH_POS - HASH_SIZE)
              ++ [s1.buf_ (GetAllBufferSize P s1)]) % WORD →
          (∀ a, a < GetAllBufferSize P s1 →
            (s1.write (GetAllBufferSize P s1) [b]).buf_ a = s1.buf_ a) ∧
          Pop P (s1.write (GetAllBufferSize P s1) [b])
            = Res.thrown Errc.HASH_NOT_THE_SAME (s1.write (GetAllBufferSize P s1) [b])) ∧
        (∀ t : SafeStack, t.this_ptr = s1.this_ptr →
          (∀ a, a ≤ GetAllBufferSize P s1 → t.buf_ a = s1.buf_ a) →
          ∃ s2, Pop P t = Res.ok v s2 ∧ GetCurSize s2 = GetCurSize s ∧
            contents P s2 = contents P s)) ∧
      (∃ s1 s2, runWith P alloc env 0 (stressLoop pre ++ [Op.push w])
          (SafeStack.construct P this_ptr new_mem0) = some (pre, s1) ∧
        GetCurSize s1 = pre.length + 1 ∧
        Pop P (disturbed env (3 * pre.length + 1) s1) = Res.ok w s2 ∧
        GetCurSize s2 = pre.length) := by
  constructor
  · obtain ⟨s1, c', hpush, hinv1, hpop⟩ := Push_then_Pop hcons hacc new_mem v
    refine ⟨s1, hpush, hinv1.cur, hinv1.ok, ?_, ?_⟩
    · intro b hdist
      exact ⟨next_byte_outside _ _ b, (next_byte_throws hinv1 b hdist new_mem v).2⟩
    · intro t hthis' hm
      obtain ⟨s2, h1, h2, h3⟩ := hpop t hthis' hm
      exact ⟨s2, h1, h2.cur, h3⟩
  · have hp : pushes (stressLoop pre ++ [Op.push w]) = 2 * pre.length + 1 := by
      rw [pushes_append, pushes_stressLoop]
      rfl
    have hl : lifo (stressLoop pre ++ [Op.push w]) [] = some (pre, w :: pre.reverse) := by
      rw [lifo_stressLoop]
      simp [lifo]
    obtain ⟨s1, c', hrun, hinv1, _, hcB, hcs⟩ :=
      runWith_fresh P this_ptr hthis alloc env new_mem0 B hB hq _ _ _
        (by rw [hp]; simp only [DEFAULT_INITIAL_SIZE]; omega) hl
    have hinv1' : Inv P s1 (pre.length + 1) c' := by
      have := hinv1
      simp only [List.length_cons, List.length_reverse] at this
      exact this
    have hcs' : contents P s1 = pre ++ [w] := by
      rw [hcs, List.reverse_cons, List.reverse_reverse]
    obtain ⟨hinvd, hcd⟩ := hinv1'.quiet hcB hq (3 * pre.length + 1)
    rw [hcs'] at hcd
    have hv := contents_last hinvd hcd
    obtain ⟨s2, hpop, _, hinv2⟩ := Pop_ok hinvd
    rw [hv] at hpop
    exact ⟨s1, s2, hrun, hinv1'.cur, hpop, hinv2.cur⟩

/-- C9, on a fresh `SafeStack<uint64_t>` in zeroed memory: after `Push(7)` the
byte that follows the buffer changes by one and `Pop()` throws
`HASH_NOT_THE_SAME`; with everything as `Push(7)` left it, `Pop()` returns `7`;
and the third iteration of the loop of the test `stress_1` in a program that
writes nothing in between. -/
theorem C9_foreign_byte_breaks_push_then_pop_witness :
    (Consistent cfgU64 (SafeStack.construct cfgU64 1 zeroMem) ∧
      Accepts cfgU64 (SafeStack.construct cfgU64 1 zeroMem) ∧
      Quiet idle (BUF_POS + 20 * cfgU64.sizeofT + CANARY_SIZE) ∧
      4 * [u64 0, u64 1].length + 12 ≤ 20) ∧
    (∃ s1, Push cfgU64 zeroMem (u64 7) (SafeStack.construct cfgU64 1 zeroMem) = Res.ok () s1 ∧
      GetCurSize s1 = GetCurSize (SafeStack.construct cfgU64 1 zeroMem) + 1 ∧
      Pop cfgU64 (s1.write (GetAllBufferSize cfgU64 s1)
          [s1.buf_ (GetAllBufferSize cfgU64 s1) + 1])
        = Res.thrown Errc.HASH_NOT_THE_SAME
          (s1.write (GetAllBufferSize cfgU64 s1) [s1.buf_ (GetAllBufferSize cfgU64 s1) + 1]) ∧
      ∃ s2, Pop cfgU64 s1 = Res.ok (u64 7) s2 ∧
        GetCurSize s2 = GetCurSize (SafeStack.construct cfgU64 1 zeroMem) ∧
        contents cfgU64 s2 = contents cfgU64 (SafeStack.construct cfgU64 1 zeroMem)) ∧
    (∃ s1 s2, runWith cfgU64 (fun _ => zeroMem) idle 0
        (stressLoop [u64 0, u64 1] ++ [Op.push (u64 2)])
        (SafeStack.construct cfgU64 1 zeroMem) = some ([u64 0, u64 1], s1) ∧
      GetCurSize s1 = [u64 0, u64 1].length + 1 ∧
      Pop cfgU64 (disturbed idle (3 * [u64 0, u64 1].length + 1) s1)
        = Res.ok (u64 2) s2 ∧
      GetCurSize s2 = [u64 0, u64 1].length) :=
  have h0 := SafeStack_construct_inv cfgU64 1 (by decide) (by decide) zeroMem
  have hacc : Accepts cfgU64 (SafeStack.construct cfgU64 1 zeroMem) :=
    Or.inl (by rw [h0.cur, h0.cap]; decide)
  have hq : Quiet idle (BUF_POS + 20 * cfgU64.sizeofT + CANARY_SIZE) :=
    fun _ _ _ _ => rfl
  have h := C9_foreign_byte_breaks_push_then_pop cfgU64 (SafeStack.construct cfgU64 1 zeroMem)
    (u64 7) zeroMem 1 zeroMem (fun _ => zeroMem) idle 20 [u64 0, u64 1] (u64 2)
    h0.consistent hacc (by decide) (by decide) hq (by decide)
  ⟨⟨h0.consistent, hacc, hq, by decide⟩,
    h.1.imp (fun s1 h1 =>
      ⟨h1.1, h1.2.1,
        (h1.2.2.2.1 (s1.buf_ (GetAllBufferSize cfgU64 s1) + 1) (sum_next_byte _ _)).2,
        h1.2.2.2.2 s1 rfl (fun _ _ => rfl)⟩),
    h.2⟩

/-- C11 (the code departs from the claim): on a consistent stack whose buffer
has `S = GetAllBufferSize()` bytes, the second view that `CalculateHash` hashes
starts at `HASH_POS + HASH_SIZE` and has `S - HASH_SIZE - HASH_POS + 1` bytes:
the bytes at offsets `[HASH_POS + HASH_SIZE, S)` and then the byte at offset
`S`, the first one after the buffer.  So the checksum depends on a byte that
is not part of the buffer: when that byte is replaced by a byte `b` that the
string hash tells apart, every byte of the buffer is as before and `Ok()`,
which passed, raises `HASH_NOT_THE_SAME`. -/
theorem C11_checksum_reads_one_byte_past_the_buffer (P : Cfg) (s : SafeStack) (b : Nat)
    (hcons : Consistent P s)
    (hdist : P.hashStr (load s.buf_ (HASH_POS + HASH_SIZE)
          (GetAllBufferSize P s - HASH_POS - HASH_SIZE) ++ [b]) % WORD
      ≠ P.hashStr (load s.buf_ (HASH_POS + HASH_SIZE)
          (GetAllBufferSize P s - HASH_POS - HASH_SIZE)
        ++ [s.buf_ (GetAllBufferSize P s)]) % WORD) :
    load s.buf_ (HASH_POS + HASH_SIZE)
        ((GetAllBufferSize P s + WORD - HASH_SIZE - HASH_POS + 1) % WORD)
      = load s.buf_ (HASH_POS + HASH_SIZE) (GetAllBufferSize P s - HASH_POS - HASH_SIZE)
        ++ [s.buf_ (GetAllBufferSize P s)] ∧
    CalculateHash_0 P s
      = (P.hashSizeT s.this_ptr + P.hashStr (load s.buf_ 0 HASH_POS)
          + P.hashStr (load s.buf_ (HASH_POS + HASH_SIZE)
              (GetAllBufferSize P s - HASH_POS - HASH_SIZE)
            ++ [s.buf_ (GetAllBufferSize P s)])) % WORD ∧
    (∀ a, a < GetAllBufferSize P s →
      (s.write (GetAllBufferSize P s) [b]).buf_ a = s.buf_ a) ∧
    Ok P s = Verdict.pass ∧
    Ok P (s.write (GetAllBufferSize P s) [b]) = Verdict.fail Errc.HASH_NOT_THE_SAME := by
  have h16 : HASH_POS + HASH_SIZE ≤ GetAllBufferSize P s := by
    rw [all_of_fits hcons.2]
    simp only [HASH_POS_eq, HASH_SIZE_eq, BUF_POS_eq]
    omega
  exact ⟨hash_view s.buf_ _ h16 (GetAllBufferSize_lt P s), CalculateHash_0_view hcons.2,
    fun a ha => store_outside (Or.inl ha), hcons.1, Ok_next_byte hcons.inv b hdist⟩

/-- C11, on a fresh `SafeStack<uint8_t>` in zeroed memory, whose buffer has 50
bytes: the byte at offset 50 is set to `1`. -/
theorem C11_checksum_reads_one_byte_past_the_buffer_witness :
    (Consistent cfgU8 (SafeStack.construct cfgU8 1 zeroMem) ∧
      GetAllBufferSize cfgU8 (SafeStack.construct cfgU8 1 zeroMem) = 50 ∧
      (SafeStack.construct cfgU8 1 zeroMem).buf_ 50 = 0) ∧
    ((∀ a, a < GetAllBufferSize cfgU8 (SafeStack.construct cfgU8 1 zeroMem) →
        ((SafeStack.construct cfgU8 1 zeroMem).write
          (GetAllBufferSize cfgU8 (SafeStack.construct cfgU8 1 zeroMem)) [1]).buf_ a
          = (SafeStack.construct cfgU8 1 zeroMem).buf_ a) ∧
      Ok cfgU8 (SafeStack.construct cfgU8 1 zeroMem) = Verdict.pass ∧
      Ok cfgU8 ((SafeStack.construct cfgU8 1 zeroMem).write
          (GetAllBufferSize cfgU8 (SafeStack.construct cfgU8 1 zeroMem)) [1])
        = Verdict.fail Errc.HASH_NOT_THE_SAME) :=
  have h0 := SafeStack_construct_inv cfgU8 1 (by decide) (by decide) zeroMem
  have hall : GetAllBufferSize cfgU8 (SafeStack.construct cfgU8 1 zeroMem) = 50 := h0.all
  have hbyte : (SafeStack.construct cfgU8 1 zeroMem).buf_ 50 = 0 :=
    SafeStack_construct_beyond cfgU8 1 (by decide) (by decide) zeroMem 50 (by decide)
  have hdist : cfgU8.hashStr (load (SafeStack.construct cfgU8 1 zeroMem).buf_
        (HASH_POS + HASH_SIZE)
        (GetAllBufferSize cfgU8 (SafeStack.construct cfgU8 1 zeroMem) - HASH_POS - HASH_SIZE)
        ++ [1]) % WORD
      ≠ cfgU8.hashStr (load (SafeStack.construct cfgU8 1 zeroMem).buf_ (HASH_POS + HASH_SIZE)
        (GetAllBufferSize cfgU8 (SafeStack.construct cfgU8 1 zeroMem) - HASH_POS - HASH_SIZE)
        ++ [(SafeStack.construct cfgU8 1 zeroMem).buf_
          (GetAllBufferSize cfgU8 (SafeStack.construct cfgU8 1 zeroMem))]) % WORD := by
    rw [hall, hbyte]
    show List.sum _ % WORD ≠ List.sum _ % WORD
    simp only [List.sum_append, List.sum_cons, List.sum_nil, WORD_eq]
    omega
  ⟨⟨h0.consistent, hall, hbyte⟩,
    (C11_checksum_reads_one_byte_past_the_buffer cfgU8 (SafeStack.construct cfgU8 1 zeroMem) 1
      h0.consistent hdist).2.2⟩

/-- C12: the recomputed checksum does not depend on the checksum field.  For
two buffers `s1`, `s2` of the same instance that agree on every byte outside
`[HASH_POS, HASH_POS + HASH_SIZE)`, `CalculateHash` returns the same value, for
every size argument and for `CalculateHash()`.  Hence when only the checksum
field of a consistent stack `t` is overwritten, with a different stored value,
`Ok()` raises `HASH_NOT_THE_SAME`. -/
theorem C12_checksum_ignores_its_own_field (P : Cfg) (s1 s2 t t' : SafeStack)
    (hsame : agree s1 s2) (hcons : Consistent P t) (hag : agree t' t)
    (hne : GetHashValue t' ≠ GetHashValue t) :
    (∀ S, CalculateHash P S s1 = CalculateHash P S s2) ∧
      CalculateHash_0 P s1 = CalculateHash_0 P s2 ∧
      CalculateHash_0 P t' = CalculateHash_0 P t ∧
      Ok P t' = Verdict.fail Errc.HASH_NOT_THE_SAME :=
  ⟨fun S => agree_hash P S hsame, agree_hash_0 P hsame, agree_hash_0 P hag,
    Ok_changed_hash hcons.inv hag hne⟩

/-- C12, on a fresh `SafeStack<uint8_t>` whose stored checksum `h` is
overwritten with `h + 1`. -/
theorem C12_checksum_ignores_its_own_field_witness :
    (agree
        ((SafeStack.construct cfgU8 1 zeroMem).write HASH_POS
          (bytes64 (GetHashValue (SafeStack.construct cfgU8 1 zeroMem) + 1)))
        (SafeStack.construct cfgU8 1 zeroMem) ∧
      Consistent cfgU8 (SafeStack.construct cfgU8 1 zeroMem) ∧
      GetHashValue ((SafeStack.construct cfgU8 1 zeroMem).write HASH_POS
          (bytes64 (GetHashValue (SafeStack.construct cfgU8 1 zeroMem) + 1)))
        ≠ GetHashValue (SafeStack.construct cfgU8 1 zeroMem)) ∧
    ((∀ S, CalculateHash cfgU8 S
          ((SafeStack.construct cfgU8 1 zeroMem).write HASH_POS
            (bytes64 (GetHashValue (SafeStack.construct cfgU8 1 zeroMem) + 1)))
        = CalculateHash cfgU8 S (SafeStack.construct cfgU8 1 zeroMem)) ∧
      CalculateHash_0 cfgU8
          ((SafeStack.construct cfgU8 1 zeroMem).write HASH_POS
            (bytes64 (GetHashValue (SafeStack.construct cfgU8 1 zeroMem) + 1)))
        = CalculateHash_0 cfgU8 (SafeStack.construct cfgU8 1 zeroMem) ∧
      CalculateHash_0 cfgU8
          ((SafeStack.construct cfgU8 1 zeroMem).write HASH_POS
            (bytes64 (GetHashValue (SafeStack.construct cfgU8 1 zeroMem) + 1)))
        = CalculateHash_0 cfgU8 (SafeStack.construct cfgU8 1 zeroMem) ∧
      Ok cfgU8 ((SafeStack.construct cfgU8 1 zeroMem).write HASH_POS
          (bytes64 (GetHashValue (SafeStack.construct cfgU8 1 zeroMem) + 1)))
        = Verdict.fail Errc.HASH_NOT_THE_SAME) :=
  have h0 := SafeStack_construct_inv cfgU8 1 (by decide) (by decide) zeroMem
  have hag := agree_write_hash (SafeStack.construct cfgU8 1 zeroMem)
    (GetHashValue (SafeStack.construct cfgU8 1 zeroMem) + 1)
  have hne : GetHashValue ((SafeStack.construct cfgU8 1 zeroMem).write HASH_POS
        (bytes64 (GetHashValue (SafeStack.construct cfgU8 1 zeroMem) + 1)))
      ≠ GetHashValue (SafeStack.construct cfgU8 1 zeroMem) := by
    rw [GetHashValue_write]
    have := GetHashValue_lt (SafeStack.construct cfgU8 1 zeroMem)
    simp only [WORD_eq] at this ⊢
    omega
  ⟨⟨hag, h0.consistent, hne⟩,
    C12_checksum_ignores_its_own_field cfgU8 _ _ (SafeStack.construct cfgU8 1 zeroMem) _
      hag h0.consistent hag hne⟩

/-- C13: the fields of the buffer follow one another without gap or overlap:
leading sentinel at offset `0` (8 bytes), checksum at `HASH_POS = 8` (8 bytes),
live-count at `CUR_SIZE_POS = 16`, capacity at `BUF_SIZE_POS = 16 + sizeof(size_t)`,
payload at `BUF_POS = 16 + 2 * sizeof(size_t)` with slot `i` at
`BUF_POS + i * sizeof(T)`, trailing sentinel at `BUF_POS + capacity * sizeof(T)`
(8 bytes).  Each accessor reads its field at that offset, `GetAllBufferSize()`
is `BUF_POS + capacity * sizeof(T) + CANARY_SIZE` (in `size_t` arithmetic for
every stored capacity, and as a number when the buffer fits in the address
space), and `GetSecondCanary` reads the last 8 bytes. -/
theorem C13_buffer_layout (P : Cfg) (s : SafeStack) (i : Nat)
    (hfit : BUF_POS + GetBufSize s * P.sizeofT + CANARY_SIZE < WORD)
    (hi : i < GetBufSize s) :
    (CANARY_SIZE = 8 ∧ HASH_POS = 8 ∧ HASH_SIZE = 8 ∧ CUR_SIZE_POS = 16 ∧
      CUR_SIZE_SIZE = SIZEOF_SIZE_T ∧ BUF_SIZE_POS = 16 + SIZEOF_SIZE_T ∧
      BUF_SIZE_SIZE = SIZEOF_SIZE_T ∧ BUF_POS = 16 + 2 * SIZEOF_SIZE_T) ∧
    (0 + CANARY_SIZE = HASH_POS ∧ HASH_POS + HASH_SIZE = CUR_SIZE_POS ∧
      CUR_SIZE_POS + CUR_SIZE_SIZE = BUF_SIZE_POS ∧
      BUF_SIZE_POS + BUF_SIZE_SIZE = BUF_POS ∧
      BUF_POS + i * P.sizeofT + P.sizeofT = BUF_POS + (i + 1) * P.sizeofT ∧
      BUF_POS + (i + 1) * P.sizeofT ≤ BUF_POS + GetBufSize s * P.sizeofT ∧
      BUF_POS + GetBufSize s * P.sizeofT + CANARY_SIZE = GetAllBufferSize P s) ∧
    (GetFirstCanary s = load64 s.buf_ 0 ∧ GetHashValue s = load64 s.buf_ HASH_POS ∧
      GetCurSize s = load64 s.buf_ CUR_SIZE_POS ∧ GetBufSize s = load64 s.buf_ BUF_SIZE_POS ∧
      GetElement P s i = slotAt P s (BUF_POS + i * P.sizeofT) ∧
      (slotAt P s (BUF_POS + i * P.sizeofT)).val
        = load s.buf_ (BUF_POS + i * P.sizeofT) P.sizeofT ∧
      GetSecondCanary P s = load64 s.buf_ (BUF_POS + GetBufSize s * P.sizeofT) ∧
      GetSecondCanary P s = load64 s.buf_ (GetAllBufferSize P s - CANARY_SIZE)) ∧
    (∀ t : SafeStack,
      GetAllBufferSize P t = (BUF_POS + GetBufSize t * P.sizeofT + CANARY_SIZE) % WORD) := by
  have hall := all_of_fits hfit
  have hs : (i + 1) * P.sizeofT = i * P.sizeofT + P.sizeofT := Nat.succ_mul _ _
  refine ⟨⟨rfl, rfl, rfl, rfl, rfl, rfl, rfl, rfl⟩,
    ⟨rfl, rfl, rfl, rfl, by omega, ?_, hall.symm⟩,
    ⟨rfl, rfl, rfl, rfl, GetElement_of_fits hfit (by omega), rfl, ?_,
      GetSecondCanary_eq (by rw [hall]; exact Nat.le_add_left _ _)⟩, ?_⟩
  · have := slot_lt (P := P) hi
    omega
  · rw [GetSecondCanary_eq (by rw [hall]; exact Nat.le_add_left _ _), hall,
      Nat.add_sub_cancel]
  · intro t
    unfold GetAllBufferSize
    congr 1
    simp only [CANARY_SIZE_eq, HASH_SIZE_eq, CUR_SIZE_SIZE_eq, BUF_SIZE_SIZE_eq, BUF_POS_eq]
    omega

/-- C13, on a fresh `SafeStack<uint64_t>` and its slot `3`. -/
theorem C13_buffer_layout_witness :
    (BUF_POS + GetBufSize (SafeStack.construct cfgU64 1 zeroMem) * cfgU64.sizeofT
        + CANARY_SIZE < WORD ∧
      3 < GetBufSize (SafeStack.construct cfgU64 1 zeroMem)) ∧
    (GetElement cfgU64 (SafeStack.construct cfgU64 1 zeroMem) 3
        = slotAt cfgU64 (SafeStack.construct cfgU64 1 zeroMem) (BUF_POS + 3 * cfgU64.sizeofT) ∧
      BUF_POS + GetBufSize (SafeStack.construct cfgU64 1 zeroMem) * cfgU64.sizeofT
        + CANARY_SIZE = GetAllBufferSize cfgU64 (SafeStack.construct cfgU64 1 zeroMem) ∧
      GetSecondCanary cfgU64 (SafeStack.construct cfgU64 1 zeroMem)
        = load64 (SafeStack.construct cfgU64 1 zeroMem).buf_
          (BUF_POS + GetBufSize (SafeStack.construct cfgU64 1 zeroMem) * cfgU64.sizeofT)) :=
  have h0 := SafeStack_construct_inv cfgU64 1 (by decide) (by decide) zeroMem
  have hi : 3 < GetBufSize (SafeStack.construct cfgU64 1 zeroMem) := by
    rw [h0.cap]; decide
  have h := C13_buffer_layout cfgU64 (SafeStack.construct cfgU64 1 zeroMem) 3
    h0.consistent.2 hi
  ⟨⟨h0.consistent.2, hi⟩, h.2.2.1.2.2.2.2.1, h.2.1.2.2.2.2.2.2, h.2.2.1.2.2.2.2.2.2.1⟩


/-- C14 (the code departs from the claim): a fixed-capacity stack carries the
sequences of calls that fit in its capacity only while the byte that follows
`buf_static_` keeps its value from call to call.  The array `buf_static_` has
exactly `GetAllBufferSize()` bytes, and `CalculateHash` digests one byte more:
the first byte of whatever the program keeps next to the stack.  When that
byte changes between the construction and the first call, to a value that the
string hash tells from the old one, the first `Push` throws
`HASH_NOT_THE_SAME` with every byte of the buffer intact, and no sequence of
calls runs to its end, the loop `Push(i); Pop(); Push(i)` included.  In a
program that leaves the bytes of the buffer and the byte after it alone
between the calls, the claim holds for every sequence of calls that the
bounded reference `lifoBounded N` accepts: the sequence completes, each `Pop`
returning the most recently pushed unpopped value; after every prefix of it
the capacity is `N`, the live-count is the number of pushes minus the number
of pops, and `Ok()` passes; and in the loop, after `loopPre.length < N`
iterations the next `Push` leaves the live-count at the iteration number plus
one and the `Pop` that follows returns the value just pushed. -/
theorem C14_neighbour_byte_stops_the_fixed_stack (P : Cfg) (N this_ptr b : Nat)
    (after : Mem) (alloc : Nat → Mem) (env : Nat → Mem → Mem) (x : Elem P)
    (pre suf : List (Op P)) (outs st' loopPre : List (Elem P)) (w : Elem P)
    (hthis : this_ptr ≠ 0)
    (hfit : BUF_POS + N * P.sizeofT + CANARY_SIZE < WORD)
    (hdist : P.hashStr (load (SafeStackStatic.construct P N this_ptr after).buf_
          (HASH_POS + HASH_SIZE)
          (GetAllBufferSize P (SafeStackStatic.construct P N this_ptr after)
            - HASH_POS - HASH_SIZE)
          ++ [b]) % WORD
      ≠ P.hashStr (load (SafeStackStatic.construct P N this_ptr after).buf_
          (HASH_POS + HASH_SIZE)
          (GetAllBufferSize P (SafeStackStatic.construct P N this_ptr after)
            - HASH_POS - HASH_SIZE)
          ++ [(SafeStackStatic.construct P N this_ptr after).buf_
            (GetAllBufferSize P (SafeStackStatic.construct P N this_ptr after))]) % WORD)
    (hq : Quiet env (BUF_POS + N * P.sizeofT + CANARY_SIZE))
    (hseq : lifoBounded N (pre ++ suf) [] = some (outs, st'))
    (hloop : loopPre.length < N) :
    (Ok P (SafeStackStatic.construct P N this_ptr after) = Verdict.pass ∧
      GetAllBufferSize P (SafeStackStatic.construct P N this_ptr after)
        = SafeStackStatic.construct.all_size P N ∧
      (SafeStackStatic.construct P N this_ptr after).buf_
          (GetAllBufferSize P (SafeStackStatic.construct P N this_ptr after))
        = after (GetAllBufferSize P (SafeStackStatic.construct P N this_ptr after)) ∧
      (∀ a, a < GetAllBufferSize P (SafeStackStatic.construct P N this_ptr after) →
        (disturbed
            (writesOnce (GetAllBufferSize P (SafeStackStatic.construct P N this_ptr after)) b)
            0 (SafeStackStatic.construct P N this_ptr after)).buf_ a
          = (SafeStackStatic.construct P N this_ptr after).buf_ a) ∧
      Push P (alloc 0) x
          (disturbed
            (writesOnce (GetAllBufferSize P (SafeStackStatic.construct P N this_ptr after)) b)
            0 (SafeStackStatic.construct P N this_ptr after))
        = Res.thrown Errc.HASH_NOT_THE_SAME
          (disturbed
            (writesOnce (GetAllBufferSize P (SafeStackStatic.construct P N this_ptr after)) b)
            0 (SafeStackStatic.construct P N this_ptr after)) ∧
      (∀ (op : Op P) (rest : List (Op P)),
        runWith P alloc
          (writesOnce (GetAllBufferSize P (SafeStackStatic.construct P N this_ptr after)) b) 0
          (op :: rest) (SafeStackStatic.construct P N this_ptr after) = none) ∧
      runWith P alloc
          (writesOnce (GetAllBufferSize P (SafeStackStatic.construct P N this_ptr after)) b) 0
          (stressLoop (x :: loopPre)) (SafeStackStatic.construct P N this_ptr after) = none) ∧
    ((∃ s', runWith P alloc env 0 (pre ++ suf) (SafeStackStatic.construct P N this_ptr after)
          = some (outs, s') ∧
        lifo (pre ++ suf) [] = some (outs, st') ∧
        contents P s' = st'.reverse ∧ Ok P s' = Verdict.pass) ∧
      (∃ o s1, runWith P alloc env 0 pre (SafeStackStatic.construct P N this_ptr after)
          = some (o, s1) ∧
        GetBufSize s1 = N ∧ pops pre ≤ pushes pre ∧
        GetCurSize s1 = pushes pre - pops pre ∧ GetCurSize s1 ≤ N ∧
        Ok P s1 = Verdict.pass) ∧
      (∃ s1 s2, runWith P alloc env 0 (stressLoop loopPre ++ [Op.push w])
            (SafeStackStatic.construct P N this_ptr after) = some (loopPre, s1) ∧
        GetCurSize s1 = loopPre.length + 1 ∧ GetBufSize s1 = N ∧
        Pop P (disturbed env (3 * loopPre.length + 1) s1) = Res.ok w s2 ∧
        GetCurSize s2 = loopPre.length ∧ GetBufSize s2 = N ∧
        Ok P s2 = Verdict.pass)) := by
  have h0 := SafeStackStatic_construct_inv P N this_ptr hthis hfit after
  have hc0 : contents P (SafeStackStatic.construct P N this_ptr after)
      = ([] : List (Elem P)).reverse := by
    have := contents_length P (SafeStackStatic.construct P N this_ptr after)
    rw [h0.cur] at this
    exact List.length_eq_zero.mp this
  have hall : SafeStackStatic.construct.all_size P N
      = BUF_POS + N * P.sizeofT + CANARY_SIZE := all_size_eq hfit
  refine ⟨⟨h0.ok, by rw [h0.all, hall], ?_, next_byte_outside _ _ b,
    (next_byte_throws h0 b hdist (alloc 0) x).1,
    fun op rest => runWith_next_byte h0 b hdist alloc op rest,
    runWith_next_byte h0 b hdist alloc (Op.push x) _⟩, ?_, ?_, ?_⟩
  · rw [h0.all]
    exact SafeStackStatic_construct_beyond P N this_ptr hthis hfit after _ (Nat.le_refl _)
  · obtain ⟨s', hrun, hinv, hcs⟩ :=
      runWith_bounded P alloc env N hq (pre ++ suf) 0 _ [] outs st' h0 hc0 hseq
    exact ⟨s', hrun, lifoBounded_lifo N _ _ _ hseq, hcs, hinv.ok⟩
  · obtain ⟨⟨o, t⟩, hpre⟩ := lifoBounded_prefix N suf pre [] _ hseq
    obtain ⟨s1, hrun, hinv, _⟩ := runWith_bounded P alloc env N hq pre 0 _ [] o t h0 hc0 hpre
    have hsz := lifoBounded_size N pre [] _ hpre
    simp only [List.length_nil, Nat.zero_add] at hsz
    have hle := hinv.le
    refine ⟨o, s1, hrun, hinv.cap, by omega, ?_, ?_, hinv.ok⟩
    · rw [hinv.cur]; omega
    · rw [hinv.cur]; exact hle
  · have hl : lifoBounded N (stressLoop loopPre ++ [Op.push w]) []
        = some (loopPre, w :: loopPre.reverse) := by
      rw [lifoBounded_stressLoop N loopPre _ [] (by simp only [List.length_nil]; omega),
        List.append_nil, lifoBounded_push,
        if_pos (by rw [List.length_reverse]; exact hloop)]
      simp [lifoBounded]
    obtain ⟨s1, hrun, hinv1, hcs⟩ :=
      runWith_bounded P alloc env N hq _ 0 _ [] loopPre (w :: loopPre.reverse) h0 hc0 hl
    simp only [List.length_cons, List.length_reverse] at hinv1
    obtain ⟨hinv, hcd⟩ := hinv1.quiet (Nat.le_refl N) hq (3 * loopPre.length + 1)
    rw [hcs, List.reverse_cons, List.reverse_reverse] at hcd
    have hv := contents_last hinv hcd
    obtain ⟨s2, hpop, _, hinv2⟩ := Pop_ok hinv
    rw [hv] at hpop
    exact ⟨s1, s2, hrun, hinv1.cur, hinv1.cap, hpop, hinv2.cur, hinv2.cap, hinv2.ok⟩

/-- C14 for `SafeStackStatic<uint64_t, 1000>` in zeroed storage, whose array
`buf_static_` has 8040 bytes: once the byte at offset 8040 has changed from
`0` to `1`, `Push(0)` throws `HASH_NOT_THE_SAME` and the loop of the test does
not run; in a program that writes nothing in between, `Push(5); Pop()` runs,
and so does the iteration `i = 999` of the loop after the 999 before it. -/
theorem C14_neighbour_byte_stops_the_fixed_stack_witness :
    (GetAllBufferSize cfgU64 (SafeStackStatic.construct cfgU64 1000 1 zeroMem) = 8040 ∧
      (SafeStackStatic.construct cfgU64 1000 1 zeroMem).buf_ 8040 = 0 ∧
      Quiet idle (BUF_POS + 1000 * cfgU64.sizeofT + CANARY_SIZE) ∧
      lifoBounded 1000 ([Op.push (u64 5)] ++ [Op.pop]) [] = some ([u64 5], []) ∧
      ((List.range 999).map u64).length < 1000) ∧
    (Push cfgU64 zeroMem (u64 0)
          (disturbed
            (writesOnce
              (GetAllBufferSize cfgU64 (SafeStackStatic.construct cfgU64 1000 1 zeroMem)) 1)
            0 (SafeStackStatic.construct cfgU64 1000 1 zeroMem))
        = Res.thrown Errc.HASH_NOT_THE_SAME
          (disturbed
            (writesOnce
              (GetAllBufferSize cfgU64 (SafeStackStatic.construct cfgU64 1000 1 zeroMem)) 1)
            0 (SafeStackStatic.construct cfgU64 1000 1 zeroMem)) ∧
      runWith cfgU64 (fun _ => zeroMem)
          (writesOnce
            (GetAllBufferSize cfgU64 (SafeStackStatic.construct cfgU64 1000 1 zeroMem)) 1) 0
          (stressLoop (u64 0 :: (List.range 999).map u64))
          (SafeStackStatic.construct cfgU64 1000 1 zeroMem) = none) ∧
    ((∃ s', runWith cfgU64 (fun _ => zeroMem) idle 0 ([Op.push (u64 5)] ++ [Op.pop])
            (SafeStackStatic.construct cfgU64 1000 1 zeroMem)
          = some ([u64 5], s') ∧
        lifo ([Op.push (u64 5)] ++ [Op.pop]) [] = some ([u64 5], []) ∧
        contents cfgU64 s' = ([] : List (Elem cfgU64)).reverse ∧
        Ok cfgU64 s' = Verdict.pass) ∧
      (∃ s1 s2, runWith cfgU64 (fun _ => zeroMem) idle 0
            (stressLoop ((List.range 999).map u64) ++ [Op.push (u64 999)])
            (SafeStackStatic.construct cfgU64 1000 1 zeroMem)
          = some ((List.range 999).map u64, s1) ∧
        GetCurSize s1 = ((List.range 999).map u64).length + 1 ∧ GetBufSize s1 = 1000 ∧
        Pop cfgU64 (disturbed idle (3 * ((List.range 999).map u64).length + 1) s1)
          = Res.ok (u64 999) s2 ∧
        GetCurSize s2 = ((List.range 999).map u64).length ∧ GetBufSize s2 = 1000 ∧
        Ok cfgU64 s2 = Verdict.pass)) :=
  have h0 := SafeStackStatic_construct_inv cfgU64 1000 1 (by decide) (by decide) zeroMem
  have hall : GetAllBufferSize cfgU64 (SafeStackStatic.construct cfgU64 1000 1 zeroMem) = 8040 :=
    h0.all
  have hbyte : (SafeStackStatic.construct cfgU64 1000 1 zeroMem).buf_ 8040 = 0 :=
    SafeStackStatic_construct_beyond cfgU64 1000 1 (by decide) (by decide) zeroMem 8040
      (by decide)
  have hdist : cfgU64.hashStr (load (SafeStackStatic.construct cfgU64 1000 1 zeroMem).buf_
        (HASH_POS + HASH_SIZE)
        (GetAllBufferSize cfgU64 (SafeStackStatic.construct cfgU64 1000 1 zeroMem)
          - HASH_POS - HASH_SIZE)
        ++ [1]) % WORD
      ≠ cfgU64.hashStr (load (SafeStackStatic.construct cfgU64 1000 1 zeroMem).buf_
        (HASH_POS + HASH_SIZE)
        (GetAllBufferSize cfgU64 (SafeStackStatic.construct cfgU64 1000 1 zeroMem)
          - HASH_POS - HASH_SIZE)
        ++ [(SafeStackStatic.construct cfgU64 1000 1 zeroMem).buf_
          (GetAllBufferSize cfgU64 (SafeStackStatic.construct cfgU64 1000 1 zeroMem))])
        % WORD :=
    sum_hash_tells cfgU64 rfl (SafeStackStatic.construct cfgU64 1000 1 zeroMem) 1
      (by rw [hall, hbyte]; decide)
  have hq : Quiet idle (BUF_POS + 1000 * cfgU64.sizeofT + CANARY_SIZE) :=
    fun _ _ _ _ => rfl
  have hlen : ((List.range 999).map u64).length < 1000 := by simp
  have h := C14_neighbour_byte_stops_the_fixed_stack cfgU64 1000 1 1 zeroMem
    (fun _ => zeroMem) idle (u64 0) [Op.push (u64 5)] [Op.pop] [u64 5] []
    ((List.range 999).map u64) (u64 999) (by decide) (by decide) hdist hq rfl hlen
  ⟨⟨hall, hbyte, hq, rfl, hlen⟩, ⟨h.1.2.2.2.2.1, h.1.2.2.2.2.2.2⟩, h.2.1, h.2.2.2⟩

/-- C15: a freshly constructed stack (growable, and fixed with compile-time
capacity `ReservedSize`) has live-count `0`; its capacity is
`DEFAULT_INITIAL_SIZE = 10` for the growable variant and `ReservedSize` for
the fixed one; both sentinels are `CANARY_VALUE`; every payload slot reads as
the poison value, every byte of the payload being `POISON_VALUE`; the stored
checksum is the recomputed one, and `Ok()` passes. -/
theorem C15_fresh_stack_is_empty_poisoned_and_verified (P : Cfg)
    (ReservedSize this_ptr : Nat) (new_mem after : Mem)
    (hthis : this_ptr ≠ 0)
    (hfitD : BUF_POS + DEFAULT_INITIAL_SIZE * P.sizeofT + CANARY_SIZE < WORD)
    (hfitS : BUF_POS + ReservedSize * P.sizeofT + CANARY_SIZE < WORD) :
    DEFAULT_INITIAL_SIZE = 10 ∧
      (GetCurSize (SafeStack.construct P this_ptr new_mem) = 0 ∧
        GetBufSize (SafeStack.construct P this_ptr new_mem) = DEFAULT_INITIAL_SIZE ∧
        GetFirstCanary (SafeStack.construct P this_ptr new_mem) = CANARY_VALUE ∧
        GetSecondCanary P (SafeStack.construct P this_ptr new_mem) = CANARY_VALUE ∧
        (∀ i, i < GetBufSize (SafeStack.construct P this_ptr new_mem) →
          GetElement P (SafeStack.construct P this_ptr new_mem) i = GetPoisonValue P) ∧
        (∀ a, BUF_POS ≤ a → a < BUF_POS + DEFAULT_INITIAL_SIZE * P.sizeofT →
          (SafeStack.construct P this_ptr new_mem).buf_ a = POISON_VALUE) ∧
        GetHashValue (SafeStack.construct P this_ptr new_mem)
          = CalculateHash_0 P (SafeStack.construct P this_ptr new_mem) ∧
        Ok P (SafeStack.construct P this_ptr new_mem) = Verdict.pass) ∧
      (GetCurSize (SafeStackStatic.construct P ReservedSize this_ptr after) = 0 ∧
        GetBufSize (SafeStackStatic.construct P ReservedSize this_ptr after) = ReservedSize ∧
        GetFirstCanary (SafeStackStatic.construct P ReservedSize this_ptr after)
          = CANARY_VALUE ∧
        GetSecondCanary P (SafeStackStatic.construct P ReservedSize this_ptr after)
          = CANARY_VALUE ∧
        (∀ i, i < GetBufSize (SafeStackStatic.construct P ReservedSize this_ptr after) →
          GetElement P (SafeStackStatic.construct P ReservedSize this_ptr after) i
            = GetPoisonValue P) ∧
        (∀ a, BUF_POS ≤ a → a < BUF_POS + ReservedSize * P.sizeofT →
          (SafeStackStatic.construct P ReservedSize this_ptr after).buf_ a = POISON_VALUE) ∧
        GetHashValue (SafeStackStatic.construct P ReservedSize this_ptr after)
          = CalculateHash_0 P (SafeStackStatic.construct P ReservedSize this_ptr after) ∧
        Ok P (SafeStackStatic.construct P ReservedSize this_ptr after) = Verdict.pass) :=
  ⟨rfl, (SafeStack_construct_inv P this_ptr hthis hfitD new_mem).empty_state,
    (SafeStackStatic_construct_inv P ReservedSize this_ptr hthis hfitS after).empty_state⟩

/-- C15 for `SafeStack<uint64_t>` and `SafeStackStatic<uint64_t, 1000>` at
address `1`, the memory being zero before construction. -/
theorem C15_fresh_stack_is_empty_poisoned_and_verified_witness :
    DEFAULT_INITIAL_SIZE = 10 ∧
      (GetCurSize (SafeStack.construct cfgU64 1 zeroMem) = 0 ∧
        GetBufSize (SafeStack.construct cfgU64 1 zeroMem) = DEFAULT_INITIAL_SIZE ∧
        GetFirstCanary (SafeStack.construct cfgU64 1 zeroMem) = CANARY_VALUE ∧
        GetSecondCanary cfgU64 (SafeStack.construct cfgU64 1 zeroMem) = CANARY_VALUE ∧
        (∀ i, i < GetBufSize (SafeStack.construct cfgU64 1 zeroMem) →
          GetElement cfgU64 (SafeStack.construct cfgU64 1 zeroMem) i
            = GetPoisonValue cfgU64) ∧
        (∀ a, BUF_POS ≤ a → a < BUF_POS + DEFAULT_INITIAL_SIZE * cfgU64.sizeofT →
          (SafeStack.construct cfgU64 1 zeroMem).buf_ a = POISON_VALUE) ∧
        GetHashValue (SafeStack.construct cfgU64 1 zeroMem)
          = CalculateHash_0 cfgU64 (SafeStack.construct cfgU64 1 zeroMem) ∧
        Ok cfgU64 (SafeStack.construct cfgU64 1 zeroMem) = Verdict.pass) ∧
      (GetCurSize (SafeStackStatic.construct cfgU64 1000 1 zeroMem) = 0 ∧
        GetBufSize (SafeStackStatic.construct cfgU64 1000 1 zeroMem) = 1000 ∧
        GetFirstCanary (SafeStackStatic.construct cfgU64 1000 1 zeroMem) = CANARY_VALUE ∧
        GetSecondCanary cfgU64 (SafeStackStatic.construct cfgU64 1000 1 zeroMem)
          = CANARY_VALUE ∧
        (∀ i, i < GetBufSize (SafeStackStatic.construct cfgU64 1000 1 zeroMem) →
          GetElement cfgU64 (SafeStackStatic.construct cfgU64 1000 1 zeroMem) i
            = GetPoisonValue cfgU64) ∧
        (∀ a, BUF_POS ≤ a → a < BUF_POS + 1000 * cfgU64.sizeofT →
          (SafeStackStatic.construct cfgU64 1000 1 zeroMem).buf_ a = POISON_VALUE) ∧
        GetHashValue (SafeStackStatic.construct cfgU64 1000 1 zeroMem)
          = CalculateHash_0 cfgU64 (SafeStackStatic.construct cfgU64 1000 1 zeroMem) ∧
        Ok cfgU64 (SafeStackStatic.construct cfgU64 1000 1 zeroMem) = Verdict.pass) :=
  C15_fresh_stack_is_empty_poisoned_and_verified cfgU64 1000 1 zeroMem zeroMem (by decide)
    (by simp only [BUF_POS_eq, CANARY_SIZE_eq, WORD_eq]; decide)
    (by simp only [BUF_POS_eq, CANARY_SIZE_eq, WORD_eq]; decide)


/-- C16: `GetPoisonValue()` is a value of `sizeof(T)` bytes, each of them
`POISON_VALUE`, the character `'#'`; for every value `v` of the element type
`IsPoison(v)` is true exactly when every byte of `v` is `POISON_VALUE`; so
`IsPoison(GetPoisonValue())` is true, the poison value is the only value that
`IsPoison` accepts, and a value with some byte different from `POISON_VALUE`
is not poison. -/
theorem C16_poison_is_tested_bytewise (P : Cfg) :
    POISON_VALUE = Char.toNat '#' ∧
      (GetPoisonValue P).val.length = P.sizeofT ∧
      (GetPoisonValue P).val = List.replicate P.sizeofT POISON_VALUE ∧
      (∀ b, b ∈ (GetPoisonValue P).val → b = POISON_VALUE) ∧
      (∀ v : Elem P, IsPoison P v = true ↔ ∀ b, b ∈ v.val → b = POISON_VALUE) ∧
      IsPoison P (GetPoisonValue P) = true ∧
      (∀ v : Elem P, IsPoison P v = true ↔ v = GetPoisonValue P) ∧
      (∀ v : Elem P, (∃ b, b ∈ v.val ∧ b ≠ POISON_VALUE) → IsPoison P v = false) := by
  have hiff : ∀ v : Elem P, IsPoison P v = true ↔ ∀ b, b ∈ v.val → b = POISON_VALUE := by
    intro v
    simp only [IsPoison, List.all_eq_true, beq_iff_eq]
  refine ⟨by decide, (GetPoisonValue P).property, rfl, ?_, hiff, IsPoison_GetPoisonValue P,
    IsPoison_iff_eq P, ?_⟩
  · intro b hb
    exact (List.mem_replicate.mp hb).2
  · rintro v ⟨b, hb, hne⟩
    cases hv : IsPoison P v with
    | false => rfl
    | true => exact absurd ((hiff v).mp hv b hb) hne

/-- C16 for `uint64_t`: the value `35`, whose lowest byte is `'#'` and whose
other bytes are zero, is not poison. -/
theorem C16_poison_is_tested_bytewise_witness :
    IsPoison cfgU64 (GetPoisonValue cfgU64) = true ∧ IsPoison cfgU64 (u64 35) = false :=
  ⟨(C16_poison_is_tested_bytewise cfgU64).2.2.2.2.2.1,
    (C16_poison_is_tested_bytewise cfgU64).2.2.2.2.2.2.2 (u64 35) ⟨0, by decide, by decide⟩⟩


/-- C17: on a consistent stack `Push(v)` runs the growth step exactly when the
live-count equals the capacity on entry.  With live-count `n` below the
capacity the push returns without growth: the capacity and every slot other
than slot `n` are unchanged, slot `n` holds `v`, and the live-count is
`n + 1`.  With live-count equal to a capacity `c` of at least `1` the push
returns after growth: the capacity is `2 * c`, the slots below `c` are
unchanged, slot `c` holds `v`, and the live-count is `c + 1`.  So for every
stack that can take a push, and for every push that returns, the capacity
after the push differs from the capacity before it if and only if the
live-count equalled the capacity on entry.  The doubled buffer of a full
stack is taken to fit in the address space. -/
theorem C17_push_grows_exactly_when_full (P : Cfg) (s : SafeStack) (new_mem : Mem)
    (v : Elem P)
    (hcons : Consistent P s)
    (hfit2 : GetCurSize s = GetBufSize s →
      BUF_POS + (2 * GetBufSize s) * P.sizeofT + CANARY_SIZE < WORD) :
    (GetCurSize s < GetBufSize s →
        Push P new_mem v s = Res.ok () (Push.place P v s) ∧
        GetBufSize (Push.place P v s) = GetBufSize s ∧
        (∀ i, i < GetBufSize s → i ≠ GetCurSize s →
          GetElement P (Push.place P v s) i = GetElement P s i) ∧
        GetElement P (Push.place P v s) (GetCurSize s) = v ∧
        GetCurSize (Push.place P v s) = GetCurSize s + 1) ∧
      (GetCurSize s = GetBufSize s → 1 ≤ GetBufSize s →
        Push P new_mem v s
          = Res.ok () (Push.place P v (ReallocateDoubleSize.body P new_mem s)) ∧
        GetBufSize (Push.place P v (ReallocateDoubleSize.body P new_mem s))
          = 2 * GetBufSize s ∧
        (∀ i, i < GetCurSize s →
          GetElement P (Push.place P v (ReallocateDoubleSize.body P new_mem s)) i
            = GetElement P s i) ∧
        GetElement P (Push.place P v (ReallocateDoubleSize.body P new_mem s)) (GetCurSize s)
          = v ∧
        GetCurSize (Push.place P v (ReallocateDoubleSize.body P new_mem s))
          = GetCurSize s + 1) ∧
      (1 ≤ GetBufSize s →
        ∃ s', Push P new_mem v s = Res.ok () s' ∧
          (GetBufSize s' ≠ GetBufSize s ↔ GetCurSize s = GetBufSize s)) ∧
      (∀ s', Push P new_mem v s = Res.ok () s' →
        (GetBufSize s' ≠ GetBufSize s ↔ GetCurSize s = GetBufSize s)) := by
  have hinv := hcons.inv
  have hroom : GetCurSize s < GetBufSize s →
      Push P new_mem v s = Res.ok () (Push.place P v s) ∧
      GetBufSize (Push.place P v s) = GetBufSize s ∧
      (∀ i, i < GetBufSize s → i ≠ GetCurSize s →
        GetElement P (Push.place P v s) i = GetElement P s i) ∧
      GetElement P (Push.place P v s) (GetCurSize s) = v ∧
      GetCurSize (Push.place P v s) = GetCurSize s + 1 := by
    intro hnc
    obtain ⟨hpush, _, hinv'⟩ := Push_ok_room hinv hnc new_mem v
    obtain ⟨he, hv⟩ := Push_room_elements hinv hnc v
    exact ⟨hpush, hinv'.cap, he, hv, hinv'.cur⟩
  have hgrow : GetCurSize s = GetBufSize s → 1 ≤ GetBufSize s →
      Push P new_mem v s
        = Res.ok () (Push.place P v (ReallocateDoubleSize.body P new_mem s)) ∧
      GetBufSize (Push.place P v (ReallocateDoubleSize.body P new_mem s))
        = 2 * GetBufSize s ∧
      (∀ i, i < GetCurSize s →
        GetElement P (Push.place P v (ReallocateDoubleSize.body P new_mem s)) i
          = GetElement P s i) ∧
      GetElement P (Push.place P v (ReallocateDoubleSize.body P new_mem s)) (GetCurSize s)
        = v ∧
      GetCurSize (Push.place P v (ReallocateDoubleSize.body P new_mem s))
        = GetCurSize s + 1 := by
    intro heq hc
    have hf2 := hfit2 heq
    rw [heq] at hinv ⊢
    obtain ⟨hpush, hinv'⟩ := Push_ok_grow hinv hc hf2 new_mem v
    obtain ⟨he, hv⟩ := Push_grow_elements hinv hc hf2 new_mem v
    exact ⟨hpush, hinv'.cap, he, hv, hinv'.cur⟩
  have hiff : ∀ s', Push P new_mem v s = Res.ok () s' →
      (GetBufSize s' ≠ GetBufSize s ↔ GetCurSize s = GetBufSize s) := by
    intro s' hres
    by_cases hnc : GetCurSize s < GetBufSize s
    · obtain ⟨hpush, hcap, _⟩ := hroom hnc
      rw [hpush] at hres
      simp only [Res.ok.injEq, true_and] at hres
      rw [← hres, hcap]
      constructor
      · intro h; exact absurd rfl h
      · intro h; omega
    · have heq : GetCurSize s = GetBufSize s := by
        have := hinv.le
        omega
      by_cases hc : 1 ≤ GetBufSize s
      · obtain ⟨hpush, hcap, _⟩ := hgrow heq hc
        rw [hpush] at hres
        simp only [Res.ok.injEq, true_and] at hres
        rw [← hres, hcap]
        constructor
        · intro _; exact heq
        · intro _; omega
      · have hc0 : GetBufSize s = 0 := by omega
        have hinv0 : Inv P s 0 0 := by
          have := hinv
          rw [heq, hc0] at this
          exact this
        obtain ⟨e, hthrow, _⟩ := Push_zero_capacity hinv0 new_mem v
        rw [hthrow] at hres
        exact absurd hres (by simp)
  refine ⟨hroom, hgrow, ?_, hiff⟩
  intro hc
  by_cases hnc : GetCurSize s < GetBufSize s
  · exact ⟨_, (hroom hnc).1, hiff _ (hroom hnc).1⟩
  · have heq : GetCurSize s = GetBufSize s := by
      have := hinv.le
      omega
    exact ⟨_, (hgrow heq hc).1, hiff _ (hgrow heq hc).1⟩

/-- C17 on the `SafeStack<uint8_t>` that holds ten values, live-count and
capacity both `10`: `Push(10)` grows the buffer to capacity `20`. -/
theorem C17_push_grows_exactly_when_full_witness :
    (Consistent cfgU8 fullU8 ∧ GetCurSize fullU8 = GetBufSize fullU8 ∧
      GetBufSize fullU8 = 10 ∧
      BUF_POS + (2 * GetBufSize fullU8) * cfgU8.sizeofT + CANARY_SIZE < WORD) ∧
    (Push cfgU8 zeroMem (u8 10) fullU8
        = Res.ok () (Push.place cfgU8 (u8 10) (ReallocateDoubleSize.body cfgU8 zeroMem fullU8)) ∧
      GetBufSize (Push.place cfgU8 (u8 10) (ReallocateDoubleSize.body cfgU8 zeroMem fullU8))
        = 2 * GetBufSize fullU8 ∧
      GetCurSize (Push.place cfgU8 (u8 10) (ReallocateDoubleSize.body cfgU8 zeroMem fullU8))
        = GetCurSize fullU8 + 1) ∧
    (∃ s', Push cfgU8 zeroMem (u8 10) fullU8 = Res.ok () s' ∧
      (GetBufSize s' ≠ GetBufSize fullU8 ↔ GetCurSize fullU8 = GetBufSize fullU8)) :=
  have h0 := SafeStack_construct_inv cfgU8 1 (by decide) (by decide) zeroMem
  have hfull : Inv cfgU8 fullU8 10 10 :=
    place_all_inv ((List.range 10).map u8) (SafeStack.construct cfgU8 1 zeroMem) 0 10 h0
      (by decide)
  have heq : GetCurSize fullU8 = GetBufSize fullU8 := hfull.cur.trans hfull.cap.symm
  have hc1 : 1 ≤ GetBufSize fullU8 := by rw [hfull.cap]; decide
  have hf2 : BUF_POS + (2 * GetBufSize fullU8) * cfgU8.sizeofT + CANARY_SIZE < WORD := by
    rw [hfull.cap]; decide
  have h := C17_push_grows_exactly_when_full cfgU8 fullU8 zeroMem (u8 10) hfull.consistent
    (fun _ => hf2)
  ⟨⟨hfull.consistent, heq, hfull.cap, hf2⟩,
    ⟨(h.2.1 heq hc1).1, (h.2.1 heq hc1).2.1, (h.2.1 heq hc1).2.2.2.2⟩, h.2.2.1 hc1⟩

/-- C18: on a consistent stack with live-count `n ≥ 1`, `Pop()` returns the
value of slot `n - 1`, leaves that slot equal to the poison value and the
live-count at `n - 1`, and changes nothing else: the capacity, every other
slot below the capacity (the slots `[0, n - 1)` and `[n, capacity)`) and both
sentinels are what they were, as is every byte outside the checksum field,
the live-count field and slot `n - 1`; `Ok()` passes afterwards. -/
theorem C18_pop_returns_top_and_poisons_only_that_slot (P : Cfg) (s : SafeStack)
    (hcons : Consistent P s) (hn : 1 ≤ GetCurSize s) :
    ∃ s', Pop P s = Res.ok (GetElement P s (GetCurSize s - 1)) s' ∧
      GetElement P s' (GetCurSize s - 1) = GetPoisonValue P ∧
      GetCurSize s' = GetCurSize s - 1 ∧
      GetBufSize s' = GetBufSize s ∧
      (∀ i, i < GetBufSize s → i ≠ GetCurSize s - 1 →
        GetElement P s' i = GetElement P s i) ∧
      GetFirstCanary s' = GetFirstCanary s ∧
      GetSecondCanary P s' = GetSecondCanary P s ∧
      (∀ a, (a < HASH_POS ∨ BUF_SIZE_POS ≤ a) →
        (a < BUF_POS + (GetCurSize s - 1) * P.sizeofT ∨
          BUF_POS + (GetCurSize s - 1) * P.sizeofT + P.sizeofT ≤ a) →
        s'.buf_ a = s.buf_ a) ∧
      Ok P s' = Verdict.pass := by
  have hinv := hcons.inv
  obtain ⟨n, hn1⟩ : ∃ n, GetCurSize s = n + 1 := ⟨GetCurSize s - 1, by omega⟩
  rw [hn1] at hinv ⊢
  rw [Nat.add_sub_cancel]
  obtain ⟨s', hpop, hag, hinv'⟩ := Pop_ok hinv
  obtain ⟨he, hp⟩ := Pop_elements hinv hag hinv'
  exact ⟨s', hpop, hp, hinv'.cur, hinv'.cap, he,
    by rw [hinv'.first, hinv.first],
    by rw [hinv'.second_canary, hinv.second_canary],
    Pop_bytes hag, hinv'.ok⟩

/-- C18 on the `SafeStack<uint8_t>` that holds the single value `7`. -/
theorem C18_pop_returns_top_and_poisons_only_that_slot_witness :
    Consistent cfgU8 (Push.place cfgU8 (u8 7) (SafeStack.construct cfgU8 1 zeroMem)) ∧
      1 ≤ GetCurSize (Push.place cfgU8 (u8 7) (SafeStack.construct cfgU8 1 zeroMem)) ∧
      ∃ s', Pop cfgU8 (Push.place cfgU8 (u8 7) (SafeStack.construct cfgU8 1 zeroMem))
          = Res.ok (GetElement cfgU8
              (Push.place cfgU8 (u8 7) (SafeStack.construct cfgU8 1 zeroMem))
              (GetCurSize (Push.place cfgU8 (u8 7) (SafeStack.construct cfgU8 1 zeroMem)) - 1))
            s' ∧
        GetCurSize s'
          = GetCurSize (Push.place cfgU8 (u8 7) (SafeStack.construct cfgU8 1 zeroMem)) - 1 ∧
        GetBufSize s'
          = GetBufSize (Push.place cfgU8 (u8 7) (SafeStack.construct cfgU8 1 zeroMem)) ∧
        Ok cfgU8 s' = Verdict.pass :=
  have h0 := SafeStack_construct_inv cfgU8 1 (by decide)
    (by simp only [BUF_POS_eq, CANARY_SIZE_eq, WORD_eq]; decide) zeroMem
  have h1 := (Push.place_spec h0 (by decide) (u8 7)).2
  have hn : 1 ≤ GetCurSize (Push.place cfgU8 (u8 7) (SafeStack.construct cfgU8 1 zeroMem)) :=
    Nat.le_of_eq h1.cur.symm
  ⟨h1.consistent, hn,
    (C18_pop_returns_top_and_poisons_only_that_slot cfgU8 _ h1.consistent hn).imp
      (fun _ h => ⟨h.1, h.2.2.1, h.2.2.2.1, h.2.2.2.2.2.2.2.2⟩)⟩


/-- C19 (the code departs from the claim): the slot that `Push` writes and
the slot that `Pop` reads and poisons lie inside the payload when `Push` finds
a free slot, when it grows a buffer of capacity at least `1`, and when `Pop`
finds a live element; they do not for the other inputs. On a consistent stack
with live-count `0`, `Pop` computes `pos = BUF_POS - sizeof(T)`, below
`BUF_POS`: it reads the `sizeof(T)` bytes before the payload, overwrites them
with `POISON_VALUE` (the last byte of the capacity field among them) and only
then throws. On a consistent stack of capacity `0`, `Push` writes at `BUF_POS`
after a growth step that leaves the capacity at `0`: slot `0`, where the
trailing sentinel starts. -/
theorem C19_pop_on_empty_touches_the_header (P : Cfg) (s : SafeStack) (new_mem : Mem)
    (v : Elem P) (hcons : Consistent P s) :
    (GetCurSize s < GetBufSize s →
        Push.pos P s = BUF_POS + GetCurSize s * P.sizeofT ∧
        BUF_POS ≤ Push.pos P s ∧
        Push.pos P s + P.sizeofT ≤ BUF_POS + GetBufSize s * P.sizeofT) ∧
      (GetCurSize s = GetBufSize s → 1 ≤ GetBufSize s →
        BUF_POS + (2 * GetBufSize s) * P.sizeofT + CANARY_SIZE < WORD →
        Push.pos P (ReallocateDoubleSize.body P new_mem s)
          = BUF_POS + GetCurSize s * P.sizeofT ∧
        BUF_POS ≤ Push.pos P (ReallocateDoubleSize.body P new_mem s) ∧
        Push.pos P (ReallocateDoubleSize.body P new_mem s) + P.sizeofT
          ≤ BUF_POS + GetBufSize (ReallocateDoubleSize.body P new_mem s) * P.sizeofT) ∧
      (1 ≤ GetCurSize s →
        Pop.pos P s = BUF_POS + (GetCurSize s - 1) * P.sizeofT ∧
        BUF_POS ≤ Pop.pos P s ∧
        Pop.pos P s + P.sizeofT ≤ BUF_POS + GetBufSize s * P.sizeofT) ∧
      (GetCurSize s = 0 → P.sizeofT ≤ BUF_POS →
        Pop.pos P s = BUF_POS - P.sizeofT ∧ Pop.pos P s < BUF_POS ∧
        ∃ e s', Pop P s = Res.thrown e s' ∧
          agree s' ((s.write (Pop.pos P s) (List.replicate P.sizeofT POISON_VALUE)).write
            CUR_SIZE_POS (bytes64 (WORD - 1))) ∧
          s'.buf_ (BUF_SIZE_POS + 7) = POISON_VALUE) ∧
      (GetBufSize s = 0 →
        Push.pos P (ReallocateDoubleSize.body P new_mem s) = BUF_POS ∧
        GetBufSize (ReallocateDoubleSize.body P new_mem s) = 0 ∧
        BUF_POS + GetBufSize (ReallocateDoubleSize.body P new_mem s) * P.sizeofT
          < Push.pos P (ReallocateDoubleSize.body P new_mem s) + P.sizeofT ∧
        ∃ e, Push P new_mem v s
          = Res.thrown e (Push.place P v (ReallocateDoubleSize.body P new_mem s))) := by
  have hinv := hcons.inv
  have hpos := P.sizeofT_pos
  refine ⟨?_, ?_, ?_, ?_, ?_⟩
  · intro hnc
    have := slot_lt (P := P) hnc
    rw [Push_pos_eq hinv]
    exact ⟨rfl, by omega, by omega⟩
  · intro heq hc hfit2
    rw [heq] at hinv ⊢
    have hg := (ReallocateDoubleSize.body_spec hinv hfit2 new_mem).1
    have := slot_lt (P := P) (show GetBufSize s < 2 * GetBufSize s by omega)
    rw [Push_pos_eq hg, hg.cap]
    exact ⟨rfl, by omega, by omega⟩
  · intro hn
    obtain ⟨n, hn1⟩ : ∃ n, GetCurSize s = n + 1 := ⟨GetCurSize s - 1, by omega⟩
    rw [hn1] at hinv ⊢
    have := slot_lt (P := P) (show n < GetBufSize s from hinv.le)
    rw [Pop_pos_eq hinv, Nat.add_sub_cancel]
    exact ⟨rfl, by omega, by omega⟩
  · intro h0 hsz
    rw [h0] at hinv
    refine ⟨Pop_pos_empty h0 hsz, ?_, Pop_empty_state hinv hsz⟩
    rw [Pop_pos_empty h0 hsz]
    omega
  · intro hc0
    have hn0 : GetCurSize s = 0 := by
      have := hinv.le
      omega
    rw [hn0, hc0] at hinv
    have hfit2 : BUF_POS + (2 * 0) * P.sizeofT + CANARY_SIZE < WORD := by
      have := hinv.fits
      simpa using this
    have hg := (ReallocateDoubleSize.body_spec hinv hfit2 new_mem).1
    obtain ⟨e, hthrow, _, _⟩ := Push_zero_capacity hinv new_mem v
    rw [Push_pos_eq hg, hg.cap]
    refine ⟨by simp, rfl, by omega, e, hthrow⟩

/-- C19 on a fresh `SafeStack<uint64_t>`: `Pop` computes `pos = 24`, the
offset of the capacity field, and poisons its eight bytes. -/
theorem C19_pop_on_empty_touches_the_header_witness :
    Consistent cfgU64 (SafeStack.construct cfgU64 1 zeroMem) ∧
      GetCurSize (SafeStack.construct cfgU64 1 zeroMem) = 0 ∧
      Pop.pos cfgU64 (SafeStack.construct cfgU64 1 zeroMem) = BUF_POS - cfgU64.sizeofT ∧
      Pop.pos cfgU64 (SafeStack.construct cfgU64 1 zeroMem) < BUF_POS ∧
      ∃ e s', Pop cfgU64 (SafeStack.construct cfgU64 1 zeroMem) = Res.thrown e s' ∧
        agree s' (((SafeStack.construct cfgU64 1 zeroMem).write
            (Pop.pos cfgU64 (SafeStack.construct cfgU64 1 zeroMem))
            (List.replicate cfgU64.sizeofT POISON_VALUE)).write
          CUR_SIZE_POS (bytes64 (WORD - 1))) ∧
        s'.buf_ (BUF_SIZE_POS + 7) = POISON_VALUE :=
  have hinv := SafeStack_construct_inv cfgU64 1 (by decide) (by decide) zeroMem
  ⟨hinv.consistent, hinv.cur,
    (C19_pop_on_empty_touches_the_header cfgU64 (SafeStack.construct cfgU64 1 zeroMem)
      zeroMem (u64 0) hinv.consistent).2.2.2.1 hinv.cur (by decide)⟩


/-- C20: at construction of either variant and at growth, the size that is
allocated and passed to `FillCanaries` is `GetAllBufferSize()` as computed
from the capacity stored in the buffer at the moment of the call:
`8 + 8 + 2 * sizeof(size_t) + 10 * sizeof(T) + 8` for the growable variant,
and `all_size + c * sizeof(T)` at the growth of a buffer of capacity `c`, when
the stored capacity is `2 * c`. So `FillCanaries` writes the trailing sentinel
at `BUF_POS + capacity * sizeof(T)`, the offset that `GetSecondCanary` reads
once the operation is complete, and the poison fill of the growth step runs
from `BUF_POS + c * sizeof(T)` to `BUF_POS + 2 * c * sizeof(T)`: the slots
`[c, 2c)` are poison and the bytes of the slots below `c` are those of the old
buffer. -/
theorem C20_sizes_passed_to_FillCanaries (P : Cfg) (ReservedSize this_ptr : Nat)
    (new_mem after new_mem' : Mem) (s : SafeStack)
    (hthis : this_ptr ≠ 0)
    (hfitD : BUF_POS + DEFAULT_INITIAL_SIZE * P.sizeofT + CANARY_SIZE < WORD)
    (hfitS : BUF_POS + ReservedSize * P.sizeofT + CANARY_SIZE < WORD)
    (hcons : Consistent P s) (hfull : GetCurSize s = GetBufSize s)
    (hfit2 : BUF_POS + (2 * GetBufSize s) * P.sizeofT + CANARY_SIZE < WORD) :
    (SafeStack.construct P this_ptr new_mem
        = CalculateAndPlaceHash P (SafeStack.construct.all_size P)
            (FillWithPoison P BUF_POS (SafeStack.construct.all_size P - CANARY_SIZE)
              (FillCanaries P (SafeStack.construct.all_size P)
                (SafeStack.construct.sized P this_ptr new_mem))) ∧
      SafeStack.construct.all_size P = 8 + 8 + 2 * SIZEOF_SIZE_T + 10 * P.sizeofT + 8 ∧
      GetBufSize (SafeStack.construct.sized P this_ptr new_mem) = 10 ∧
      GetAllBufferSize P (SafeStack.construct.sized P this_ptr new_mem)
        = SafeStack.construct.all_size P ∧
      SafeStack.construct.all_size P - CANARY_SIZE
        = BUF_POS + GetBufSize (SafeStack.construct.sized P this_ptr new_mem) * P.sizeofT ∧
      GetAllBufferSize P (SafeStack.construct P this_ptr new_mem)
        = SafeStack.construct.all_size P ∧
      GetSecondCanary P (SafeStack.construct P this_ptr new_mem)
        = load64 (SafeStack.construct P this_ptr new_mem).buf_
            (SafeStack.construct.all_size P - CANARY_SIZE) ∧
      GetSecondCanary P (SafeStack.construct P this_ptr new_mem) = CANARY_VALUE) ∧
    (SafeStackStatic.construct P ReservedSize this_ptr after
        = CalculateAndPlaceHash P (SafeStackStatic.construct.all_size P ReservedSize)
            (FillWithPoison P BUF_POS
              (SafeStackStatic.construct.all_size P ReservedSize - CANARY_SIZE)
              (FillCanaries P (SafeStackStatic.construct.all_size P ReservedSize)
                (SafeStackStatic.construct.sized P ReservedSize this_ptr after))) ∧
      GetBufSize (SafeStackStatic.construct.sized P ReservedSize this_ptr after)
        = ReservedSize ∧
      GetAllBufferSize P (SafeStackStatic.construct.sized P ReservedSize this_ptr after)
        = SafeStackStatic.construct.all_size P ReservedSize ∧
      SafeStackStatic.construct.all_size P ReservedSize - CANARY_SIZE
        = BUF_POS +
          GetBufSize (SafeStackStatic.construct.sized P ReservedSize this_ptr after)
            * P.sizeofT ∧
      GetAllBufferSize P (SafeStackStatic.construct P ReservedSize this_ptr after)
        = SafeStackStatic.construct.all_size P ReservedSize ∧
      GetSecondCanary P (SafeStackStatic.construct P ReservedSize this_ptr after)
        = load64 (SafeStackStatic.construct P ReservedSize this_ptr after).buf_
            (SafeStackStatic.construct.all_size P ReservedSize - CANARY_SIZE) ∧
      GetSecondCanary P (SafeStackStatic.construct P ReservedSize this_ptr after)
        = CANARY_VALUE) ∧
    (ReallocateDoubleSize.body P new_mem' s
        = CalculateAndPlaceHash P (ReallocateDoubleSize.new_all_size P s)
            (FillWithPoison P (GetAllBufferSize P s - CANARY_SIZE)
              (ReallocateDoubleSize.new_all_size P s - CANARY_SIZE)
              (FillCanaries P (ReallocateDoubleSize.new_all_size P s)
                (ReallocateDoubleSize.sized P new_mem' s))) ∧
      ReallocateDoubleSize.new_all_size P s
        = GetAllBufferSize P s + GetBufSize s * P.sizeofT ∧
      GetBufSize (ReallocateDoubleSize.sized P new_mem' s) = 2 * GetBufSize s ∧
      GetAllBufferSize P (ReallocateDoubleSize.sized P new_mem' s)
        = ReallocateDoubleSize.new_all_size P s ∧
      ReallocateDoubleSize.new_all_size P s - CANARY_SIZE
        = BUF_POS + GetBufSize (ReallocateDoubleSize.sized P new_mem' s) * P.sizeofT ∧
      GetAllBufferSize P s - CANARY_SIZE = BUF_POS + GetBufSize s * P.sizeofT ∧
      GetAllBufferSize P (ReallocateDoubleSize.body P new_mem' s)
        = ReallocateDoubleSize.new_all_size P s ∧
      GetSecondCanary P (ReallocateDoubleSize.body P new_mem' s)
        = load64 (ReallocateDoubleSize.body P new_mem' s).buf_
            (ReallocateDoubleSize.new_all_size P s - CANARY_SIZE) ∧
      GetSecondCanary P (ReallocateDoubleSize.body P new_mem' s) = CANARY_VALUE ∧
      (∀ k, GetBufSize s ≤ k → k < 2 * GetBufSize s →
        GetElement P (ReallocateDoubleSize.body P new_mem' s) k = GetPoisonValue P) ∧
      (∀ a, BUF_POS ≤ a → a < BUF_POS + GetBufSize s * P.sizeofT →
        (ReallocateDoubleSize.body P new_mem' s).buf_ a = s.buf_ a)) := by
  refine ⟨?_, ?_, ?_⟩
  · have hall : SafeStack.construct.all_size P
        = BUF_POS + DEFAULT_INITIAL_SIZE * P.sizeofT + CANARY_SIZE := all_size_eq hfitD
    obtain ⟨hcap, hsz⟩ := sized_all P DEFAULT_INITIAL_SIZE 0
      { this_ptr := this_ptr, buf_ := new_mem } hfitD
    have hinv := SafeStack_construct_inv P this_ptr hthis hfitD new_mem
    have hfin : GetAllBufferSize P (SafeStack.construct P this_ptr new_mem)
        = SafeStack.construct.all_size P := by rw [hinv.all, hall]
    refine ⟨rfl, ?_, hcap, ?_, ?_, hfin, ?_, hinv.second_canary⟩
    · rw [hall]
      simp only [BUF_POS_eq, DEFAULT_INITIAL_SIZE, CANARY_SIZE_eq, SIZEOF_SIZE_T]
    · rw [hall]; exact hsz
    · rw [hall, Nat.add_sub_cancel]
      show _ = BUF_POS + GetBufSize (SetCurSizeVal P 0 (SetBufferSizeVal P _ _)) * _
      rw [hcap]
    · rw [← hfin]
      exact GetSecondCanary_eq (by rw [hinv.all]; exact Nat.le_add_left _ _)
  · have hN : ReservedSize < WORD := by
      have : ReservedSize ≤ ReservedSize * P.sizeofT :=
        Nat.le_mul_of_pos_right _ P.sizeofT_pos
      omega
    have hall : SafeStackStatic.construct.all_size P ReservedSize
        = BUF_POS + ReservedSize * P.sizeofT + CANARY_SIZE := all_size_eq hfitS
    have hsized := sized_all P ReservedSize 0
      { this_ptr := this_ptr,
        buf_ := fun a =>
          if a < SafeStackStatic.construct.all_size P ReservedSize then 0 else after a }
      hfitS
    have hsd : SafeStackStatic.construct.sized P ReservedSize this_ptr after
        = SetCurSizeVal P 0 (SetBufferSizeVal P ReservedSize
          { this_ptr := this_ptr,
            buf_ := fun a =>
              if a < SafeStackStatic.construct.all_size P ReservedSize then 0
              else after a }) := by
      unfold SafeStackStatic.construct.sized
      rw [Nat.mod_eq_of_lt hN]
    rw [← hsd] at hsized
    obtain ⟨hcap, hsz⟩ := hsized
    have hinv := SafeStackStatic_construct_inv P ReservedSize this_ptr hthis hfitS after
    have hfin : GetAllBufferSize P (SafeStackStatic.construct P ReservedSize this_ptr after)
        = SafeStackStatic.construct.all_size P ReservedSize := by rw [hinv.all, hall]
    refine ⟨rfl, hcap, ?_, ?_, hfin, ?_, hinv.second_canary⟩
    · rw [hall]; exact hsz
    · rw [hall, Nat.add_sub_cancel, hcap]
    · rw [← hfin]
      exact GetSecondCanary_eq (by rw [hinv.all]; exact Nat.le_add_left _ _)
  · have hinv := hcons.inv
    rw [hfull] at hinv
    have hfit := hinv.fits
    have h2 : (2 * GetBufSize s) * P.sizeofT
        = GetBufSize s * P.sizeofT + GetBufSize s * P.sizeofT := by
      rw [Nat.two_mul, Nat.add_mul]
    have hold := hinv.all
    have hnew : ReallocateDoubleSize.new_all_size P s
        = BUF_POS + (2 * GetBufSize s) * P.sizeofT + CANARY_SIZE := by
      unfold ReallocateDoubleSize.new_all_size
      rw [hold, Nat.mod_eq_of_lt (by omega)]
      omega
    have h2w : (GetBufSize s * 2) % WORD = 2 * GetBufSize s := by
      have : GetBufSize s ≤ GetBufSize s * P.sizeofT :=
        Nat.le_mul_of_pos_right _ P.sizeofT_pos
      rw [Nat.mod_eq_of_lt (by omega)]
      omega
    have hsized := sized_all P (2 * GetBufSize s) (GetBufSize s)
      { s with buf_ := moveSlots P s.buf_ (GetBufSize s) new_mem' } hfit2
    have hsd : ReallocateDoubleSize.sized P new_mem' s
        = SetCurSizeVal P (GetBufSize s) (SetBufferSizeVal P (2 * GetBufSize s)
          { s with buf_ := moveSlots P s.buf_ (GetBufSize s) new_mem' }) := by
      unfold ReallocateDoubleSize.sized
      rw [h2w]
    rw [← hsd] at hsized
    obtain ⟨hcap, hsz⟩ := hsized
    obtain ⟨hg, hframe, _⟩ := ReallocateDoubleSize.body_spec hinv hfit2 new_mem'
    have hfin : GetAllBufferSize P (ReallocateDoubleSize.body P new_mem' s)
        = ReallocateDoubleSize.new_all_size P s := by rw [hg.all, hnew]
    refine ⟨rfl, ?_, hcap, ?_, ?_, ?_, hfin, ?_, hg.second_canary, ?_, hframe⟩
    · rw [hnew, hold]; omega
    · rw [hnew]; exact hsz
    · rw [hnew, Nat.add_sub_cancel, hcap]
    · rw [hold, Nat.add_sub_cancel]
    · rw [← hfin]
      exact GetSecondCanary_eq (by rw [hg.all]; exact Nat.le_add_left _ _)
    · intro k hk1 hk2
      exact hg.tail_poison k (by rw [hg.cur]; exact hk1) (by rw [hg.cap]; exact hk2)

/-- C20 for `SafeStack<uint8_t>`, `SafeStackStatic<uint8_t, 1>` and the growth
of the full `SafeStackStatic<uint8_t, 1>` that holds the value `7`: the sizes
are `50`, `41` and `42`. -/
theorem C20_sizes_passed_to_FillCanaries_witness :
    (SafeStack.construct.all_size cfgU8 = 8 + 8 + 2 * SIZEOF_SIZE_T + 10 * cfgU8.sizeofT + 8 ∧
      GetAllBufferSize cfgU8 (SafeStack.construct.sized cfgU8 1 zeroMem)
        = SafeStack.construct.all_size cfgU8) ∧
    (GetAllBufferSize cfgU8 (SafeStackStatic.construct.sized cfgU8 1 1 zeroMem)
        = SafeStackStatic.construct.all_size cfgU8 1) ∧
    (ReallocateDoubleSize.new_all_size cfgU8 fullFixedU8
        = GetAllBufferSize cfgU8 fullFixedU8 + GetBufSize fullFixedU8 * cfgU8.sizeofT ∧
      GetAllBufferSize cfgU8 (ReallocateDoubleSize.sized cfgU8 zeroMem fullFixedU8)
        = ReallocateDoubleSize.new_all_size cfgU8 fullFixedU8) :=
  have hfull : Inv cfgU8 fullFixedU8 1 1 :=
    (Push_ok_room (SafeStackStatic_construct_inv cfgU8 1 1 (by decide) (by decide) zeroMem)
      (by decide) zeroMem (u8 7)).2.2
  have hcap : GetBufSize fullFixedU8 = 1 := hfull.cap
  have h := C20_sizes_passed_to_FillCanaries cfgU8 1 1 zeroMem zeroMem zeroMem fullFixedU8
    (by decide) (by decide) (by decide) hfull.consistent (by rw [hfull.cur, hcap])
    (by rw [hcap]; decide)
  ⟨⟨h.1.2.1, h.1.2.2.2.1⟩, h.2.1.2.2.1, h.2.2.2.1, h.2.2.2.2.2.1⟩


/-- C21 (the code departs from the claim): for the growable variant the
capacity law holds as long as no `Pop` finds the stack empty, and is broken by
a `Pop` on the empty stack. A fresh stack has capacity `10`; after every
sequence of calls that the last-in-first-out reference accepts, the capacity
is `10 * 2 ^ k` for some `k`, before and after the last call of the sequence,
and that call does not decrease it; after `n` consecutive pushes on a fresh
stack the capacity is the smallest `10 * 2 ^ k` that is at least `max n 10`
(`10` for `n ≤ 10`, `20` for `11 ≤ n ≤ 20`, `320` for `n = 200`). But `Pop` on
the fresh stack, whose guard never fires, poisons the capacity field before it
throws: the capacity it leaves is not `10 * 2 ^ k` for any `k`. -/
theorem C21_pop_on_empty_breaks_the_capacity_law (P : Cfg) (this_ptr : Nat)
    (new_mem : Mem) (alloc : Nat → Mem) (pre : List (Op P)) (op : Op P)
    (outs st' vals : List (Elem P)) (n : Nat)
    (hthis : this_ptr ≠ 0)
    (hfit : BUF_POS + (2 * pushes (pre ++ [op]) + DEFAULT_INITIAL_SIZE) * P.sizeofT
      + CANARY_SIZE < WORD)
    (hfitv : BUF_POS + (2 * n + DEFAULT_INITIAL_SIZE) * P.sizeofT + CANARY_SIZE < WORD)
    (hseq : lifo (pre ++ [op]) [] = some (outs, st'))
    (hn : vals.length = n) :
    GetBufSize (SafeStack.construct P this_ptr new_mem) = 10 * 2 ^ 0 ∧
      (∃ o1 s1 s2,
        run P alloc 0 pre (SafeStack.construct P this_ptr new_mem) = some (o1, s1) ∧
        run P alloc 0 (pre ++ [op]) (SafeStack.construct P this_ptr new_mem)
          = some (outs, s2) ∧
        (∃ k, GetBufSize s1 = 10 * 2 ^ k) ∧ (∃ k, GetBufSize s2 = 10 * 2 ^ k) ∧
        GetBufSize s1 ≤ GetBufSize s2 ∧ Ok P s2 = Verdict.pass) ∧
      (∃ s' k,
        run P alloc 0 (vals.map Op.push) (SafeStack.construct P this_ptr new_mem)
          = some ([], s') ∧
        GetBufSize s' = 10 * 2 ^ k ∧ max n 10 ≤ 10 * 2 ^ k ∧
        (∀ j, max n 10 ≤ 10 * 2 ^ j → k ≤ j) ∧
        (n ≤ 10 → GetBufSize s' = 10) ∧
        (11 ≤ n → n ≤ 20 → GetBufSize s' = 20) ∧
        (n = 200 → GetBufSize s' = 320)) ∧
      (P.sizeofT ≤ BUF_POS →
        ∃ e s', Pop P (SafeStack.construct P this_ptr new_mem) = Res.thrown e s' ∧
          s'.buf_ (BUF_SIZE_POS + 7) = POISON_VALUE ∧
          ∀ k, GetBufSize s' ≠ 10 * 2 ^ k) := by
  have hfit0 : BUF_POS + DEFAULT_INITIAL_SIZE * P.sizeofT + CANARY_SIZE < WORD :=
    fits_mono (Nat.le_add_left _ _) hfit
  have h0 := SafeStack_construct_inv P this_ptr hthis hfit0 new_mem
  refine ⟨h0.cap, ?_, ?_, ?_⟩
  · have hpa := pushes_append pre [op]
    have happ := lifo_append [op] pre []
    rw [hseq] at happ
    cases hpre : lifo pre [] with
    | none => rw [hpre] at happ; exact absurd happ (by simp)
    | some r1 =>
      rw [hpre] at happ
      dsimp only at happ
      cases hl2 : lifo [op] r1.2 with
      | none => rw [hl2] at happ; exact absurd happ (by simp)
      | some r2 =>
        have hlen := lifo_length_le pre [] r1 hpre
        simp only [List.length_nil, Nat.zero_add] at hlen
        obtain ⟨o, s1, j1, hrun1, hinv1, hcB1⟩ :=
          run_doubling P alloc _ hfit pre 0 _ DEFAULT_INITIAL_SIZE [] r1.1 r1.2 h0
            (by decide) (Nat.le_add_left _ _) (Or.inr (by simp only [List.length_nil]; omega))
            hpre
        obtain ⟨o', s2, j2, hrun2, hinv2, _⟩ :=
          run_doubling P alloc _ hfit [op] (0 + pre.length) s1 (DEFAULT_INITIAL_SIZE * 2 ^ j1)
            r1.2 r2.1 r2.2 hinv1
            (Nat.mul_pos (by decide) (Nat.two_pow_pos j1))
            hcB1 (Or.inr (by omega)) hl2
        obtain ⟨s', c', hrun, hinv', _, _⟩ :=
          run_fresh P this_ptr hthis alloc new_mem (pre ++ [op]) outs st' hfit hseq
        have hrapp := run_append P alloc [op] pre 0 (SafeStack.construct P this_ptr new_mem)
        rw [hrun, hrun1] at hrapp
        simp only [hrun2, Option.map_some', Option.some.injEq, Prod.mk.injEq] at hrapp
        have hs : s' = s2 := hrapp.2
        have hc1 : GetBufSize s1 = 10 * 2 ^ j1 := hinv1.cap
        have hc2 : GetBufSize s2 = 10 * 2 ^ (j1 + j2) := by
          rw [hinv2.cap, pow_add, Nat.mul_assoc]
          rfl
        refine ⟨o, s1, s2, hrun1, by rw [← hs]; exact hrun, ⟨j1, hc1⟩, ⟨j1 + j2, hc2⟩, ?_,
          by rw [← hs]; exact hinv'.ok⟩
        rw [hc1, hc2, pow_add, ← Nat.mul_assoc]
        exact Nat.le_mul_of_pos_right _ (Nat.two_pow_pos j2)
  · subst hn
    obtain ⟨s', e', hrun, hinv', hmin'⟩ :=
      run_pushes_tight P alloc _ hfitv vals 0 _ 0 0 h0 (fun _ _ => Nat.zero_le _)
        (by omega)
    rw [Nat.zero_add] at hinv' hmin'
    have hcap := hinv'.cap
    have hle := hinv'.le
    have hpow : 1 ≤ 2 ^ e' := Nat.one_le_two_pow
    refine ⟨s', e', hrun, hcap, by omega, hmin', ?_, ?_, ?_⟩
    · intro h10
      have he : e' ≤ 0 := hmin' 0 (by omega)
      have he0 : e' = 0 := by omega
      rw [hcap, he0]
      norm_num
    · intro h11 h20
      have he : e' ≤ 1 := hmin' 1 (by omega)
      have he1 : e' = 1 := by
        rcases Nat.eq_zero_or_pos e' with h | h
        · rw [h] at hle
          omega
        · omega
      rw [hcap, he1]
      norm_num
    · intro h200
      have he : e' ≤ 5 := hmin' 5 (by omega)
      rw [h200] at hle
      have he5 : e' = 5 := by
        interval_cases e' <;> omega
      rw [hcap, he5]
      norm_num
  · intro hsz
    obtain ⟨e, s', hthrow, _, _, _, hbyte⟩ := Pop_empty_thrown h0 hsz
    exact ⟨e, s', hthrow, hbyte, poisoned_capacity s' hbyte⟩

/-- C21 on a fresh `SafeStack<uint64_t>`: the sequence `Push(1); Pop()`, the
200 pushes of the stress test, and `Pop` on the empty stack. -/
theorem C21_pop_on_empty_breaks_the_capacity_law_witness :
    (1 ≠ 0 ∧ lifo ([Op.push (u64 1)] ++ [Op.pop]) [] = some ([u64 1], []) ∧
      ((List.range 200).map u64).length = 200) ∧
    (GetBufSize (SafeStack.construct cfgU64 1 zeroMem) = 10 * 2 ^ 0 ∧
      (∃ o1 s1 s2,
        run cfgU64 (fun _ => zeroMem) 0 [Op.push (u64 1)] (SafeStack.construct cfgU64 1 zeroMem)
          = some (o1, s1) ∧
        run cfgU64 (fun _ => zeroMem) 0 ([Op.push (u64 1)] ++ [Op.pop])
            (SafeStack.construct cfgU64 1 zeroMem)
          = some ([u64 1], s2) ∧
        (∃ k, GetBufSize s1 = 10 * 2 ^ k) ∧ (∃ k, GetBufSize s2 = 10 * 2 ^ k) ∧
        GetBufSize s1 ≤ GetBufSize s2 ∧ Ok cfgU64 s2 = Verdict.pass) ∧
      (∃ s' k,
        run cfgU64 (fun _ => zeroMem) 0 (((List.range 200).map u64).map Op.push)
            (SafeStack.construct cfgU64 1 zeroMem)
          = some ([], s') ∧
        GetBufSize s' = 10 * 2 ^ k ∧ max 200 10 ≤ 10 * 2 ^ k ∧
        (∀ j, max 200 10 ≤ 10 * 2 ^ j → k ≤ j) ∧
        (200 ≤ 10 → GetBufSize s' = 10) ∧
        (11 ≤ 200 → 200 ≤ 20 → GetBufSize s' = 20) ∧
        (200 = 200 → GetBufSize s' = 320)) ∧
      (cfgU64.sizeofT ≤ BUF_POS →
        ∃ e s', Pop cfgU64 (SafeStack.construct cfgU64 1 zeroMem) = Res.thrown e s' ∧
          s'.buf_ (BUF_SIZE_POS + 7) = POISON_VALUE ∧
          ∀ k, GetBufSize s' ≠ 10 * 2 ^ k)) :=
  ⟨⟨by decide, rfl, by simp⟩,
    C21_pop_on_empty_breaks_the_capacity_law cfgU64 1 zeroMem (fun _ => zeroMem)
      [Op.push (u64 1)] Op.pop [u64 1] [] ((List.range 200).map u64) 200
      (by decide) (by decide) (by decide) rfl (by simp)⟩

end stack
end shush
